import Mathlib

/-!
# CSudokuSolver: a shallow embedding of `sudoku.c`

The global array `static int sudoku[SIZE][SIZE][SIZE + 2]` is modelled as a
function from a pair of indices in `0..8` to a `Cell`.  Slots `0..8` of an
entry are the candidate flags (the source stores only `TRUE` or `FALSE`
there, so they are booleans), slot `SIZE` is `CAND_COUNT` and slot `SIZE+1`
is `FIXED_VAL`.

Indexing an array outside its bounds is undefined in C.  The two places of
the source where an index is computed from data are `FIXED_VAL(..) - 1` in
the eliminators and `sudoku[ii][jj]` after the guess-cell scan.  The first
indexes an entry of `SIZE + 2` slots: the values `0..8` are the flags, `9` is
the `CAND_COUNT` slot and `10` the `FIXED_VAL` slot of the target, and only
an index outside `0..10` is undefined (`none` for the eliminators).  The
second is undefined when the scan has run to `ii = jj = 9`.

`attempt_to_solve` is recursive and contains a `while` loop; both are
modelled with a fuel argument and a separate `outOfFuel` outcome, and the
theorems show that the fuel never runs out.
-/

namespace CSudoku

/-! ## Data model -/

/-- One entry `sudoku[ii][jj]` of the global array. -/
structure Cell where
  /-- Slots `0..8`: `cand k` says that the value `k+1` is still a candidate. -/
  cand : Fin 9 → Bool
  /-- Slot `SIZE`, the macro `CAND_COUNT`. -/
  count : Int
  /-- Slot `SIZE+1`, the macro `FIXED_VAL`. -/
  fixed : Int
deriving DecidableEq

/-- The global array `sudoku`. -/
abbrev Grid := Fin 9 → Fin 9 → Cell

/-- The assignment `sudoku[ii][jj] = c` of a whole entry. -/
def setCell (g : Grid) (ii jj : Fin 9) (c : Cell) : Grid :=
  fun a b => if a = ii ∧ b = jj then c else g a b

/-- The index values of a loop `for (kk=0; kk<SIZE; kk++)`, in order. -/
def idx9 : List (Fin 9) := [0, 1, 2, 3, 4, 5, 6, 7, 8]

/-- The index pairs of a nested loop `for (ii..) for (jj..)`, in row-major order. -/
def allCells : List (Fin 9 × Fin 9) :=
  idx9.flatMap fun ii => idx9.map fun jj => (ii, jj)

/-- The index values of a loop `for (kk=xx; kk<(xx+BLOCK_SIZE); kk++)` with
`xx = (ii/3)*3`. -/
def blockRange (ii : Fin 9) : List (Fin 9) :=
  [⟨(ii.val / 3) * 3, by omega⟩, ⟨(ii.val / 3) * 3 + 1, by omega⟩,
   ⟨(ii.val / 3) * 3 + 2, by omega⟩]

/-- The array `sudoku` as the C runtime provides it: static storage is zeroed. -/
def zeroGrid : Grid := fun _ _ => ⟨fun _ => false, 0, 0⟩

/-- The program state: the global array and the two global depth counters.
The field `guesses` is instrumentation that the source does not have: it
counts the recursive calls made, so that claims about "making a guess" can be
stated.  No control flow depends on it. -/
structure State where
  sudoku : Grid
  max_rec_depth : Int
  cur_rec_depth : Int
  guesses : Nat

/-- The result of running a piece of the program with some fuel. -/
inductive Outcome (α : Type) where
  /-- The model ran out of fuel (says nothing about the program). -/
  | outOfFuel : Outcome α
  /-- The program indexed an array out of bounds. -/
  | undefined : Outcome α
  /-- The program returned. -/
  | returned : α → Outcome α

/-! ## `initialize` -/

/-- The call `fscanf(file, "%d", &xx)`: the file is the list of integers still
to be read; when there is none left, `xx` keeps its value. -/
def fscanf (file : List Int) (xx : Int) : Int × List Int :=
  match file with
  | [] => (xx, [])
  | x :: rest => (x, rest)

/-- What `initialize` returns and leaves behind: the return code, the global
array, the arguments of the `printf("Bad egg %d in input file at %d %d\n")`
call if it was made, and the part of the file that no `fscanf` consumed. -/
structure InitResult where
  rc : Bool
  sudoku : Grid
  report : Option (Int × Nat × Nat)
  unread : List Int

/-- The nested loops of `initialize`, over the index pairs still to visit. -/
def initialize_loop : List (Fin 9 × Fin 9) → List Int → Int → Grid → InitResult
  | [], file, _, g => ⟨true, g, none, file⟩
  | (ii, jj) :: rest, file, xx, g =>
    let g1 := setCell g ii jj ⟨fun _ => true, 9, (g ii jj).fixed⟩
    let r := fscanf file xx
    let xx := r.1
    if xx < 0 ∨ xx > 9 then
      ⟨false, g1, some (xx, ii.val + 1, jj.val + 1), r.2⟩
    else if xx > 0 then
      initialize_loop rest r.2 xx
        (setCell g1 ii jj ⟨fun kk => decide ((kk.val : Int) = xx - 1), 1, xx⟩)
    else
      initialize_loop rest r.2 xx g1

/-- The function `initialize`.  `xx0` is the (indeterminate) initial value of
the local `xx`; it matters only if the file holds no integer at all. -/
def initialize_sudoku (file : List Int) (xx0 : Int) : InitResult :=
  initialize_loop allCells file xx0 zeroGrid

/-! ## The eliminators -/

/-- The function `unique_value`. -/
def unique_value (g : Grid) (xx yy : Fin 9) : Int :=
  match idx9.find? (fun ii => (g xx yy).cand ii) with
  | some ii => (ii.val : Int) + 1
  | none => 10

/-- The body that `proc_row`, `proc_col` and `proc_block` share, for a peer
whose `FIXED_VAL` is `v`: test `sudoku[ii][jj][v - 1] == TRUE`, store `FALSE`
in that slot, decrement `CAND_COUNT(ii,jj)` and, if it became 1, store
`unique_value(ii,jj)` in `FIXED_VAL(ii,jj)`.  For `v` in `1..9` the slot is a
flag; for `v = 10` it is `CAND_COUNT(ii,jj)` and for `v = 11` it is
`FIXED_VAL(ii,jj)`, the last two of the `SIZE + 2` slots of the entry.
`none` when `v - 1` is not an index of the entry. -/
def eliminate (g : Grid) (ii jj : Fin 9) (v : Int) : Option Grid :=
  if h : 1 ≤ v ∧ v ≤ 9 then
    let k : Fin 9 := ⟨(v - 1).toNat, by omega⟩
    if (g ii jj).cand k = true then
      let g1 := setCell g ii jj
        ⟨Function.update (g ii jj).cand k false, (g ii jj).count - 1, (g ii jj).fixed⟩
      if (g1 ii jj).count = 1 then
        some (setCell g1 ii jj
          ⟨(g1 ii jj).cand, (g1 ii jj).count, unique_value g1 ii jj⟩)
      else
        some g1
    else
      some g
  else if v = 10 then
    if (g ii jj).count = 1 then
      let g0 := setCell g ii jj ⟨(g ii jj).cand, 0, (g ii jj).fixed⟩
      let g1 := setCell g0 ii jj
        ⟨(g0 ii jj).cand, (g0 ii jj).count - 1, (g0 ii jj).fixed⟩
      if (g1 ii jj).count = 1 then
        some (setCell g1 ii jj
          ⟨(g1 ii jj).cand, (g1 ii jj).count, unique_value g1 ii jj⟩)
      else
        some g1
    else
      some g
  else if v = 11 then
    if (g ii jj).fixed = 1 then
      let g0 := setCell g ii jj ⟨(g ii jj).cand, (g ii jj).count, 0⟩
      let g1 := setCell g0 ii jj
        ⟨(g0 ii jj).cand, (g0 ii jj).count - 1, (g0 ii jj).fixed⟩
      if (g1 ii jj).count = 1 then
        some (setCell g1 ii jj
          ⟨(g1 ii jj).cand, (g1 ii jj).count, unique_value g1 ii jj⟩)
      else
        some g1
    else
      some g
  else
    none

/-- The function `proc_row`. -/
def proc_row (g : Grid) (ii jj : Fin 9) : Option Grid :=
  idx9.foldlM (fun g kk =>
    if jj ≠ kk ∧ (g ii kk).count = 1 ∧ (g ii jj).count > 1 then
      eliminate g ii jj (g ii kk).fixed
    else some g) g

/-- The function `proc_col`. -/
def proc_col (g : Grid) (ii jj : Fin 9) : Option Grid :=
  idx9.foldlM (fun g kk =>
    if ii ≠ kk ∧ (g kk jj).count = 1 ∧ (g ii jj).count > 1 then
      eliminate g ii jj (g kk jj).fixed
    else some g) g

/-- The function `proc_block`.  Unlike the other two its test does not ask
for `CAND_COUNT(ii,jj) > 1`. -/
def proc_block (g : Grid) (ii jj : Fin 9) : Option Grid :=
  (blockRange ii).foldlM (fun g kk =>
    (blockRange jj).foldlM (fun g ll =>
      if (kk ≠ ii ∨ ll ≠ jj) ∧ (g kk ll).count = 1 then
        eliminate g ii jj (g kk ll).fixed
      else some g) g) g

/-! ## `number_known` and `do_check` -/

/-- The function `number_known`. -/
def number_known (g : Grid) : Nat :=
  allCells.countP fun p => decide ((g p.1 p.2).count = 1)

/-- The tests `do_check` makes for the entry `(ii, jj)`: each conjunct is the
negation of one `if` that jumps to `EXIT` with `success = FALSE`. -/
def check_cell (g : Grid) (ii jj : Fin 9) : Bool :=
  !decide ((g ii jj).count = 0) &&
  idx9.all (fun kk =>
    !decide ((g ii kk).count = 1 ∧ (g ii jj).count = 1 ∧ jj ≠ kk ∧
      (g ii kk).fixed = (g ii jj).fixed)) &&
  idx9.all (fun kk =>
    !decide ((g kk jj).count = 1 ∧ (g ii jj).count = 1 ∧ ii ≠ kk ∧
      (g kk jj).fixed = (g ii jj).fixed)) &&
  (blockRange ii).all (fun kk => (blockRange jj).all (fun ll =>
    !decide ((g kk ll).count = 1 ∧ (g ii jj).count = 1 ∧ (kk ≠ ii ∨ ll ≠ jj) ∧
      (g kk ll).fixed = (g ii jj).fixed)))

/-- The function `do_check`: `TRUE` unless some test jumped to `EXIT`. -/
def do_check (g : Grid) : Bool :=
  allCells.all fun p => check_cell g p.1 p.2

/-! ## `attempt_to_solve` -/

/-- The three calls made for an entry inside the propagation loop. -/
def visit (g : Grid) (ii jj : Fin 9) : Option Grid :=
  if (g ii jj).count > 1 then
    (proc_row g ii jj).bind fun g1 =>
    (proc_col g1 ii jj).bind fun g2 =>
    proc_block g2 ii jj
  else some g

/-- The body of the `while` loop of `attempt_to_solve` (lines 249-263). -/
def propagation_pass (g : Grid) : Option Grid :=
  allCells.foldlM (fun g p => visit g p.1 p.2) g

/-- The `while` loop of `attempt_to_solve`; returns the array and `num_known`
as they are when the loop exits. -/
def propagation_loop : Nat → Grid → Nat → Outcome (Grid × Nat)
  | 0, _, _ => .outOfFuel
  | fuel + 1, g, last_num_known =>
    let num_known := number_known g
    if num_known > last_num_known ∧ num_known < 81 then
      match propagation_pass g with
      | none => .undefined
      | some g1 => propagation_loop fuel g1 num_known
    else .returned (g, num_known)

/-- The scan for the first entry with more than one candidate (lines 289-305).
`none` stands for the scan running to the end, which leaves `ii = jj = 9`. -/
def find_guess (g : Grid) : Option (Fin 9 × Fin 9) :=
  allCells.find? fun p => decide ((g p.1 p.2).count > 1)

/-- The entry written by lines 330-344 for the candidate index `ll`. -/
def guess_cell (ll : Fin 9) : Cell :=
  ⟨fun mm => decide (mm = ll), 1, (ll.val : Int) + 1⟩

/-- The `for (ll..)` loop of `attempt_to_solve` (lines 317-367), over the
candidate indices still to try.  `solve` is the recursive call, `success` the
current value of the local of that name. -/
def guess_loop (solve : State → Outcome (Bool × State)) (ii jj : Fin 9)
    (saved_entry : Cell) : List (Fin 9) → Bool → State → Outcome (Bool × State)
  | [], success, s => .returned (success, s)
  | ll :: rest, success, s =>
    if saved_entry.cand ll = true then
      let saved_sudoku := s.sudoku
      match solve ⟨setCell s.sudoku ii jj (guess_cell ll), s.max_rec_depth,
          s.cur_rec_depth, s.guesses + 1⟩ with
      | .outOfFuel => .outOfFuel
      | .undefined => .undefined
      | .returned (true, s1) => .returned (true, s1)
      | .returned (false, s1) =>
        guess_loop solve ii jj saved_entry rest false
          ⟨saved_sudoku, s1.max_rec_depth, s1.cur_rec_depth, s1.guesses⟩
    else
      guess_loop solve ii jj saved_entry rest success s

/-- The label `EXIT` of `attempt_to_solve`: decrement `cur_rec_depth`, return. -/
def exit_solve (success : Bool) (s : State) : Outcome (Bool × State) :=
  .returned (success, ⟨s.sudoku, s.max_rec_depth, s.cur_rec_depth - 1, s.guesses⟩)

/-- The entry of `attempt_to_solve` (lines 226-234). -/
def enter_solve (s : State) : State :=
  let cur := s.cur_rec_depth + 1
  ⟨s.sudoku, if s.max_rec_depth < cur then cur else s.max_rec_depth, cur, s.guesses⟩

/-- The body of `attempt_to_solve`, with the recursive call as the parameter
`solve`.  The `while` loop gets the fuel `SIZE*SIZE`, which
`propagation_loop_fuel` shows is never used up. -/
def solve_body (solve : State → Outcome (Bool × State)) (s : State) :
    Outcome (Bool × State) :=
  let s0 := enter_solve s
  match propagation_loop 81 s0.sudoku 0 with
  | .outOfFuel => .outOfFuel
  | .undefined => .undefined
  | .returned (g, num_known) =>
    let s1 : State := ⟨g, s0.max_rec_depth, s0.cur_rec_depth, s0.guesses⟩
    if do_check g = false then exit_solve false s1
    else if num_known = 81 then exit_solve true s1
    else
      match find_guess g with
      | none => .undefined
      | some (ii, jj) =>
        match guess_loop solve ii jj (g ii jj) idx9 true s1 with
        | .outOfFuel => .outOfFuel
        | .undefined => .undefined
        | .returned (success, s2) => exit_solve success s2

/-- The function `attempt_to_solve`, with `fuel` bounding the nesting of
recursive calls. -/
def attempt_to_solve_fuel : Nat → State → Outcome (Bool × State)
  | 0 => fun _ => .outOfFuel
  | fuel + 1 => solve_body (attempt_to_solve_fuel fuel)

/-- The number of entries with `CAND_COUNT > 1`: the measure that bounds the
recursion. -/
def undetermined (g : Grid) : Nat :=
  allCells.countP fun p => decide ((g p.1 p.2).count > 1)

/-- The top-level call `attempt_to_solve()` made by `main`: the counters are
the statically initialised globals, and the fuel is one more than the number
of entries there are. -/
def attempt_to_solve (g : Grid) : Outcome (Bool × State) :=
  attempt_to_solve_fuel 82 ⟨g, 0, 0, 0⟩

/-! ## Specification vocabulary -/

/-- The value is outside `[0,9]`: the test `(xx < 0) || (xx > SIZE)`. -/
def BadValue (x : Int) : Prop := x < 0 ∨ x > 9

instance (x : Int) : Decidable (BadValue x) := by unfold BadValue; infer_instance

/-- The input `file` puts the value `v` at row `i`, column `j` (row-major). -/
def InputAt (file : List Int) (i j : Fin 9) (v : Int) : Prop :=
  file[9 * i.val + j.val]? = some v

/-- The number of candidate flags of an entry that are marked present. -/
def numCand (c : Cell) : Nat := (Finset.univ.filter fun k => c.cand k = true).card

/-- Two entries lie in the same 3x3 block. -/
def SameBlock (i j k l : Fin 9) : Prop := i.val / 3 = k.val / 3 ∧ j.val / 3 = l.val / 3

instance (i j k l : Fin 9) : Decidable (SameBlock i j k l) := by
  unfold SameBlock; infer_instance

/-- Two distinct entries that share a row, a column or a block. -/
def Peer (i j k l : Fin 9) : Prop :=
  (i ≠ k ∨ j ≠ l) ∧ (i = k ∨ j = l ∨ SameBlock i j k l)

instance (i j k l : Fin 9) : Decidable (Peer i j k l) := by unfold Peer; infer_instance

/-- Some entry has run out of candidates. -/
def HasDead (g : Grid) : Prop := ∃ i j, (g i j).count = 0

/-- Two peers are both resolved, to the same value. -/
def HasClash (g : Grid) : Prop :=
  ∃ i j k l, Peer i j k l ∧ (g i j).count = 1 ∧ (g k l).count = 1 ∧
    (g i j).fixed = (g k l).fixed

/-- The entry that `initialize` leaves where it read the value `v` (in
`[0,9]`), given the entry `old` that was there before. -/
def initCell (old : Cell) (v : Int) : Cell :=
  if v > 0 then ⟨fun kk => decide ((kk.val : Int) = v - 1), 1, v⟩
  else ⟨fun _ => true, 9, old.fixed⟩

/-- The candidate-count invariant for one entry: `CAND_COUNT` is the number
of flags marked present. -/
def CountOk (c : Cell) : Prop := c.count = (numCand c : Int)

/-- The resolved-value invariant for one entry: when `CAND_COUNT` is 1,
`FIXED_VAL` is in `1..9` and is the one candidate marked present. -/
def FixedOk (c : Cell) : Prop :=
  c.count = 1 → ∃ k : Fin 9, c.fixed = (k.val : Int) + 1 ∧ ∀ m, c.cand m = true ↔ m = k

/-- The candidate-count invariant of the array. -/
def CountInv (g : Grid) : Prop := ∀ i j, CountOk (g i j)

/-- The resolved-value invariant of the array. -/
def FixedInv (g : Grid) : Prop := ∀ i j, FixedOk (g i j)

/-- Both invariants. -/
def Inv (g : Grid) : Prop := CountInv g ∧ FixedInv g

/-- What `unique_value` computes from the entry it looks at. -/
def uniqueOf (c : Cell) : Int :=
  match idx9.find? (fun ii => c.cand ii) with
  | some ii => (ii.val : Int) + 1
  | none => 10

/-- What `eliminate` does to the target entry when the peer value is `k+1`. -/
def elimCell (c : Cell) (k : Fin 9) : Cell :=
  if c.cand k = true then
    if c.count - 1 = 1 then
      ⟨Function.update c.cand k false, c.count - 1,
        uniqueOf ⟨Function.update c.cand k false, c.count - 1, c.fixed⟩⟩
    else ⟨Function.update c.cand k false, c.count - 1, c.fixed⟩
  else c

/-- The entry `c2` comes from `c1` by eliminations of values that satisfy `P`. -/
inductive Elims (P : Fin 9 → Prop) : Cell → Cell → Prop where
  | refl (c : Cell) : Elims P c c
  | step {c c1 : Cell} (k : Fin 9) : Elims P c c1 → P k → Elims P c (elimCell c1 k)

/-- The value `k+1` is the resolved value of a resolved peer of `(ii, jj)`. -/
def PeerVal (g : Grid) (ii jj : Fin 9) (k : Fin 9) : Prop :=
  ∃ a b, Peer a b ii jj ∧ (g a b).count = 1 ∧ (g a b).fixed = (k.val : Int) + 1

/-- No entry of `g2` has gained a candidate or a larger count over `g1`, and
the entries of `g1` with `CAND_COUNT` at most 1 are untouched. -/
def Shrinks (g1 g2 : Grid) : Prop :=
  ∀ a b, ((g1 a b).count ≤ 1 → g2 a b = g1 a b) ∧
    (∀ m, (g2 a b).cand m = true → (g1 a b).cand m = true) ∧
    (g2 a b).count ≤ (g1 a b).count

/-- A complete assignment, by candidate index (`S i j = k` puts the value
`k+1` at `(i, j)`), in which peers differ. -/
def ValidIdx (S : Fin 9 → Fin 9 → Fin 9) : Prop :=
  ∀ i j k l, Peer i j k l → S i j ≠ S k l

/-- Every entry of `g` still has the value of `S` among its candidates. -/
def Cons (S : Fin 9 → Fin 9 → Fin 9) (g : Grid) : Prop :=
  ∀ i j, (g i j).cand (S i j) = true

/-- What a stretch of propagation guarantees about the array it leaves. -/
def Refines (g1 g2 : Grid) : Prop :=
  Inv g2 ∧ Shrinks g1 g2 ∧ ∀ S, ValidIdx S → Cons S g1 → Cons S g2

/-- The array is complete and accepted: the state in which `attempt_to_solve`
takes its `goto EXIT` with `success` still `TRUE`. -/
def Solved (g : Grid) : Prop := number_known g = 81 ∧ do_check g = true

/-- What a call of `attempt_to_solve` guarantees when it returns `b` and
leaves the array `g2`, having been entered with the array `g1`. -/
def Post (g1 : Grid) (b : Bool) (g2 : Grid) : Prop :=
  Inv g2 ∧ (b = true → Solved g2 ∧ Shrinks g1 g2) ∧
    (∀ S, ValidIdx S → Cons S g1 → b = true)

/-- The function `solve` behaves like `attempt_to_solve` on every array that
satisfies the invariants and has fewer than `bound` undetermined entries. -/
def SolveSpec (solve : State → Outcome (Bool × State)) (bound : Nat) : Prop :=
  ∀ t : State, Inv t.sudoku → undetermined t.sudoku < bound →
    ∃ b t2, solve t = .returned (b, t2) ∧ Post t.sudoku b t2.sudoku

/-- A complete valid Sudoku grid: every row, every column and every 3x3 block
contains each of the values `1..9` exactly once. -/
def IsSudoku (V : Fin 9 → Fin 9 → Int) : Prop :=
  (∀ (i : Fin 9) (v : Int), 1 ≤ v → v ≤ 9 → ∃! j : Fin 9, V i j = v) ∧
  (∀ (j : Fin 9) (v : Int), 1 ≤ v → v ≤ 9 → ∃! i : Fin 9, V i j = v) ∧
  (∀ (bi bj : Fin 3) (v : Int), 1 ≤ v → v ≤ 9 →
    ∃! p : Fin 9 × Fin 9, (p.1.val / 3 = bi.val ∧ p.2.val / 3 = bj.val) ∧ V p.1 p.2 = v)

/-- The grid `V` agrees with every given (non-zero value) of the input. -/
def AgreesWith (V : Fin 9 → Fin 9 → Int) (file : List Int) : Prop :=
  ∀ i j v, InputAt file i j v → v ≠ 0 → V i j = v

/-- The candidate index of a value in `1..9` (the value minus one). -/
def idxOf (v : Int) : Fin 9 := ⟨(v - 1).toNat % 9, Nat.mod_lt _ (by omega)⟩

/-! ## Sample inputs -/

/-- A complete valid Sudoku grid, as an input file. -/
def sampleFile : List Int :=
  [1, 2, 3, 4, 5, 6, 7, 8, 9,
   4, 5, 6, 7, 8, 9, 1, 2, 3,
   7, 8, 9, 1, 2, 3, 4, 5, 6,
   2, 3, 4, 5, 6, 7, 8, 9, 1,
   5, 6, 7, 8, 9, 1, 2, 3, 4,
   8, 9, 1, 2, 3, 4, 5, 6, 7,
   3, 4, 5, 6, 7, 8, 9, 1, 2,
   6, 7, 8, 9, 1, 2, 3, 4, 5,
   9, 1, 2, 3, 4, 5, 6, 7, 8]

/-- The value of `sampleFile` at row `i`, column `j`. -/
def sampleVal (i j : Fin 9) : Int := sampleFile.getD (9 * i.val + j.val) 0

/-- The array in which every entry has all nine candidates. -/
def blankGrid : Grid := fun _ _ => ⟨fun _ => true, 9, 0⟩

/-- What one call of `attempt_to_solve`, entered in state `s` and left in
state `s2`, does to the depth counters and to the count of recursive calls. -/
def DepthOk (s s2 : State) : Prop :=
  s2.cur_rec_depth = s.cur_rec_depth ∧ s.guesses ≤ s2.guesses ∧
  s.max_rec_depth ≤ s2.max_rec_depth ∧
  (s2.guesses = s.guesses → s.max_rec_depth < s.cur_rec_depth + 1 →
    s2.max_rec_depth = s.cur_rec_depth + 1) ∧
  (s2.guesses = s.guesses → ¬(s.max_rec_depth < s.cur_rec_depth + 1) →
    s2.max_rec_depth = s.max_rec_depth) ∧
  (s.guesses < s2.guesses → s.cur_rec_depth + 2 ≤ s2.max_rec_depth)

/-- What the guess loop, entered in state `s` and left in state `s2`, does to
the depth counters and to the count of recursive calls. -/
def LoopDepthOk (s s2 : State) : Prop :=
  s2.cur_rec_depth = s.cur_rec_depth ∧ s.guesses ≤ s2.guesses ∧
  s.max_rec_depth ≤ s2.max_rec_depth ∧
  (s2.guesses = s.guesses → s2.max_rec_depth = s.max_rec_depth) ∧
  (s.guesses < s2.guesses → s.cur_rec_depth + 1 ≤ s2.max_rec_depth)

/-- An input whose first two values, in the same row, are both 1. -/
def clashFile : List Int := 1 :: 1 :: List.replicate 79 0

/-- One step of `proc_row` or `proc_col` on the target entry, for a resolved
peer of value `k+1`: the test `CAND_COUNT(ii,jj) > 1` guards the elimination. -/
def elimGuarded (c : Cell) (k : Fin 9) : Cell := if c.count > 1 then elimCell c k else c

/-- The candidate indices of the resolved values that the loop of `proc_row`
meets, in the order of the loop. -/
def rowVals (g : Grid) (ii jj : Fin 9) : List (Fin 9) :=
  idx9.flatMap fun kk =>
    if jj ≠ kk ∧ (g ii kk).count = 1 then [idxOf (g ii kk).fixed] else []

/-- The candidate indices of the resolved values that the loop of `proc_col`
meets, in the order of the loop. -/
def colVals (g : Grid) (ii jj : Fin 9) : List (Fin 9) :=
  idx9.flatMap fun kk =>
    if ii ≠ kk ∧ (g kk jj).count = 1 then [idxOf (g kk jj).fixed] else []

/-- The candidate indices of the resolved values that the loops of
`proc_block` meet, in the order of the loops. -/
def blockVals (g : Grid) (ii jj : Fin 9) : List (Fin 9) :=
  (blockRange ii).flatMap fun kk => (blockRange jj).flatMap fun ll =>
    if (kk ≠ ii ∨ ll ≠ jj) ∧ (g kk ll).count = 1 then [idxOf (g kk ll).fixed] else []

/-- The number of candidates that `c` has and `c2` has not. -/
def numRemoved (c c2 : Cell) : Nat :=
  (Finset.univ.filter fun m => c.cand m = true ∧ c2.cand m = false).card

/-- The calls of three eliminators on one target, one after the other. -/
def seq3 (p1 p2 p3 : Grid → Fin 9 → Fin 9 → Option Grid) (g : Grid) (ii jj : Fin 9) :
    Option Grid :=
  (p1 g ii jj).bind fun g1 => (p2 g1 ii jj).bind fun g2 => p3 g2 ii jj

/-- An array that satisfies both invariants in which the target `(0,0)` has
the candidates 1 and 2 and its row holds a resolved 1 and a resolved 2. -/
def rowStopGrid : Grid := fun i j =>
  if i = 0 ∧ j = 0 then ⟨fun m => decide (m.val < 2), 2, 0⟩
  else if i = 0 ∧ j = 1 then guess_cell 0
  else if i = 0 ∧ j = 2 then guess_cell 1
  else ⟨fun _ => true, 9, 0⟩

/-- The transpose of `rowStopGrid`: the resolved 1 and 2 are in the column of
the target `(0,0)`. -/
def colStopGrid : Grid := fun i j => rowStopGrid j i

/-- An array that satisfies both invariants in which the target `(0,0)` has
the candidates 1 and 2, its row holds a resolved 1 and its block a resolved 2. -/
def orderGrid : Grid := fun i j =>
  if i = 0 ∧ j = 0 then ⟨fun m => decide (m.val < 2), 2, 0⟩
  else if i = 0 ∧ j = 5 then guess_cell 0
  else if i = 1 ∧ j = 1 then guess_cell 1
  else ⟨fun _ => true, 9, 0⟩

/-- An array that satisfies the candidate-count invariant but not the
resolved-value invariant: the entry `(0,0)` has the single candidate 1 and
`FIXED_VAL` 10, the entry `(0,1)` has the candidates 2 and 3, and every other
entry is resolved to its value in `sampleVal`. -/
def slotGrid : Grid := fun i j =>
  if i = 0 ∧ j = 0 then ⟨fun m => decide (m = 0), 1, 10⟩
  else if i = 0 ∧ j = 1 then ⟨fun m => decide (m.val = 1 ∨ m.val = 2), 2, 0⟩
  else guess_cell (idxOf (sampleVal i j))

/-- An array that satisfies both invariants: the entry `(0,0)` is resolved to
1 and every other entry has all nine candidates. -/
def oneGivenGrid : Grid := fun i j =>
  if i = 0 ∧ j = 0 then guess_cell 0 else ⟨fun _ => true, 9, 0⟩

/-- What `attempt_to_solve`, entered with the array `g`, has when the
propagation loop has returned: the result of `do_check`, `num_known`, and the
result of the scan for the guess cell. -/
def scan_after_loop (g : Grid) : Option (Bool × Nat × Option (Fin 9 × Fin 9)) :=
  match propagation_loop 81 g 0 with
  | .returned (g1, num_known) => some (do_check g1, num_known, find_guess g1)
  | _ => none

instance (c : Cell) : Decidable (CountOk c) := by unfold CountOk; infer_instance

instance (c : Cell) : Decidable (FixedOk c) := by unfold FixedOk; infer_instance

instance (g : Grid) : Decidable (Inv g) := by unfold Inv CountInv FixedInv; infer_instance

instance (g : Grid) : Decidable (CountInv g) := by unfold CountInv; infer_instance

instance (g : Grid) : Decidable (FixedInv g) := by unfold FixedInv; infer_instance

/-- No entry with `CAND_COUNT > 1` has among its candidates the resolved value
of a resolved peer: no eliminator of a propagation pass has anything to remove. -/
def FixedPoint (g : Grid) : Prop :=
  ∀ i j, (g i j).count > 1 → ∀ a b (k : Fin 9), Peer a b i j → (g a b).count = 1 →
    (g a b).fixed = (k.val : Int) + 1 → (g i j).cand k = false

/-- The position of an entry in the row-major order of the array. -/
def cellIndex (i j : Fin 9) : Nat := 9 * i.val + j.val

/-- The grid `A` is at most the grid `B` in the lexicographic order of their
row-major sequences of values: they are equal, or `A` is smaller at the first
entry where they differ. -/
def LexLe (A B : Fin 9 → Fin 9 → Int) : Prop :=
  A = B ∨ ∃ i j, (∀ a b, cellIndex a b < cellIndex i j → A a b = B a b) ∧ A i j < B i j

/-- The order `LexLe` for grids of candidate indices. -/
def LexLeIdx (A B : Fin 9 → Fin 9 → Fin 9) : Prop :=
  (∀ i j, A i j = B i j) ∨
  ∃ i j, (∀ a b, cellIndex a b < cellIndex i j → A a b = B a b) ∧ A i j < B i j

/-- The candidate indices of the resolved values of an array. -/
def solIdx (g : Grid) : Fin 9 → Fin 9 → Fin 9 := fun i j => idxOf (g i j).fixed

/-! ## Theorems -/

/-! ### `initialize` -/

theorem setCell_same (g : Grid) (ii jj : Fin 9) (c : Cell) : setCell g ii jj c ii jj = c := by
  simp [setCell]

theorem setCell_other (g : Grid) (ii jj a b : Fin 9) (c : Cell) (h : ¬(a = ii ∧ b = jj)) :
    setCell g ii jj c a b = g a b := by
  simp [setCell, h]

theorem setCell_self (g : Grid) (ii jj : Fin 9) : setCell g ii jj (g ii jj) = g := by
  funext a b
  by_cases h : a = ii ∧ b = jj
  · obtain ⟨rfl, rfl⟩ := h
    simp [setCell]
  · simp [setCell, h]

theorem setCell_setCell (g : Grid) (ii jj : Fin 9) (c d : Cell) :
    setCell (setCell g ii jj c) ii jj d = setCell g ii jj d := by
  funext a b
  by_cases h : a = ii ∧ b = jj <;> simp [setCell, h]

theorem initialize_loop_bad (ps : List (Fin 9 × Fin 9)) :
    ∀ (file : List Int) (xx : Int) (g : Grid) (n : Nat) (v : Int),
      n < ps.length → file[n]? = some v → BadValue v →
      (∀ m w, m < n → file[m]? = some w → ¬BadValue w) →
      ∃ p, ps[n]? = some p ∧
        (initialize_loop ps file xx g).rc = false ∧
        (initialize_loop ps file xx g).report = some (v, p.1.val + 1, p.2.val + 1) ∧
        (initialize_loop ps file xx g).unread = file.drop (n + 1) := by
  induction ps with
  | nil => intro file xx g n v hn; simp at hn
  | cons p rest ih =>
    intro file xx g n v hn hv hbad hgood
    obtain ⟨ii, jj⟩ := p
    cases file with
    | nil => simp at hv
    | cons x fr =>
      cases n with
      | zero =>
        simp only [List.getElem?_cons_zero, Option.some.injEq] at hv
        subst hv
        refine ⟨(ii, jj), by simp, ?_⟩
        have hb : x < 0 ∨ x > 9 := hbad
        simp [initialize_loop, fscanf, hb]
      | succ m =>
        have hx : ¬BadValue x := hgood 0 x (by omega) (by simp)
        have hx2 : ¬(x < 0 ∨ x > 9) := hx
        simp only [List.getElem?_cons_succ] at hv
        have hm : m < rest.length := by simpa using hn
        have hg2 : ∀ k w, k < m → fr[k]? = some w → ¬BadValue w := by
          intro k w hk hw
          exact hgood (k + 1) w (by omega) (by simpa using hw)
        by_cases hpos : x > 0
        · obtain ⟨p, hp, h1, h2, h3⟩ := ih fr x
            (setCell (setCell g ii jj ⟨fun _ => true, 9, (g ii jj).fixed⟩) ii jj
              ⟨fun kk => decide ((kk.val : Int) = x - 1), 1, x⟩) m v hm hv hbad hg2
          refine ⟨p, by simpa using hp, ?_⟩
          simp only [initialize_loop, fscanf, hx2, hpos, if_true, if_false]
          exact ⟨h1, h2, by simpa using h3⟩
        · obtain ⟨p, hp, h1, h2, h3⟩ := ih fr x
            (setCell g ii jj ⟨fun _ => true, 9, (g ii jj).fixed⟩) m v hm hv hbad hg2
          refine ⟨p, by simpa using hp, ?_⟩
          simp only [initialize_loop, fscanf, hx2, hpos, if_false]
          exact ⟨h1, h2, by simpa using h3⟩

theorem initialize_loop_ok (ps : List (Fin 9 × Fin 9)) :
    ∀ (file : List Int) (xx : Int) (g : Grid),
      ps.Nodup → ps.length ≤ file.length →
      (∀ m w, m < ps.length → file[m]? = some w → ¬BadValue w) →
      (initialize_loop ps file xx g).rc = true ∧
      (initialize_loop ps file xx g).report = none ∧
      (initialize_loop ps file xx g).unread = file.drop ps.length ∧
      (∀ a b, (a, b) ∉ ps → (initialize_loop ps file xx g).sudoku a b = g a b) ∧
      (∀ (n : Nat) a b v, ps[n]? = some (a, b) → file[n]? = some v →
        (initialize_loop ps file xx g).sudoku a b = initCell (g a b) v) := by
  induction ps with
  | nil =>
    intro file xx g _ _ _
    simp [initialize_loop]
  | cons p rest ih =>
    intro file xx g hnd hlen hgood
    obtain ⟨ii, jj⟩ := p
    cases file with
    | nil => simp at hlen
    | cons x fr =>
      have hx : ¬BadValue x := hgood 0 x (by simp) (by simp)
      have hx2 : ¬(x < 0 ∨ x > 9) := hx
      have hnd2 : rest.Nodup := (List.nodup_cons.mp hnd).2
      have hnotin : (ii, jj) ∉ rest := (List.nodup_cons.mp hnd).1
      have hlen2 : rest.length ≤ fr.length := by simpa using hlen
      have hg2 : ∀ k w, k < rest.length → fr[k]? = some w → ¬BadValue w := by
        intro k w hk hw
        exact hgood (k + 1) w (by simpa using hk) (by simpa using hw)
      -- the array after this entry has been written
      have key : ∀ g2 : Grid, g2 ii jj = initCell (g ii jj) x →
          (∀ a b, ¬(a = ii ∧ b = jj) → g2 a b = g a b) →
          (initialize_loop rest fr x g2).rc = true ∧
          (initialize_loop rest fr x g2).report = none ∧
          (initialize_loop rest fr x g2).unread = (x :: fr).drop ((ii, jj) :: rest).length ∧
          (∀ a b, (a, b) ∉ (ii, jj) :: rest →
            (initialize_loop rest fr x g2).sudoku a b = g a b) ∧
          (∀ (n : Nat) a b v, ((ii, jj) :: rest)[n]? = some (a, b) → (x :: fr)[n]? = some v →
            (initialize_loop rest fr x g2).sudoku a b = initCell (g a b) v) := by
        intro g2 hsame hother
        obtain ⟨h1, h2, h3, h4, h5⟩ := ih fr x g2 hnd2 hlen2 hg2
        refine ⟨h1, h2, by simpa using h3, ?_, ?_⟩
        · intro a b hab
          have hne : ¬(a = ii ∧ b = jj) := by
            rintro ⟨rfl, rfl⟩
            exact hab (List.mem_cons_self _ _)
          rw [h4 a b (fun h => hab (List.mem_cons_of_mem _ h)), hother a b hne]
        · intro n a b v hp hv
          cases n with
          | zero =>
            simp only [List.getElem?_cons_zero, Option.some.injEq, Prod.mk.injEq] at hp hv
            obtain ⟨rfl, rfl⟩ := hp
            subst hv
            rw [h4 _ _ hnotin, hsame]
          | succ m =>
            simp only [List.getElem?_cons_succ] at hp hv
            have hmem : (a, b) ∈ rest := List.mem_iff_getElem?.mpr ⟨m, hp⟩
            have hne : ¬(a = ii ∧ b = jj) := by
              rintro ⟨rfl, rfl⟩
              exact hnotin hmem
            rw [h5 m a b v hp hv, hother a b hne]
      by_cases hpos : x > 0
      · simp only [initialize_loop, fscanf, hx2, hpos, if_true, if_false]
        apply key
        · simp [setCell, initCell, hpos]
        · intro a b hne
          simp [setCell, hne]
      · simp only [initialize_loop, fscanf, hx2, hpos, if_false]
        apply key
        · simp [setCell, initCell, hpos]
        · intro a b hne
          simp [setCell, hne]

theorem allCells_nodup : allCells.Nodup := by decide

theorem allCells_length : allCells.length = 81 := by decide

theorem mem_allCells (p : Fin 9 × Fin 9) : p ∈ allCells := by
  revert p; decide

theorem mem_idx9 (k : Fin 9) : k ∈ idx9 := by
  revert k; decide

theorem allCells_getElem? (i j : Fin 9) : allCells[9 * i.val + j.val]? = some (i, j) := by
  revert i j; decide

theorem allCells_getElem?_nat (n : Nat) (hn : n < 81) :
    ∃ i j : Fin 9, n = 9 * i.val + j.val ∧ i.val = n / 9 ∧ j.val = n % 9 ∧
      allCells[n]? = some (i, j) := by
  refine ⟨⟨n / 9, by omega⟩, ⟨n % 9, Nat.mod_lt _ (by omega)⟩, ?_, rfl, rfl, ?_⟩
  · simp only; omega
  · have h := allCells_getElem? ⟨n / 9, by omega⟩ ⟨n % 9, Nat.mod_lt _ (by omega)⟩
    have e : 9 * (n / 9) + n % 9 = n := by omega
    simp only [e] at h
    exact h

theorem first_bad (file : List Int) (h : ∃ x ∈ file, BadValue x) :
    ∃ (n : Nat) (v : Int), n < file.length ∧ file[n]? = some v ∧ BadValue v ∧
      ∀ m w, m < n → file[m]? = some w → ¬BadValue w := by
  classical
  have hex : ∃ n : Nat, ∃ v, file[n]? = some v ∧ BadValue v := by
    obtain ⟨x, hx, hb⟩ := h
    obtain ⟨n, hn⟩ := List.mem_iff_getElem?.mp hx
    exact ⟨n, x, hn, hb⟩
  obtain ⟨v, hv, hb⟩ := Nat.find_spec hex
  refine ⟨Nat.find hex, v, ?_, hv, hb, ?_⟩
  · obtain ⟨hlt, _⟩ := List.getElem?_eq_some.mp hv
    exact hlt
  · intro m w hm hw hbw
    exact Nat.find_min hex hm ⟨w, hw, hbw⟩

/-- C5: on an input of 81 integers `initialize` returns `FALSE` exactly when
one of the 81 values is less than 0 or greater than 9. -/
theorem initialize_fails_iff (file : List Int) (xx0 : Int) (hlen : file.length = 81) :
    (initialize_sudoku file xx0).rc = false ↔ ∃ x ∈ file, x < 0 ∨ x > 9 := by
  constructor
  · intro hrc
    by_contra hno
    have hgood : ∀ m w, m < allCells.length → file[m]? = some w → ¬BadValue w := by
      intro m w _ hw hb
      exact hno ⟨w, List.mem_iff_getElem?.mpr ⟨m, hw⟩, hb⟩
    have h := (initialize_loop_ok allCells file xx0 zeroGrid allCells_nodup
      (by rw [allCells_length, hlen]) hgood).1
    rw [initialize_sudoku, h] at hrc
    exact Bool.noConfusion hrc
  · intro h
    obtain ⟨n, v, hn, hv, hb, hmin⟩ := first_bad file h
    obtain ⟨p, _, hrc, _⟩ := initialize_loop_bad allCells file xx0 zeroGrid n v
      (by rw [allCells_length, ← hlen]; exact hn) hv hb hmin
    exact hrc

theorem initialize_fails_iff_witness :
    (initialize_sudoku (List.replicate 81 0) 0).rc = false ↔
      ∃ x ∈ List.replicate 81 (0 : Int), x < 0 ∨ x > 9 :=
  initialize_fails_iff (List.replicate 81 0) 0 (by simp)

/-- C6: on an input of 81 values in `[0,9]`, `initialize` leaves at a given
`v` in `1..9` the candidate set `{v}`, `CAND_COUNT` 1 and `FIXED_VAL` `v`, and
at a `0` all nine candidates and `CAND_COUNT` 9. -/
theorem initialize_cells (file : List Int) (xx0 : Int) (hlen : file.length = 81)
    (hgood : ∀ x ∈ file, ¬(x < 0 ∨ x > 9)) (i j : Fin 9) (v : Int)
    (hv : InputAt file i j v) :
    (1 ≤ v →
      (∀ k : Fin 9, ((initialize_sudoku file xx0).sudoku i j).cand k = true ↔
        (k.val : Int) + 1 = v) ∧
      ((initialize_sudoku file xx0).sudoku i j).count = 1 ∧
      ((initialize_sudoku file xx0).sudoku i j).fixed = v) ∧
    (v = 0 →
      (∀ k : Fin 9, ((initialize_sudoku file xx0).sudoku i j).cand k = true) ∧
      ((initialize_sudoku file xx0).sudoku i j).count = 9) := by
  have hg : ∀ m w, m < allCells.length → file[m]? = some w → ¬BadValue w := by
    intro m w _ hw
    exact hgood w (List.mem_iff_getElem?.mpr ⟨m, hw⟩)
  have h := (initialize_loop_ok allCells file xx0 zeroGrid allCells_nodup
    (by rw [allCells_length, hlen]) hg).2.2.2.2 _ i j v (allCells_getElem? i j) hv
  rw [initialize_sudoku, h]
  constructor
  · intro h1
    have hpos : v > 0 := by omega
    simp only [initCell, hpos, if_true, decide_eq_true_eq, and_true]
    intro k
    omega
  · intro h0
    subst h0
    simp [initCell]

theorem initialize_cells_witness :
    (1 ≤ (0 : Int) →
      (∀ k : Fin 9, ((initialize_sudoku (List.replicate 81 0) 0).sudoku 0 0).cand k = true ↔
        (k.val : Int) + 1 = 0) ∧
      ((initialize_sudoku (List.replicate 81 0) 0).sudoku 0 0).count = 1 ∧
      ((initialize_sudoku (List.replicate 81 0) 0).sudoku 0 0).fixed = 0) ∧
    ((0 : Int) = 0 →
      (∀ k : Fin 9, ((initialize_sudoku (List.replicate 81 0) 0).sudoku 0 0).cand k = true) ∧
      ((initialize_sudoku (List.replicate 81 0) 0).sudoku 0 0).count = 9) :=
  initialize_cells (List.replicate 81 0) 0 (by simp)
    (by intro x hx; rw [List.eq_of_mem_replicate hx]; decide) 0 0 0
    (by simp [InputAt])

/-- C7: when the input holds a value outside `[0,9]`, the `printf` of
`initialize` names the first such value in row-major order with its row and
column counted from 1, and nothing after that value has been read. -/
theorem initialize_report (file : List Int) (xx0 : Int) (hlen : file.length = 81)
    (hbad : ∃ x ∈ file, x < 0 ∨ x > 9) :
    ∃ (n : Nat) (v : Int), n < 81 ∧ file[n]? = some v ∧ (v < 0 ∨ v > 9) ∧
      (∀ m w, m < n → file[m]? = some w → ¬(w < 0 ∨ w > 9)) ∧
      (initialize_sudoku file xx0).report = some (v, n / 9 + 1, n % 9 + 1) ∧
      (initialize_sudoku file xx0).unread = file.drop (n + 1) := by
  obtain ⟨n, v, hn, hv, hb, hmin⟩ := first_bad file hbad
  have hn81 : n < 81 := by omega
  obtain ⟨p, hp, _, hrep, hun⟩ := initialize_loop_bad allCells file xx0 zeroGrid n v
    (by rw [allCells_length]; exact hn81) hv hb hmin
  obtain ⟨i, j, _, hi, hj, hij⟩ := allCells_getElem?_nat n hn81
  rw [hij] at hp
  simp only [Option.some.injEq] at hp
  subst hp
  refine ⟨n, v, hn81, hv, hb, hmin, ?_, hun⟩
  rw [initialize_sudoku, hrep, ← hi, ← hj]

theorem initialize_report_witness :
    ∃ (n : Nat) (v : Int), n < 81 ∧ (10 :: List.replicate 80 (0 : Int))[n]? = some v ∧
      (v < 0 ∨ v > 9) ∧
      (∀ m w, m < n → (10 :: List.replicate 80 (0 : Int))[m]? = some w → ¬(w < 0 ∨ w > 9)) ∧
      (initialize_sudoku (10 :: List.replicate 80 0) 0).report =
        some (v, n / 9 + 1, n % 9 + 1) ∧
      (initialize_sudoku (10 :: List.replicate 80 0) 0).unread =
        (10 :: List.replicate 80 (0 : Int)).drop (n + 1) :=
  initialize_report (10 :: List.replicate 80 0) 0 (by simp)
    ⟨10, by simp, by decide⟩

/-! ### `do_check` -/

theorem mem_blockRange (i k : Fin 9) : k ∈ blockRange i ↔ k.val / 3 = i.val / 3 := by
  revert i k; decide

theorem check_cell_iff (g : Grid) (ii jj : Fin 9) :
    check_cell g ii jj = true ↔
      (g ii jj).count ≠ 0 ∧
      (∀ kk, ¬((g ii kk).count = 1 ∧ (g ii jj).count = 1 ∧ jj ≠ kk ∧
        (g ii kk).fixed = (g ii jj).fixed)) ∧
      (∀ kk, ¬((g kk jj).count = 1 ∧ (g ii jj).count = 1 ∧ ii ≠ kk ∧
        (g kk jj).fixed = (g ii jj).fixed)) ∧
      (∀ kk ll, SameBlock kk ll ii jj →
        ¬((g kk ll).count = 1 ∧ (g ii jj).count = 1 ∧ (kk ≠ ii ∨ ll ≠ jj) ∧
          (g kk ll).fixed = (g ii jj).fixed)) := by
  simp only [check_cell, Bool.and_eq_true, Bool.not_eq_true', decide_eq_false_iff_not,
    List.all_eq_true, mem_idx9, true_implies, mem_blockRange, SameBlock]
  constructor
  · rintro ⟨⟨⟨h1, h2⟩, h3⟩, h4⟩
    exact ⟨h1, h2, h3, fun kk ll hb => h4 kk hb.1 ll hb.2⟩
  · rintro ⟨h1, h2, h3, h4⟩
    exact ⟨⟨⟨h1, h2⟩, h3⟩, fun kk hk ll hl => h4 kk ll ⟨hk, hl⟩⟩

theorem do_check_true_iff (g : Grid) :
    do_check g = true ↔ ¬HasDead g ∧ ¬HasClash g := by
  simp only [do_check, List.all_eq_true, check_cell_iff]
  constructor
  · intro h
    constructor
    · rintro ⟨i, j, hd⟩
      exact (h (i, j) (mem_allCells _)).1 hd
    · rintro ⟨i, j, k, l, ⟨hne, hp⟩, hc1, hc2, hf⟩
      obtain ⟨_, hrow, hcol, hblk⟩ := h (k, l) (mem_allCells _)
      rcases hp with rfl | rfl | hb
      · have hjl : j ≠ l := by
          rcases hne with h | h
          · exact absurd rfl h
          · exact h
        exact hrow j ⟨hc1, hc2, fun e => hjl e.symm, hf⟩
      · have hik : i ≠ k := by
          rcases hne with h | h
          · exact h
          · exact absurd rfl h
        exact hcol i ⟨hc1, hc2, fun e => hik e.symm, hf⟩
      · exact hblk i j hb ⟨hc1, hc2, hne, hf⟩
  · rintro ⟨hdead, hclash⟩ p _
    refine ⟨fun h0 => hdead ⟨p.1, p.2, h0⟩, ?_, ?_, ?_⟩
    · rintro kk ⟨h1, h2, hne, hf⟩
      exact hclash ⟨p.1, kk, p.1, p.2, ⟨Or.inr (fun e => hne e.symm), Or.inl rfl⟩, h1, h2, hf⟩
    · rintro kk ⟨h1, h2, hne, hf⟩
      exact hclash ⟨kk, p.2, p.1, p.2, ⟨Or.inl (fun e => hne e.symm), Or.inr (Or.inl rfl)⟩,
        h1, h2, hf⟩
    · rintro kk ll hb ⟨h1, h2, hne, hf⟩
      exact hclash ⟨kk, ll, p.1, p.2, ⟨hne, Or.inr (Or.inr hb)⟩, h1, h2, hf⟩

/-- C4: `do_check` returns `FALSE` exactly when some entry has `CAND_COUNT` 0
or two distinct entries of one row, column or block both have `CAND_COUNT` 1
and the same `FIXED_VAL`; so in an array it accepts no two peers share a
resolved value. -/
theorem do_check_false_iff (g : Grid) :
    (do_check g = false ↔
      (∃ i j, (g i j).count = 0) ∨
      (∃ i j k l, ((i ≠ k ∨ j ≠ l) ∧ (i = k ∨ j = l ∨ SameBlock i j k l)) ∧
        (g i j).count = 1 ∧ (g k l).count = 1 ∧ (g i j).fixed = (g k l).fixed)) ∧
    (do_check g = true →
      ∀ i j k l, (i ≠ k ∨ j ≠ l) → (i = k ∨ j = l ∨ SameBlock i j k l) →
        (g i j).count = 1 → (g k l).count = 1 → (g i j).fixed ≠ (g k l).fixed) := by
  have h := do_check_true_iff g
  constructor
  · constructor
    · intro hf
      by_contra hno
      have : do_check g = true := h.mpr ⟨fun hd => hno (Or.inl hd), fun hc => hno (Or.inr hc)⟩
      rw [hf] at this
      exact Bool.noConfusion this
    · intro hex
      cases hdc : do_check g with
      | false => rfl
      | true =>
        obtain ⟨h1, h2⟩ := h.mp hdc
        rcases hex with hd | hc
        · exact absurd hd h1
        · exact absurd hc h2
  · intro ht i j k l hne hp h1 h2 hf
    exact (h.mp ht).2 ⟨i, j, k, l, ⟨hne, hp⟩, h1, h2, hf⟩

/-! ### Entries: counting candidates, `unique_value`, one elimination -/

theorem numCand_update_false (c : Fin 9 → Bool) (k : Fin 9) (hk : c k = true) (n f : Int) :
    numCand ⟨Function.update c k false, n, f⟩ + 1 = numCand ⟨c, 0, 0⟩ := by
  unfold numCand
  have e : (Finset.univ.filter fun m => Function.update c k false m = true) =
      (Finset.univ.filter fun m => c m = true).erase k := by
    ext m
    by_cases hm : m = k
    · subst hm; simp
    · simp [Function.update_noteq hm, hm]
  have hmem : k ∈ Finset.univ.filter fun m => c m = true := by simp [hk]
  simp only [e]
  rw [Finset.card_erase_of_mem hmem]
  have : 0 < (Finset.univ.filter fun m => c m = true).card := Finset.card_pos.mpr ⟨k, hmem⟩
  omega

theorem numCand_congr (c d : Cell) (h : c.cand = d.cand) : numCand c = numCand d := by
  unfold numCand; rw [h]

theorem numCand_le (c : Cell) : numCand c ≤ 9 := by
  unfold numCand
  calc (Finset.univ.filter fun k => c.cand k = true).card
      ≤ (Finset.univ : Finset (Fin 9)).card := Finset.card_filter_le _ _
    _ = 9 := by simp

theorem numCand_eq_one (c : Cell) (h : numCand c = 1) :
    ∃ k : Fin 9, ∀ m, c.cand m = true ↔ m = k := by
  unfold numCand at h
  obtain ⟨a, ha⟩ := Finset.card_eq_one.mp h
  refine ⟨a, fun m => ?_⟩
  have := Finset.ext_iff.mp ha m
  simpa using this

theorem uniqueOf_spec (c : Cell) (k : Fin 9) (h : ∀ m, c.cand m = true ↔ m = k) :
    uniqueOf c = (k.val : Int) + 1 := by
  unfold uniqueOf
  cases hf : idx9.find? (fun ii => c.cand ii) with
  | none =>
    have := List.find?_eq_none.mp hf k (mem_idx9 k)
    exact absurd ((h k).mpr rfl) this
  | some x =>
    have hx : c.cand x = true := List.find?_some hf
    rw [(h x).mp hx]

theorem elimCell_cand (c : Cell) (k m : Fin 9) :
    (elimCell c k).cand m = (c.cand m && decide (m ≠ k)) := by
  unfold elimCell
  by_cases hk : c.cand k = true
  · by_cases hm : m = k
    · subst hm
      split_ifs <;> simp
    · split_ifs <;> simp [Function.update_noteq hm, hm]
  · by_cases hm : m = k
    · subst hm
      simp only [Bool.not_eq_true] at hk
      simp [hk]
    · simp [hk, hm]

theorem elimCell_count (c : Cell) (k : Fin 9) :
    (elimCell c k).count = if c.cand k = true then c.count - 1 else c.count := by
  unfold elimCell
  split_ifs <;> rfl

theorem elimCell_count_le (c : Cell) (k : Fin 9) : (elimCell c k).count ≤ c.count := by
  rw [elimCell_count]
  split_ifs <;> omega

theorem elimCell_inv (c : Cell) (k : Fin 9) (hc : CountOk c ∧ FixedOk c) :
    CountOk (elimCell c k) ∧ FixedOk (elimCell c k) := by
  by_cases hk : c.cand k = true
  · have hnum := numCand_update_false c.cand k hk (c.count - 1) c.fixed
    have hnum2 : numCand ⟨c.cand, 0, 0⟩ = numCand c := numCand_congr _ _ rfl
    have hcount : c.count = (numCand c : Int) := hc.1
    by_cases h1 : c.count - 1 = 1
    · have e : elimCell c k = ⟨Function.update c.cand k false, c.count - 1,
          uniqueOf ⟨Function.update c.cand k false, c.count - 1, c.fixed⟩⟩ := by
        simp [elimCell, hk, h1]
      rw [e]
      have hn1 : numCand ⟨Function.update c.cand k false, c.count - 1, c.fixed⟩ = 1 := by
        omega
      obtain ⟨k2, hk2⟩ := numCand_eq_one _ hn1
      constructor
      · show c.count - 1 = ((numCand _ : Nat) : Int)
        have e2 := numCand_congr
          ⟨Function.update c.cand k false, c.count - 1,
            uniqueOf ⟨Function.update c.cand k false, c.count - 1, c.fixed⟩⟩
          ⟨Function.update c.cand k false, c.count - 1, c.fixed⟩ rfl
        omega
      · intro _
        exact ⟨k2, uniqueOf_spec _ k2 hk2, hk2⟩
    · have e : elimCell c k = ⟨Function.update c.cand k false, c.count - 1, c.fixed⟩ := by
        simp [elimCell, hk, h1]
      rw [e]
      constructor
      · show c.count - 1 = ((numCand _ : Nat) : Int)
        omega
      · intro h
        exact absurd h h1
  · have e : elimCell c k = c := by simp [elimCell, hk]
    rw [e]
    exact hc

theorem Elims.elims_trans {P : Fin 9 → Prop} {c1 c2 c3 : Cell} (h12 : Elims P c1 c2)
    (h23 : Elims P c2 c3) : Elims P c1 c3 := by
  induction h23 with
  | refl => exact h12
  | step k _ hp ih => exact Elims.step k ih hp

theorem Elims.inv {P : Fin 9 → Prop} {c1 c2 : Cell} (h : Elims P c1 c2)
    (hc : CountOk c1 ∧ FixedOk c1) : CountOk c2 ∧ FixedOk c2 := by
  induction h with
  | refl => exact hc
  | step k _ _ ih => exact elimCell_inv _ k ih

theorem Elims.cand_sub {P : Fin 9 → Prop} {c1 c2 : Cell} (h : Elims P c1 c2) (m : Fin 9)
    (hm : c2.cand m = true) : c1.cand m = true := by
  induction h with
  | refl => exact hm
  | step k _ _ ih =>
    rw [elimCell_cand] at hm
    simp only [Bool.and_eq_true] at hm
    exact ih hm.1

theorem Elims.count_le {P : Fin 9 → Prop} {c1 c2 : Cell} (h : Elims P c1 c2) :
    c2.count ≤ c1.count := by
  induction h with
  | refl => exact le_refl _
  | step k _ _ ih => exact le_trans (elimCell_count_le _ k) ih

theorem Elims.keeps {P : Fin 9 → Prop} {c1 c2 : Cell} (h : Elims P c1 c2) (s : Fin 9)
    (hP : ∀ k, P k → k ≠ s) (hs : c1.cand s = true) : c2.cand s = true := by
  induction h with
  | refl => exact hs
  | step k _ hp ih =>
    rw [elimCell_cand, ih]
    have : s ≠ k := fun e => hP k hp e.symm
    simp [this]

/-! ### The eliminators on an array that satisfies the invariants -/

theorem eliminate_eq (g : Grid) (ii jj k : Fin 9) :
    eliminate g ii jj ((k.val : Int) + 1) = some (setCell g ii jj (elimCell (g ii jj) k)) := by
  have hr : 1 ≤ (k.val : Int) + 1 ∧ (k.val : Int) + 1 ≤ 9 := by omega
  have hk : (⟨((k.val : Int) + 1 - 1).toNat, by omega⟩ : Fin 9) = k := by
    apply Fin.ext
    simp
  unfold eliminate
  simp only [hr, and_self, dite_true, hk, setCell_same, setCell_setCell, unique_value]
  unfold elimCell uniqueOf
  by_cases hc : (g ii jj).cand k = true
  · by_cases h1 : (g ii jj).count - 1 = 1
    · simp [hc, h1]
    · simp [hc, h1]
  · simp [hc, setCell_self]

/-- A loop whose every step leaves an array that differs from `g` in the
target entry only, that entry having come from the original by eliminations,
does the same as a whole. -/
theorem foldlM_elims {α : Type} (g : Grid) (ii jj : Fin 9) (P : Fin 9 → Prop)
    (f : Grid → α → Option Grid)
    (l : List α)
    (hf : ∀ x ∈ l, ∀ c, Elims P (g ii jj) c →
      ∃ c2, f (setCell g ii jj c) x = some (setCell g ii jj c2) ∧ Elims P (g ii jj) c2) :
    ∀ c, Elims P (g ii jj) c →
      ∃ c2, l.foldlM f (setCell g ii jj c) = some (setCell g ii jj c2) ∧
        Elims P (g ii jj) c2 := by
  induction l with
  | nil => intro c hc; exact ⟨c, rfl, hc⟩
  | cons x rest ih =>
    intro c hc
    obtain ⟨c1, h1, he1⟩ := hf x (List.mem_cons_self _ _) c hc
    obtain ⟨c2, h2, he2⟩ := ih (fun y hy => hf y (List.mem_cons_of_mem _ hy)) c1 he1
    refine ⟨c2, ?_, he2⟩
    simp only [List.foldlM_cons, h1]
    exact h2

theorem peer_step (g : Grid) (hg : FixedInv g) (ii jj a b : Fin 9) (hp : Peer a b ii jj)
    (c : Cell) (hc : Elims (PeerVal g ii jj) (g ii jj) c) (hcount : (g a b).count = 1) :
    ∃ c2, eliminate (setCell g ii jj c) ii jj (g a b).fixed = some (setCell g ii jj c2) ∧
      Elims (PeerVal g ii jj) (g ii jj) c2 := by
  obtain ⟨k, hk, _⟩ := hg a b hcount
  refine ⟨elimCell c k, ?_, Elims.step k hc ⟨a, b, hp, hcount, hk⟩⟩
  rw [hk, eliminate_eq, setCell_same, setCell_setCell]

theorem proc_row_elims (g : Grid) (hg : FixedInv g) (ii jj : Fin 9) :
    ∃ c2, proc_row g ii jj = some (setCell g ii jj c2) ∧
      Elims (PeerVal g ii jj) (g ii jj) c2 := by
  have h := foldlM_elims g ii jj (PeerVal g ii jj)
    (fun g kk =>
      if jj ≠ kk ∧ (g ii kk).count = 1 ∧ (g ii jj).count > 1 then
        eliminate g ii jj (g ii kk).fixed
      else some g) idx9 ?_ (g ii jj) (Elims.refl _)
  · rw [setCell_self] at h
    exact h
  · intro kk _ c hc
    dsimp only
    by_cases hcond : jj ≠ kk ∧ ((setCell g ii jj c) ii kk).count = 1 ∧
        ((setCell g ii jj c) ii jj).count > 1
    · have hne : ¬(ii = ii ∧ kk = jj) := fun e => hcond.1 e.2.symm
      have hcnt := hcond.2.1
      rw [setCell_other g ii jj ii kk c hne] at hcnt
      rw [if_pos hcond, setCell_other g ii jj ii kk c hne]
      exact peer_step g hg ii jj ii kk ⟨Or.inr (fun e => hcond.1 e.symm), Or.inl rfl⟩ c hc hcnt
    · rw [if_neg hcond]
      exact ⟨c, rfl, hc⟩

theorem proc_col_elims (g : Grid) (hg : FixedInv g) (ii jj : Fin 9) :
    ∃ c2, proc_col g ii jj = some (setCell g ii jj c2) ∧
      Elims (PeerVal g ii jj) (g ii jj) c2 := by
  have h := foldlM_elims g ii jj (PeerVal g ii jj)
    (fun g kk =>
      if ii ≠ kk ∧ (g kk jj).count = 1 ∧ (g ii jj).count > 1 then
        eliminate g ii jj (g kk jj).fixed
      else some g) idx9 ?_ (g ii jj) (Elims.refl _)
  · rw [setCell_self] at h
    exact h
  · intro kk _ c hc
    dsimp only
    by_cases hcond : ii ≠ kk ∧ ((setCell g ii jj c) kk jj).count = 1 ∧
        ((setCell g ii jj c) ii jj).count > 1
    · have hne : ¬(kk = ii ∧ jj = jj) := fun e => hcond.1 e.1.symm
      have hcnt := hcond.2.1
      rw [setCell_other g ii jj kk jj c hne] at hcnt
      rw [if_pos hcond, setCell_other g ii jj kk jj c hne]
      exact peer_step g hg ii jj kk jj
        ⟨Or.inl (fun e => hcond.1 e.symm), Or.inr (Or.inl rfl)⟩ c hc hcnt
    · rw [if_neg hcond]
      exact ⟨c, rfl, hc⟩

theorem proc_block_elims (g : Grid) (hg : FixedInv g) (ii jj : Fin 9) :
    ∃ c2, proc_block g ii jj = some (setCell g ii jj c2) ∧
      Elims (PeerVal g ii jj) (g ii jj) c2 := by
  have h := foldlM_elims g ii jj (PeerVal g ii jj)
    (fun g kk =>
      (blockRange jj).foldlM (fun g ll =>
        if (kk ≠ ii ∨ ll ≠ jj) ∧ (g kk ll).count = 1 then
          eliminate g ii jj (g kk ll).fixed
        else some g) g) (blockRange ii) ?_ (g ii jj) (Elims.refl _)
  · rw [setCell_self] at h
    exact h
  · intro kk hkk c hc
    dsimp only
    apply foldlM_elims g ii jj (PeerVal g ii jj) _ (blockRange jj) _ c hc
    intro ll hll c hc
    dsimp only
    by_cases hcond : (kk ≠ ii ∨ ll ≠ jj) ∧ ((setCell g ii jj c) kk ll).count = 1
    · have hne : ¬(kk = ii ∧ ll = jj) := by
        rintro ⟨h1, h2⟩
        rcases hcond.1 with h | h
        · exact h h1
        · exact h h2
      have hcnt := hcond.2
      rw [setCell_other g ii jj kk ll c hne] at hcnt
      rw [if_pos hcond, setCell_other g ii jj kk ll c hne]
      exact peer_step g hg ii jj kk ll
        ⟨hcond.1, Or.inr (Or.inr ⟨(mem_blockRange ii kk).mp hkk, (mem_blockRange jj ll).mp hll⟩)⟩
        c hc hcnt
    · rw [if_neg hcond]
      exact ⟨c, rfl, hc⟩

/-! ### One visit, one pass, the whole propagation loop -/

theorem Elims.mono {P Q : Fin 9 → Prop} {c1 c2 : Cell} (h : Elims P c1 c2)
    (hPQ : ∀ k, P k → Q k) : Elims Q c1 c2 := by
  induction h with
  | refl => exact Elims.refl _
  | step k _ hp ih => exact Elims.step k ih (hPQ k hp)

theorem peer_ne {a b ii jj : Fin 9} (hp : Peer a b ii jj) : ¬(a = ii ∧ b = jj) := by
  rintro ⟨h1, h2⟩
  rcases hp.1 with h | h
  · exact h h1
  · exact h h2

theorem PeerVal_setCell (g : Grid) (ii jj : Fin 9) (c : Cell) (k : Fin 9)
    (h : PeerVal (setCell g ii jj c) ii jj k) : PeerVal g ii jj k := by
  obtain ⟨a, b, hp, h1, h2⟩ := h
  rw [setCell_other g ii jj a b c (peer_ne hp)] at h1 h2
  exact ⟨a, b, hp, h1, h2⟩

theorem Inv_setCell (g : Grid) (hg : Inv g) (ii jj : Fin 9) (c : Cell)
    (hc : CountOk c ∧ FixedOk c) : Inv (setCell g ii jj c) := by
  constructor
  · intro a b
    by_cases h : a = ii ∧ b = jj
    · obtain ⟨rfl, rfl⟩ := h
      rw [setCell_same]; exact hc.1
    · rw [setCell_other g ii jj a b c h]; exact hg.1 a b
  · intro a b
    by_cases h : a = ii ∧ b = jj
    · obtain ⟨rfl, rfl⟩ := h
      rw [setCell_same]; exact hc.2
    · rw [setCell_other g ii jj a b c h]; exact hg.2 a b

theorem visit_elims (g : Grid) (hg : Inv g) (ii jj : Fin 9) :
    ∃ c2, visit g ii jj = some (setCell g ii jj c2) ∧
      Elims (PeerVal g ii jj) (g ii jj) c2 ∧ ((g ii jj).count ≤ 1 → c2 = g ii jj) := by
  unfold visit
  by_cases hcnt : (g ii jj).count > 1
  · rw [if_pos hcnt]
    obtain ⟨c1, h1, e1⟩ := proc_row_elims g hg.2 ii jj
    have hg1 : Inv (setCell g ii jj c1) := Inv_setCell g hg ii jj c1 (e1.inv ⟨hg.1 _ _, hg.2 _ _⟩)
    obtain ⟨c2, h2, e2⟩ := proc_col_elims (setCell g ii jj c1) hg1.2 ii jj
    rw [setCell_setCell] at h2
    rw [setCell_same] at e2
    have e2b : Elims (PeerVal g ii jj) (g ii jj) c2 :=
      e1.elims_trans (e2.mono (PeerVal_setCell g ii jj c1))
    have hg2 : Inv (setCell g ii jj c2) :=
      Inv_setCell g hg ii jj c2 (e2b.inv ⟨hg.1 _ _, hg.2 _ _⟩)
    obtain ⟨c3, h3, e3⟩ := proc_block_elims (setCell g ii jj c2) hg2.2 ii jj
    rw [setCell_setCell] at h3
    rw [setCell_same] at e3
    refine ⟨c3, ?_, e2b.elims_trans (e3.mono (PeerVal_setCell g ii jj c2)), fun h => ?_⟩
    · simp only [h1, h2, h3, Option.some_bind]
    · omega
  · rw [if_neg hcnt]
    exact ⟨g ii jj, by rw [setCell_self], Elims.refl _, fun _ => rfl⟩

theorem Shrinks.shrinks_refl (g : Grid) : Shrinks g g :=
  fun _ _ => ⟨fun _ => rfl, fun _ h => h, le_refl _⟩

theorem Shrinks.shrinks_trans {g1 g2 g3 : Grid} (h12 : Shrinks g1 g2) (h23 : Shrinks g2 g3) :
    Shrinks g1 g3 := by
  intro a b
  obtain ⟨f1, s1, c1⟩ := h12 a b
  obtain ⟨f2, s2, c2⟩ := h23 a b
  refine ⟨fun h => ?_, fun m hm => s1 m (s2 m hm), le_trans c2 c1⟩
  have e1 := f1 h
  have : (g2 a b).count ≤ 1 := by rw [e1]; exact h
  rw [f2 this, e1]

theorem Refines.refines_refl (g : Grid) (hg : Inv g) : Refines g g :=
  ⟨hg, Shrinks.shrinks_refl g, fun _ _ h => h⟩

theorem Refines.refines_trans {g1 g2 g3 : Grid} (h12 : Refines g1 g2) (h23 : Refines g2 g3) :
    Refines g1 g3 :=
  ⟨h23.1, h12.2.1.shrinks_trans h23.2.1, fun S hS h => h23.2.2 S hS (h12.2.2 S hS h)⟩

theorem peerVal_ne_solution (g : Grid) (hg : Inv g) (S : Fin 9 → Fin 9 → Fin 9)
    (hS : ValidIdx S) (hc : Cons S g) (ii jj k : Fin 9) (hk : PeerVal g ii jj k) :
    k ≠ S ii jj := by
  obtain ⟨a, b, hp, h1, h2⟩ := hk
  obtain ⟨k2, hk2, honly⟩ := hg.2 a b h1
  have hkk : k2 = k := by
    apply Fin.ext
    have : (k2.val : Int) + 1 = (k.val : Int) + 1 := by rw [← hk2, h2]
    omega
  have hSab : S a b = k := by
    rw [← hkk]
    exact (honly _).mp (hc a b)
  rw [← hSab]
  exact hS a b ii jj hp

theorem visit_refines (g : Grid) (hg : Inv g) (ii jj : Fin 9) :
    ∃ g2, visit g ii jj = some g2 ∧ Refines g g2 := by
  obtain ⟨c2, hv, he, hsame⟩ := visit_elims g hg ii jj
  refine ⟨_, hv, Inv_setCell g hg ii jj c2 (he.inv ⟨hg.1 _ _, hg.2 _ _⟩), ?_, ?_⟩
  · intro a b
    by_cases h : a = ii ∧ b = jj
    · obtain ⟨rfl, rfl⟩ := h
      rw [setCell_same]
      exact ⟨hsame, he.cand_sub, he.count_le⟩
    · rw [setCell_other g ii jj a b c2 h]
      exact ⟨fun _ => rfl, fun _ hm => hm, le_refl _⟩
  · intro S hS hc a b
    by_cases h : a = ii ∧ b = jj
    · obtain ⟨rfl, rfl⟩ := h
      rw [setCell_same]
      exact he.keeps (S a b) (fun k hk => peerVal_ne_solution g hg S hS hc a b k hk) (hc a b)
    · rw [setCell_other g ii jj a b c2 h]
      exact hc a b

theorem foldlM_refines {α : Type} (f : Grid → α → Option Grid)
    (hf : ∀ g x, Inv g → ∃ g2, f g x = some g2 ∧ Refines g g2) (l : List α) :
    ∀ g, Inv g → ∃ g2, l.foldlM f g = some g2 ∧ Refines g g2 := by
  induction l with
  | nil => intro g hg; exact ⟨g, rfl, Refines.refines_refl g hg⟩
  | cons x rest ih =>
    intro g hg
    obtain ⟨g1, h1, r1⟩ := hf g x hg
    obtain ⟨g2, h2, r2⟩ := ih g1 r1.1
    refine ⟨g2, ?_, r1.refines_trans r2⟩
    simp only [List.foldlM_cons, h1]
    exact h2

theorem propagation_pass_refines (g : Grid) (hg : Inv g) :
    ∃ g2, propagation_pass g = some g2 ∧ Refines g g2 :=
  foldlM_refines (fun g (p : Fin 9 × Fin 9) => visit g p.1 p.2)
    (fun g p hg => visit_refines g hg p.1 p.2) allCells g hg

theorem number_known_le (g : Grid) : number_known g ≤ 81 := by
  unfold number_known
  calc allCells.countP _ ≤ allCells.length := List.countP_le_length _
    _ = 81 := allCells_length

theorem propagation_loop_refines (fuel : Nat) :
    ∀ (g : Grid) (last : Nat), Inv g → 1 ≤ fuel → 81 ≤ fuel + last →
      ∃ g2, propagation_loop fuel g last = .returned (g2, number_known g2) ∧ Refines g g2 := by
  induction fuel with
  | zero => intro g last _ h; omega
  | succ n ih =>
    intro g last hg _ hfuel
    unfold propagation_loop
    by_cases hcond : number_known g > last ∧ number_known g < 81
    · simp only [hcond, and_self, if_true]
      obtain ⟨g1, h1, r1⟩ := propagation_pass_refines g hg
      rw [h1]
      obtain ⟨g2, h2, r2⟩ := ih g1 (number_known g) r1.1 (by omega) (by omega)
      exact ⟨g2, h2, r1.refines_trans r2⟩
    · simp only [hcond, if_false]
      exact ⟨g, rfl, Refines.refines_refl g hg⟩

/-! ### The measure of the recursion -/

theorem countP_lt_of_imp {α : Type} (p q : α → Bool) (l : List α)
    (himp : ∀ x ∈ l, p x = true → q x = true) (hex : ∃ x ∈ l, q x = true ∧ p x = false) :
    l.countP p < l.countP q := by
  induction l with
  | nil => obtain ⟨x, hx, _⟩ := hex; simp at hx
  | cons a rest ih =>
    have hle : rest.countP p ≤ rest.countP q :=
      List.countP_mono_left fun x hx => himp x (List.mem_cons_of_mem _ hx)
    obtain ⟨x, hx, hq, hp⟩ := hex
    rcases List.mem_cons.mp hx with rfl | hmem
    · rw [List.countP_cons_of_pos _ _ hq, List.countP_cons_of_neg _ _ (by simp [hp])]
      omega
    · have hlt := ih (fun y hy => himp y (List.mem_cons_of_mem _ hy)) ⟨x, hmem, hq, hp⟩
      by_cases hpa : p a = true
      · rw [List.countP_cons_of_pos _ _ hpa,
          List.countP_cons_of_pos _ _ (himp a (List.mem_cons_self _ _) hpa)]
        omega
      · rw [List.countP_cons_of_neg _ _ hpa]
        by_cases hqa : q a = true
        · rw [List.countP_cons_of_pos _ _ hqa]; omega
        · rw [List.countP_cons_of_neg _ _ hqa]; exact hlt

theorem undetermined_le_of_shrinks {g1 g2 : Grid} (h : Shrinks g1 g2) :
    undetermined g2 ≤ undetermined g1 := by
  unfold undetermined
  apply List.countP_mono_left
  intro p _ hp
  simp only [decide_eq_true_eq] at hp ⊢
  have := (h p.1 p.2).2.2
  omega

theorem guess_cell_ok (ll : Fin 9) : CountOk (guess_cell ll) ∧ FixedOk (guess_cell ll) := by
  constructor
  · unfold CountOk numCand guess_cell
    have e : (Finset.univ.filter fun k : Fin 9 => decide (k = ll) = true) = {ll} := by
      ext m; simp
    rw [e]
    simp
  · intro _
    exact ⟨ll, rfl, fun m => by simp [guess_cell]⟩

theorem undetermined_guess (g : Grid) (ii jj ll : Fin 9) (h : (g ii jj).count > 1) :
    undetermined (setCell g ii jj (guess_cell ll)) < undetermined g := by
  unfold undetermined
  apply countP_lt_of_imp
  · intro p _ hp
    simp only [decide_eq_true_eq] at hp ⊢
    by_cases e : p.1 = ii ∧ p.2 = jj
    · obtain ⟨e1, e2⟩ := e
      rw [e1, e2, setCell_same] at hp
      simp [guess_cell] at hp
    · rw [setCell_other g ii jj p.1 p.2 _ e] at hp
      exact hp
  · refine ⟨(ii, jj), mem_allCells _, ?_, ?_⟩
    · simpa using h
    · simp [setCell_same, guess_cell]

theorem shrinks_guess (g : Grid) (ii jj ll : Fin 9) (h : (g ii jj).count > 1)
    (hc : (g ii jj).cand ll = true) : Shrinks g (setCell g ii jj (guess_cell ll)) := by
  intro a b
  by_cases e : a = ii ∧ b = jj
  · obtain ⟨rfl, rfl⟩ := e
    rw [setCell_same]
    refine ⟨fun h1 => by omega, fun m hm => ?_, ?_⟩
    · have : m = ll := by simpa [guess_cell] using hm
      rw [this]; exact hc
    · show (1 : Int) ≤ _
      omega
  · rw [setCell_other g ii jj a b _ e]
    exact ⟨fun _ => rfl, fun _ hm => hm, le_refl _⟩

theorem find_guess_some (g : Grid) (ii jj : Fin 9) (h : find_guess g = some (ii, jj)) :
    (g ii jj).count > 1 := by
  have := List.find?_some h
  simpa using this

theorem number_known_eq_81 (g : Grid) (h : ∀ i j, (g i j).count = 1) : number_known g = 81 := by
  unfold number_known
  rw [← allCells_length]
  apply List.countP_eq_length.mpr
  intro p _
  simp [h p.1 p.2]

theorem all_resolved_of_number_known (g : Grid) (h : number_known g = 81) (i j : Fin 9) :
    (g i j).count = 1 := by
  unfold number_known at h
  rw [← allCells_length] at h
  have := List.countP_eq_length.mp h (i, j) (mem_allCells _)
  simpa using this

theorem numCand_pos (c : Cell) (k : Fin 9) (h : c.cand k = true) : 0 < numCand c := by
  unfold numCand
  exact Finset.card_pos.mpr ⟨k, by simp [h]⟩

theorem numCand_eq_zero (c : Cell) (h : ∀ k, c.cand k = false) : numCand c = 0 := by
  unfold numCand
  simp [h]

theorem find_guess_ne_none (g : Grid) (hg : CountInv g) (hc : do_check g = true)
    (hn : number_known g ≠ 81) : find_guess g ≠ none := by
  intro hnone
  apply hn
  apply number_known_eq_81
  intro i j
  have h1 := List.find?_eq_none.mp hnone (i, j) (mem_allCells _)
  simp only [decide_eq_true_eq] at h1
  have h2 : (g i j).count ≠ 0 := fun h0 => ((do_check_true_iff g).mp hc).1 ⟨i, j, h0⟩
  have h3 : (g i j).count = (numCand (g i j) : Int) := hg i j
  omega

theorem do_check_of_cons (g : Grid) (hg : Inv g) (S : Fin 9 → Fin 9 → Fin 9)
    (hS : ValidIdx S) (hc : Cons S g) : do_check g = true := by
  rw [do_check_true_iff]
  constructor
  · rintro ⟨i, j, h0⟩
    have h1 : (g i j).count = (numCand (g i j) : Int) := hg.1 i j
    have h2 := numCand_pos (g i j) (S i j) (hc i j)
    omega
  · rintro ⟨i, j, k, l, hp, h1, h2, hf⟩
    obtain ⟨a, ha, hao⟩ := hg.2 i j h1
    obtain ⟨b, hb, hbo⟩ := hg.2 k l h2
    have hab : a = b := by
      apply Fin.ext
      have : (a.val : Int) + 1 = (b.val : Int) + 1 := by rw [← ha, ← hb, hf]
      omega
    have e1 : S i j = a := (hao _).mp (hc i j)
    have e2 : S k l = b := (hbo _).mp (hc k l)
    exact hS i j k l hp (by rw [e1, e2, hab])

/-! ### The guess loop and the recursion -/

theorem cons_guess (g : Grid) (ii jj : Fin 9) (S : Fin 9 → Fin 9 → Fin 9) (hc : Cons S g) :
    Cons S (setCell g ii jj (guess_cell (S ii jj))) := by
  intro a b
  by_cases e : a = ii ∧ b = jj
  · obtain ⟨rfl, rfl⟩ := e
    rw [setCell_same]
    simp [guess_cell]
  · rw [setCell_other g ii jj a b _ e]
    exact hc a b

theorem guess_loop_spec (solve : State → Outcome (Bool × State)) (g : Grid) (hg : Inv g)
    (ii jj : Fin 9) (hcnt : (g ii jj).count > 1)
    (hsolve : SolveSpec solve (undetermined g)) (l : List (Fin 9)) :
    ∀ (b0 : Bool) (s : State), s.sudoku = g →
      ∃ b s2, guess_loop solve ii jj (g ii jj) l b0 s = .returned (b, s2) ∧
        Inv s2.sudoku ∧
        (b = true → (Solved s2.sudoku ∧ Shrinks g s2.sudoku) ∨
          (b0 = true ∧ ∀ ll ∈ l, (g ii jj).cand ll = false)) ∧
        (b = false → s2.sudoku = g) ∧
        (∀ S, ValidIdx S → Cons S g → S ii jj ∈ l → b = true) := by
  induction l with
  | nil =>
    intro b0 s hs
    refine ⟨b0, s, rfl, by rw [hs]; exact hg, fun h => Or.inr ⟨h, ?_⟩, fun _ => hs, ?_⟩
    · intro ll hll; simp at hll
    · intro S _ _ hmem; simp at hmem
  | cons ll rest ih =>
    intro b0 s hs
    by_cases hc : (g ii jj).cand ll = true
    · have hinv : Inv (setCell g ii jj (guess_cell ll)) :=
        Inv_setCell g hg ii jj _ (guess_cell_ok ll)
      obtain ⟨b1, t2, ht, hpost⟩ := hsolve
        ⟨setCell s.sudoku ii jj (guess_cell ll), s.max_rec_depth, s.cur_rec_depth,
          s.guesses + 1⟩
        (by rw [hs]; exact hinv) (by rw [hs]; exact undetermined_guess g ii jj ll hcnt)
      simp only [hs] at hpost
      cases b1 with
      | true =>
        refine ⟨true, t2, ?_, hpost.1, fun _ => Or.inl ?_, fun h => Bool.noConfusion h,
          fun _ _ _ _ => rfl⟩
        · simp only [guess_loop, hc, if_true, ht]
        · obtain ⟨hsol, hsh⟩ := hpost.2.1 rfl
          exact ⟨hsol, (shrinks_guess g ii jj ll hcnt hc).shrinks_trans hsh⟩
      | false =>
        obtain ⟨b, s2, hrun, hinv2, htrue, hfalse, hcomp⟩ := ih false
          ⟨g, t2.max_rec_depth, t2.cur_rec_depth, t2.guesses⟩ rfl
        refine ⟨b, s2, ?_, hinv2, fun hb => ?_, hfalse, ?_⟩
        · simp only [guess_loop, hc, if_true, ht]
          rw [hs]
          exact hrun
        · rcases htrue hb with h | h
          · exact Or.inl h
          · exact absurd h.1 (by simp)
        · intro S hS hcons hmem
          rcases List.mem_cons.mp hmem with heq | hrest
          · have := hpost.2.2 S hS (by rw [← heq]; exact cons_guess g ii jj S hcons)
            exact Bool.noConfusion this
          · exact hcomp S hS hcons hrest
    · obtain ⟨b, s2, hrun, hinv2, htrue, hfalse, hcomp⟩ := ih b0 s hs
      have hc2 : (g ii jj).cand ll = false := by simpa using hc
      refine ⟨b, s2, ?_, hinv2, fun hb => ?_, hfalse, ?_⟩
      · simp only [guess_loop, hc2, Bool.false_eq_true, if_false]
        exact hrun
      · rcases htrue hb with h | h
        · exact Or.inl h
        · refine Or.inr ⟨h.1, fun x hx => ?_⟩
          rcases List.mem_cons.mp hx with rfl | hr
          · exact hc2
          · exact h.2 x hr
      · intro S hS hcons hmem
        rcases List.mem_cons.mp hmem with heq | hrest
        · have := hcons ii jj
          rw [heq, hc2] at this
          exact Bool.noConfusion this
        · exact hcomp S hS hcons hrest

theorem solve_body_spec (solve : State → Outcome (Bool × State)) (s : State)
    (hg : Inv s.sudoku) (hsolve : SolveSpec solve (undetermined s.sudoku)) :
    ∃ b s2, solve_body solve s = .returned (b, s2) ∧ Post s.sudoku b s2.sudoku := by
  obtain ⟨g1, hloop, href⟩ := propagation_loop_refines 81 s.sudoku 0 hg (by omega) (by omega)
  have hloop2 : propagation_loop 81 (enter_solve s).sudoku 0 =
      .returned (g1, number_known g1) := hloop
  unfold solve_body
  simp only [hloop2]
  by_cases hdc : do_check g1 = false
  · simp only [hdc, if_true, exit_solve]
    refine ⟨false, _, rfl, href.1, fun h => Bool.noConfusion h, fun S hS hc => ?_⟩
    have := do_check_of_cons g1 href.1 S hS (href.2.2 S hS hc)
    rw [hdc] at this
    exact Bool.noConfusion this
  · have hdc2 : do_check g1 = true := by simpa using hdc
    by_cases hnk : number_known g1 = 81
    · simp only [hdc2, Bool.true_eq_false, if_false, hnk, if_true, exit_solve]
      exact ⟨true, _, rfl, href.1, fun _ => ⟨⟨hnk, hdc2⟩, href.2.1⟩, fun _ _ _ => rfl⟩
    · simp only [hdc2, Bool.true_eq_false, if_false, hnk]
      cases hfg : find_guess g1 with
      | none => exact absurd hfg (find_guess_ne_none g1 href.1.1 hdc2 hnk)
      | some p =>
        obtain ⟨ii, jj⟩ := p
        have hcnt := find_guess_some g1 ii jj hfg
        have hsolve2 : SolveSpec solve (undetermined g1) := fun t ht hlt =>
          hsolve t ht (lt_of_lt_of_le hlt (undetermined_le_of_shrinks href.2.1))
        obtain ⟨b, s2, hrun, hinv2, htrue, _, hcomp⟩ :=
          guess_loop_spec solve g1 href.1 ii jj hcnt hsolve2 idx9 true
            ⟨g1, (enter_solve s).max_rec_depth, (enter_solve s).cur_rec_depth,
              (enter_solve s).guesses⟩ rfl
        simp only [hrun, exit_solve]
        refine ⟨b, _, rfl, hinv2, fun hb => ?_, fun S hS hc => ?_⟩
        · rcases htrue hb with h | h
          · exact ⟨h.1, href.2.1.shrinks_trans h.2⟩
          · have h0 := numCand_eq_zero (g1 ii jj) (fun k => h.2 k (mem_idx9 k))
            have h1 : (g1 ii jj).count = (numCand (g1 ii jj) : Int) := href.1.1 ii jj
            omega
        · exact hcomp S hS (href.2.2 S hS hc) (mem_idx9 _)

theorem attempt_to_solve_fuel_spec (fuel : Nat) : SolveSpec (attempt_to_solve_fuel fuel) fuel := by
  induction fuel with
  | zero => intro t _ h; omega
  | succ n ih =>
    intro t ht hlt
    exact solve_body_spec (attempt_to_solve_fuel n) t ht
      (fun u hu hlt2 => ih u hu (by omega))

/-! ### The array built by `initialize` -/

theorem inputAt_exists (file : List Int) (hlen : file.length = 81) (i j : Fin 9) :
    ∃ v, InputAt file i j v := by
  have h : 9 * i.val + j.val < file.length := by omega
  exact ⟨file[9 * i.val + j.val], List.getElem?_eq_getElem h⟩

theorem initialize_sudoku_cell (file : List Int) (xx0 : Int) (hlen : file.length = 81)
    (hgood : ∀ x ∈ file, ¬(x < 0 ∨ x > 9)) (i j : Fin 9) (v : Int) (hv : InputAt file i j v) :
    (initialize_sudoku file xx0).sudoku i j = initCell (zeroGrid i j) v := by
  have hg : ∀ m w, m < allCells.length → file[m]? = some w → ¬BadValue w := by
    intro m w _ hw
    exact hgood w (List.mem_iff_getElem?.mpr ⟨m, hw⟩)
  exact (initialize_loop_ok allCells file xx0 zeroGrid allCells_nodup
    (by rw [allCells_length, hlen]) hg).2.2.2.2 _ i j v (allCells_getElem? i j) hv

theorem idxOf_val (v : Int) (h1 : 1 ≤ v) (h9 : v ≤ 9) : ((idxOf v).val : Int) + 1 = v := by
  unfold idxOf
  simp only
  omega

theorem idxOf_succ (k : Fin 9) : idxOf ((k.val : Int) + 1) = k := by
  apply Fin.ext
  unfold idxOf
  simp only
  omega

theorem initCell_ok (old : Cell) (v : Int) (h0 : 0 ≤ v) (h9 : v ≤ 9) :
    CountOk (initCell old v) ∧ FixedOk (initCell old v) := by
  by_cases hpos : v > 0
  · have hcand : ∀ m : Fin 9, (initCell old v).cand m = true ↔ m = idxOf v := by
      intro m
      have := idxOf_val v (by omega) h9
      simp only [initCell, hpos, if_true, decide_eq_true_eq]
      constructor
      · intro h; apply Fin.ext; omega
      · intro h; rw [h]; omega
    constructor
    · unfold CountOk numCand
      have e : (Finset.univ.filter fun k : Fin 9 => (initCell old v).cand k = true) =
          {idxOf v} := by
        ext m; simp [hcand m]
      rw [e]
      simp [initCell, hpos]
    · intro _
      refine ⟨idxOf v, ?_, hcand⟩
      have := idxOf_val v (by omega) h9
      simp only [initCell, hpos, if_true]
      omega
  · have e : initCell old v = ⟨fun _ => true, 9, old.fixed⟩ := by simp [initCell, hpos]
    rw [e]
    constructor
    · unfold CountOk numCand
      simp
    · intro h
      have h9 : (9 : Int) = 1 := h
      omega

theorem initialize_sudoku_inv (file : List Int) (xx0 : Int) (hlen : file.length = 81)
    (hgood : ∀ x ∈ file, ¬(x < 0 ∨ x > 9)) : Inv (initialize_sudoku file xx0).sudoku := by
  have key : ∀ i j, CountOk ((initialize_sudoku file xx0).sudoku i j) ∧
      FixedOk ((initialize_sudoku file xx0).sudoku i j) := by
    intro i j
    obtain ⟨v, hv⟩ := inputAt_exists file hlen i j
    rw [initialize_sudoku_cell file xx0 hlen hgood i j v hv]
    have hmem : v ∈ file := List.mem_iff_getElem?.mpr ⟨_, hv⟩
    have := hgood v hmem
    exact initCell_ok _ v (by omega) (by omega)
  exact ⟨fun i j => (key i j).1, fun i j => (key i j).2⟩

theorem undetermined_le (g : Grid) : undetermined g ≤ 81 := by
  unfold undetermined
  calc allCells.countP _ ≤ allCells.length := List.countP_le_length _
    _ = 81 := allCells_length

theorem attempt_to_solve_returns (g : Grid) (hg : Inv g) :
    ∃ b s2, attempt_to_solve g = .returned (b, s2) ∧ Post g b s2.sudoku :=
  attempt_to_solve_fuel_spec 82 ⟨g, 0, 0, 0⟩ hg
    (lt_of_le_of_lt (undetermined_le g) (by omega))

/-! ### Complete grids: distinct peers against permutations of `1..9` -/

theorem unit_perm (s : Finset (Fin 9 × Fin 9)) (hs : s.card = 9) (f : Fin 9 × Fin 9 → Fin 9)
    (hinj : Set.InjOn f s) (k : Fin 9) : ∃ p ∈ s, f p = k := by
  have h1 : (s.image f).card = 9 := by rw [Finset.card_image_of_injOn hinj, hs]
  have h2 : s.image f = Finset.univ := Finset.eq_univ_of_card _ (by simp [h1])
  have h3 : k ∈ s.image f := by rw [h2]; exact Finset.mem_univ k
  exact Finset.mem_image.mp h3

theorem row_card (i : Fin 9) :
    (Finset.univ.filter fun p : Fin 9 × Fin 9 => p.1 = i).card = 9 := by
  revert i; decide

theorem col_card (j : Fin 9) :
    (Finset.univ.filter fun p : Fin 9 × Fin 9 => p.2 = j).card = 9 := by
  revert j; decide

theorem block_card (bi bj : Fin 3) :
    (Finset.univ.filter fun p : Fin 9 × Fin 9 =>
      p.1.val / 3 = bi.val ∧ p.2.val / 3 = bj.val).card = 9 := by
  revert bi bj; decide

/-- Values in `1..9` that differ between peers form a complete valid grid. -/
theorem isSudoku_of_distinct (V : Fin 9 → Fin 9 → Int)
    (hrange : ∀ i j, 1 ≤ V i j ∧ V i j ≤ 9)
    (hdist : ∀ i j k l, Peer i j k l → V i j ≠ V k l) : IsSudoku V := by
  have hval : ∀ p : Fin 9 × Fin 9, ((idxOf (V p.1 p.2)).val : Int) + 1 = V p.1 p.2 :=
    fun p => idxOf_val _ (hrange p.1 p.2).1 (hrange p.1 p.2).2
  have hinj : ∀ p q : Fin 9 × Fin 9, (p.1 = q.1 ∨ p.2 = q.2 ∨ SameBlock p.1 p.2 q.1 q.2) →
      idxOf (V p.1 p.2) = idxOf (V q.1 q.2) → p = q := by
    intro p q hpeer he
    by_contra hne
    have hne2 : p.1 ≠ q.1 ∨ p.2 ≠ q.2 := by
      by_contra hcon
      push_neg at hcon
      exact hne (Prod.ext hcon.1 hcon.2)
    apply hdist p.1 p.2 q.1 q.2 ⟨hne2, hpeer⟩
    rw [← hval p, ← hval q, he]
  have hV : ∀ (p : Fin 9 × Fin 9) (v : Int), 1 ≤ v → v ≤ 9 →
      (idxOf (V p.1 p.2) = idxOf v ↔ V p.1 p.2 = v) := by
    intro p v h1 h9
    constructor
    · intro h
      rw [← hval p, h, idxOf_val v h1 h9]
    · intro h; rw [h]
  refine ⟨?_, ?_, ?_⟩
  · intro i v h1 h9
    obtain ⟨p, hp, hpv⟩ := unit_perm _ (row_card i) (fun p => idxOf (V p.1 p.2))
      (fun p hp q hq he => hinj p q
        (Or.inl (by
          have hp1 : p.1 = i := by simpa using hp
          have hq1 : q.1 = i := by simpa using hq
          rw [hp1, hq1])) he) (idxOf v)
    have hp1 : p.1 = i := by simpa using hp
    refine ⟨p.2, ?_, ?_⟩
    · show V i p.2 = v
      rw [← hp1]; exact (hV p v h1 h9).mp hpv
    · intro j hj
      have hj2 : V i j = v := hj
      have := hinj (i, j) p (Or.inl hp1.symm)
        (by rw [(hV (i, j) v h1 h9).mpr hj2]; exact hpv.symm)
      rw [← this]
  · intro j v h1 h9
    obtain ⟨p, hp, hpv⟩ := unit_perm _ (col_card j) (fun p => idxOf (V p.1 p.2))
      (fun p hp q hq he => hinj p q
        (Or.inr (Or.inl (by
          have hp1 : p.2 = j := by simpa using hp
          have hq1 : q.2 = j := by simpa using hq
          rw [hp1, hq1]))) he) (idxOf v)
    have hp2 : p.2 = j := by simpa using hp
    refine ⟨p.1, ?_, ?_⟩
    · show V p.1 j = v
      rw [← hp2]; exact (hV p v h1 h9).mp hpv
    · intro i hi
      have hi2 : V i j = v := hi
      have := hinj (i, j) p (Or.inr (Or.inl hp2.symm))
        (by rw [(hV (i, j) v h1 h9).mpr hi2]; exact hpv.symm)
      rw [← this]
  · intro bi bj v h1 h9
    obtain ⟨p, hp, hpv⟩ := unit_perm _ (block_card bi bj) (fun p => idxOf (V p.1 p.2))
      (fun p hp q hq he => hinj p q
        (Or.inr (Or.inr (by
          have hp1 : p.1.val / 3 = bi.val ∧ p.2.val / 3 = bj.val := by simpa using hp
          have hq1 : q.1.val / 3 = bi.val ∧ q.2.val / 3 = bj.val := by simpa using hq
          exact ⟨by rw [hp1.1, hq1.1], by rw [hp1.2, hq1.2]⟩))) he) (idxOf v)
    have hp1 : p.1.val / 3 = bi.val ∧ p.2.val / 3 = bj.val := by simpa using hp
    refine ⟨p, ⟨hp1, (hV p v h1 h9).mp hpv⟩, ?_⟩
    rintro q ⟨hq1, hqv⟩
    exact hinj q p (Or.inr (Or.inr ⟨by rw [hp1.1, hq1.1], by rw [hp1.2, hq1.2]⟩))
      (by rw [(hV q v h1 h9).mpr hqv]; exact hpv.symm)

theorem isSudoku_range (V : Fin 9 → Fin 9 → Int) (hV : IsSudoku V) (i j : Fin 9) :
    1 ≤ V i j ∧ V i j ≤ 9 := by
  classical
  have hex : ∀ k : Fin 9, ∃ j2 : Fin 9, V i j2 = (k.val : Int) + 1 := fun k =>
    (hV.1 i ((k.val : Int) + 1) (by omega) (by omega)).exists
  choose f hf using hex
  have hinj : Function.Injective f := by
    intro a b hab
    apply Fin.ext
    have h1 := hf a
    have h2 := hf b
    rw [hab] at h1
    omega
  obtain ⟨k, hk⟩ := (Finite.injective_iff_surjective.mp hinj) j
  have := hf k
  rw [hk] at this
  omega

theorem validIdx_of_isSudoku (V : Fin 9 → Fin 9 → Int) (hV : IsSudoku V) :
    ValidIdx (fun i j => idxOf (V i j)) := by
  intro i j k l hp he
  have r1 := isSudoku_range V hV i j
  have r2 := isSudoku_range V hV k l
  have hv : V i j = V k l := by
    rw [← idxOf_val (V i j) r1.1 r1.2, ← idxOf_val (V k l) r2.1 r2.2]
    simp only at he
    rw [he]
  obtain ⟨hne, hpeer⟩ := hp
  rcases hpeer with rfl | rfl | hb
  · have := (hV.1 i (V i j) r1.1 r1.2).unique rfl hv.symm
    rcases hne with h | h
    · exact h rfl
    · exact h this
  · have := (hV.2.1 j (V i j) r1.1 r1.2).unique rfl hv.symm
    rcases hne with h | h
    · exact h this
    · exact h rfl
  · have : ((i, j) : Fin 9 × Fin 9) = (k, l) :=
      (hV.2.2 ⟨i.val / 3, by omega⟩ ⟨j.val / 3, by omega⟩ (V i j) r1.1 r1.2).unique
        ⟨⟨rfl, rfl⟩, rfl⟩ ⟨⟨hb.1.symm, hb.2.symm⟩, hv.symm⟩
    have h1 : i = k := congrArg Prod.fst this
    have h2 : j = l := congrArg Prod.snd this
    rcases hne with h | h
    · exact h h1
    · exact h h2

/-! ### Fuel -/

theorem propagation_loop_fuel (fuel : Nat) :
    ∀ (g : Grid) (last : Nat), 1 ≤ fuel → 81 ≤ fuel + last →
      propagation_loop fuel g last ≠ .outOfFuel ∧
      ∀ more, fuel ≤ more → propagation_loop more g last = propagation_loop fuel g last := by
  induction fuel with
  | zero => intro g last h; omega
  | succ n ih =>
    intro g last _ hfuel
    constructor
    · unfold propagation_loop
      by_cases hcond : number_known g > last ∧ number_known g < 81
      · simp only [hcond, and_self, if_true]
        cases hp : propagation_pass g with
        | none => simp
        | some g1 => exact (ih g1 (number_known g) (by omega) (by omega)).1
      · simp [hcond]
    · intro more hmore
      obtain ⟨m, rfl⟩ : ∃ m, more = m + 1 := ⟨more - 1, by omega⟩
      unfold propagation_loop
      by_cases hcond : number_known g > last ∧ number_known g < 81
      · simp only [hcond, and_self, if_true]
        cases hp : propagation_pass g with
        | none => rfl
        | some g1 => exact (ih g1 (number_known g) (by omega) (by omega)).2 m (by omega)
      · simp [hcond]

theorem guess_loop_congr (solve solve2 : State → Outcome (Bool × State)) (g : Grid)
    (hg : Inv g) (ii jj : Fin 9) (hcnt : (g ii jj).count > 1)
    (h : ∀ t : State, Inv t.sudoku → undetermined t.sudoku < undetermined g →
      solve t = solve2 t) (c : Cell) (l : List (Fin 9)) :
    ∀ (b0 : Bool) (s : State), s.sudoku = g →
      guess_loop solve ii jj c l b0 s = guess_loop solve2 ii jj c l b0 s := by
  induction l with
  | nil => intro b0 s _; rfl
  | cons ll rest ih =>
    intro b0 s hs
    by_cases hc : c.cand ll = true
    · have e := h ⟨setCell s.sudoku ii jj (guess_cell ll), s.max_rec_depth, s.cur_rec_depth,
          s.guesses + 1⟩
        (by rw [hs]; exact Inv_setCell g hg ii jj _ (guess_cell_ok ll))
        (by rw [hs]; exact undetermined_guess g ii jj ll hcnt)
      simp only [guess_loop, hc, if_true, e]
      cases solve2 ⟨setCell s.sudoku ii jj (guess_cell ll), s.max_rec_depth, s.cur_rec_depth,
          s.guesses + 1⟩ with
      | outOfFuel => rfl
      | undefined => rfl
      | returned r =>
        obtain ⟨b, s1⟩ := r
        cases b with
        | true => rfl
        | false => exact ih false _ hs
    · have hc2 : c.cand ll = false := by simpa using hc
      simp only [guess_loop, hc2, Bool.false_eq_true, if_false]
      exact ih b0 s hs

theorem solve_body_congr (solve solve2 : State → Outcome (Bool × State)) (s : State)
    (hg : Inv s.sudoku)
    (h : ∀ t : State, Inv t.sudoku → undetermined t.sudoku < undetermined s.sudoku →
      solve t = solve2 t) :
    solve_body solve s = solve_body solve2 s := by
  obtain ⟨g1, hloop, href⟩ := propagation_loop_refines 81 s.sudoku 0 hg (by omega) (by omega)
  have hloop2 : propagation_loop 81 (enter_solve s).sudoku 0 =
      .returned (g1, number_known g1) := hloop
  unfold solve_body
  simp only [hloop2]
  by_cases hdc : do_check g1 = false
  · simp only [hdc, if_true]
  · have hdc2 : do_check g1 = true := by simpa using hdc
    by_cases hnk : number_known g1 = 81
    · simp only [hdc2, Bool.true_eq_false, if_false, hnk, if_true]
    · simp only [hdc2, Bool.true_eq_false, if_false, hnk]
      cases hfg : find_guess g1 with
      | none => rfl
      | some p =>
        obtain ⟨ii, jj⟩ := p
        have hcnt := find_guess_some g1 ii jj hfg
        have e := guess_loop_congr solve solve2 g1 href.1 ii jj hcnt
          (fun t ht hlt => h t ht (lt_of_lt_of_le hlt (undetermined_le_of_shrinks href.2.1)))
          (g1 ii jj) idx9 true
          ⟨g1, (enter_solve s).max_rec_depth, (enter_solve s).cur_rec_depth,
            (enter_solve s).guesses⟩ rfl
        simp only [e]

theorem attempt_to_solve_fuel_stable (fuel : Nat) :
    ∀ (s : State), Inv s.sudoku → undetermined s.sudoku < fuel →
      ∀ more, fuel ≤ more → attempt_to_solve_fuel more s = attempt_to_solve_fuel fuel s := by
  induction fuel with
  | zero => intro s _ h; omega
  | succ n ih =>
    intro s hs hlt more hmore
    obtain ⟨m, rfl⟩ : ∃ m, more = m + 1 := ⟨more - 1, by omega⟩
    show solve_body (attempt_to_solve_fuel m) s = solve_body (attempt_to_solve_fuel n) s
    exact solve_body_congr _ _ s hs (fun t ht hlt2 => ih t ht (by omega) m (by omega))

/-! ### Facts about the sample inputs -/

theorem sampleFile_length : sampleFile.length = 81 := by decide

theorem sampleFile_good : ∀ x ∈ sampleFile, 0 ≤ x ∧ x ≤ 9 := by decide

theorem sampleFile_at (i j : Fin 9) : InputAt sampleFile i j (sampleVal i j) := by
  have h : ∀ i j : Fin 9, sampleFile[9 * i.val + j.val]? = some (sampleVal i j) := by decide
  exact h i j

theorem sampleVal_range (i j : Fin 9) : 1 ≤ sampleVal i j ∧ sampleVal i j ≤ 9 := by
  revert i j; decide

theorem sampleVal_distinct (i j k l : Fin 9) (h : Peer i j k l) :
    sampleVal i j ≠ sampleVal k l := by
  revert i j k l; decide

/-! ### A complete consistent array is returned at once -/

theorem do_check_of_complete (g : Grid) (hres : ∀ i j, (g i j).count = 1)
    (hno : ¬HasClash g) : do_check g = true := by
  rw [do_check_true_iff]
  refine ⟨?_, hno⟩
  rintro ⟨i, j, h0⟩
  have := hres i j
  omega

theorem solve_body_complete (solve : State → Outcome (Bool × State)) (g : Grid)
    (hres : ∀ i j, (g i j).count = 1) (hno : ¬HasClash g) :
    solve_body solve ⟨g, 0, 0, 0⟩ = .returned (true, ⟨g, 1, 0, 0⟩) := by
  have hnk : number_known g = 81 := number_known_eq_81 g hres
  have hdc : do_check g = true := do_check_of_complete g hres hno
  have hloop : propagation_loop 81 g 0 = .returned (g, 81) := by
    show propagation_loop (80 + 1) g 0 = _
    unfold propagation_loop
    simp [hnk]
  unfold solve_body
  simp [enter_solve, hloop, hdc, exit_solve]

theorem sample_cell (i j : Fin 9) :
    (initialize_sudoku sampleFile 0).sudoku i j =
      ⟨fun kk => decide ((kk.val : Int) = sampleVal i j - 1), 1, sampleVal i j⟩ := by
  have hgood : ∀ x ∈ sampleFile, ¬(x < 0 ∨ x > 9) := by
    intro x hx
    have := sampleFile_good x hx
    omega
  rw [initialize_sudoku_cell sampleFile 0 sampleFile_length hgood i j _ (sampleFile_at i j)]
  have := (sampleVal_range i j).1
  have hpos : sampleVal i j > 0 := by omega
  simp [initCell, hpos]

theorem sample_resolved (i j : Fin 9) : ((initialize_sudoku sampleFile 0).sudoku i j).count = 1 := by
  rw [sample_cell]

theorem sample_no_clash : ¬HasClash (initialize_sudoku sampleFile 0).sudoku := by
  rintro ⟨i, j, k, l, hp, _, _, hf⟩
  rw [sample_cell, sample_cell] at hf
  exact sampleVal_distinct i j k l hp hf

theorem attempt_to_solve_unfold (g : Grid) :
    attempt_to_solve g = solve_body (attempt_to_solve_fuel 81) ⟨g, 0, 0, 0⟩ := by
  unfold attempt_to_solve
  show attempt_to_solve_fuel (81 + 1) _ = _
  rw [attempt_to_solve_fuel]

theorem sample_solved :
    attempt_to_solve (initialize_sudoku sampleFile 0).sudoku =
      .returned (true, ⟨(initialize_sudoku sampleFile 0).sudoku, 1, 0, 0⟩) := by
  rw [attempt_to_solve_unfold]
  exact solve_body_complete _ _ sample_resolved sample_no_clash

/-! ### The eliminators keep the invariants -/

theorem proc_row_inv (g : Grid) (hg : Inv g) (ii jj : Fin 9) :
    ∃ g2, proc_row g ii jj = some g2 ∧ Inv g2 := by
  obtain ⟨c, h, e⟩ := proc_row_elims g hg.2 ii jj
  exact ⟨_, h, Inv_setCell g hg ii jj c (e.inv ⟨hg.1 _ _, hg.2 _ _⟩)⟩

theorem proc_col_inv (g : Grid) (hg : Inv g) (ii jj : Fin 9) :
    ∃ g2, proc_col g ii jj = some g2 ∧ Inv g2 := by
  obtain ⟨c, h, e⟩ := proc_col_elims g hg.2 ii jj
  exact ⟨_, h, Inv_setCell g hg ii jj c (e.inv ⟨hg.1 _ _, hg.2 _ _⟩)⟩

theorem proc_block_inv (g : Grid) (hg : Inv g) (ii jj : Fin 9) :
    ∃ g2, proc_block g ii jj = some g2 ∧ Inv g2 := by
  obtain ⟨c, h, e⟩ := proc_block_elims g hg.2 ii jj
  exact ⟨_, h, Inv_setCell g hg ii jj c (e.inv ⟨hg.1 _ _, hg.2 _ _⟩)⟩

theorem good_iff (file : List Int) (h : ∀ x ∈ file, 0 ≤ x ∧ x ≤ 9) :
    ∀ x ∈ file, ¬(x < 0 ∨ x > 9) := by
  intro x hx
  have := h x hx
  omega

theorem blankGrid_inv : Inv blankGrid := by
  constructor
  · intro i j
    unfold CountOk numCand blankGrid
    simp
  · intro i j h
    have h9 : (9 : Int) = 1 := h
    omega

theorem cons_of_agrees (file : List Int) (xx0 : Int) (hlen : file.length = 81)
    (hgood : ∀ x ∈ file, 0 ≤ x ∧ x ≤ 9) (V : Fin 9 → Fin 9 → Int) (hV : IsSudoku V)
    (hag : AgreesWith V file) :
    Cons (fun i j => idxOf (V i j)) (initialize_sudoku file xx0).sudoku := by
  intro i j
  obtain ⟨v, hv⟩ := inputAt_exists file hlen i j
  rw [initialize_sudoku_cell file xx0 hlen (good_iff file hgood) i j v hv]
  by_cases hpos : v > 0
  · have hVv : V i j = v := hag i j v hv (by omega)
    have hr := isSudoku_range V hV i j
    have := idxOf_val (V i j) hr.1 hr.2
    simp only [initCell, hpos, if_true, decide_eq_true_eq]
    omega
  · simp [initCell, hpos]

/-! ## The claims -/

/-- C1: when `attempt_to_solve`, run on the array that `initialize` builds
from 81 values in `[0,9]`, returns `TRUE`, every entry of the final array has
`CAND_COUNT` 1, the resolved values put each of `1..9` exactly once in every
row, column and block, and every given of the input is the resolved value of
its entry. -/
theorem attempt_to_solve_sound (file : List Int) (xx0 : Int) (hlen : file.length = 81)
    (hgood : ∀ x ∈ file, 0 ≤ x ∧ x ≤ 9) (s2 : State)
    (h : attempt_to_solve (initialize_sudoku file xx0).sudoku = .returned (true, s2)) :
    (∀ i j, (s2.sudoku i j).count = 1) ∧
    IsSudoku (fun i j => (s2.sudoku i j).fixed) ∧
    AgreesWith (fun i j => (s2.sudoku i j).fixed) file := by
  have hinv := initialize_sudoku_inv file xx0 hlen (good_iff file hgood)
  obtain ⟨b, t2, hrun, hpost⟩ := attempt_to_solve_returns _ hinv
  rw [h] at hrun
  simp only [Outcome.returned.injEq, Prod.mk.injEq] at hrun
  obtain ⟨hb, ht⟩ := hrun
  subst hb ht
  obtain ⟨hinv2, htrue, _⟩ := hpost
  obtain ⟨⟨hnk, hdc⟩, hsh⟩ := htrue rfl
  have hres := all_resolved_of_number_known s2.sudoku hnk
  refine ⟨hres, ?_, ?_⟩
  · apply isSudoku_of_distinct
    · intro i j
      obtain ⟨k, hk, _⟩ := hinv2.2 i j (hres i j)
      simp only [hk]
      omega
    · intro i j k l hp hf
      exact ((do_check_true_iff _).mp hdc).2 ⟨i, j, k, l, hp, hres i j, hres k l, hf⟩
  · intro i j v hv hne
    have hcell := initialize_sudoku_cell file xx0 hlen (good_iff file hgood) i j v hv
    have hmem : v ∈ file := List.mem_iff_getElem?.mpr ⟨_, hv⟩
    have hr := hgood v hmem
    have hpos : v > 0 := by omega
    have hc1 : ((initialize_sudoku file xx0).sudoku i j).count ≤ 1 := by
      rw [hcell]; simp [initCell, hpos]
    have := (hsh i j).1 hc1
    simp only [this, hcell, initCell, hpos, if_true]

theorem attempt_to_solve_sound_witness :
    (∀ i j, ((initialize_sudoku sampleFile 0).sudoku i j).count = 1) ∧
    IsSudoku (fun i j => ((initialize_sudoku sampleFile 0).sudoku i j).fixed) ∧
    AgreesWith (fun i j => ((initialize_sudoku sampleFile 0).sudoku i j).fixed) sampleFile :=
  attempt_to_solve_sound sampleFile 0 sampleFile_length sampleFile_good
    ⟨(initialize_sudoku sampleFile 0).sudoku, 1, 0, 0⟩ sample_solved

/-- C2: on the array built from 81 values in `[0,9]`, if the top-level
`attempt_to_solve` returns `FALSE` then no complete valid Sudoku grid agrees
with the givens; and whenever such a grid exists it returns `TRUE`. -/
theorem attempt_to_solve_complete (file : List Int) (xx0 : Int) (hlen : file.length = 81)
    (hgood : ∀ x ∈ file, 0 ≤ x ∧ x ≤ 9) :
    (∀ s2, attempt_to_solve (initialize_sudoku file xx0).sudoku = .returned (false, s2) →
      ¬∃ V, IsSudoku V ∧ AgreesWith V file) ∧
    ((∃ V, IsSudoku V ∧ AgreesWith V file) →
      ∃ s2, attempt_to_solve (initialize_sudoku file xx0).sudoku = .returned (true, s2)) := by
  have hinv := initialize_sudoku_inv file xx0 hlen (good_iff file hgood)
  obtain ⟨b, t2, hrun, hpost⟩ := attempt_to_solve_returns _ hinv
  have key : (∃ V, IsSudoku V ∧ AgreesWith V file) → b = true := by
    rintro ⟨V, hV, hag⟩
    exact hpost.2.2 _ (validIdx_of_isSudoku V hV) (cons_of_agrees file xx0 hlen hgood V hV hag)
  constructor
  · intro s2 hfalse hex
    rw [hfalse] at hrun
    simp only [Outcome.returned.injEq, Prod.mk.injEq] at hrun
    have := key hex
    rw [← hrun.1] at this
    exact Bool.noConfusion this
  · intro hex
    refine ⟨t2, ?_⟩
    rw [hrun, key hex]

theorem attempt_to_solve_complete_witness :
    (∀ s2, attempt_to_solve (initialize_sudoku sampleFile 0).sudoku = .returned (false, s2) →
      ¬∃ V, IsSudoku V ∧ AgreesWith V sampleFile) ∧
    ((∃ V, IsSudoku V ∧ AgreesWith V sampleFile) →
      ∃ s2, attempt_to_solve (initialize_sudoku sampleFile 0).sudoku = .returned (true, s2)) :=
  attempt_to_solve_complete sampleFile 0 sampleFile_length sampleFile_good

/-- C3: `attempt_to_solve` terminates.  The `while` loop needs at most 81
evaluations of its condition, whatever the array; the body of a call uses the
recursive call only on arrays that satisfy the invariants and have strictly
fewer entries with `CAND_COUNT > 1` than the array the call was entered with;
so a nesting bound above that number always yields a return, the same for
every larger bound, and on the array built from 81 values in `[0,9]` the
top-level call returns. -/
theorem attempt_to_solve_terminates :
    (∀ g : Grid, propagation_loop 81 g 0 ≠ .outOfFuel ∧
      ∀ more, 81 ≤ more → propagation_loop more g 0 = propagation_loop 81 g 0) ∧
    (∀ (solve solve2 : State → Outcome (Bool × State)) (s : State), Inv s.sudoku →
      (∀ t : State, Inv t.sudoku → undetermined t.sudoku < undetermined s.sudoku →
        solve t = solve2 t) →
      solve_body solve s = solve_body solve2 s) ∧
    (∀ (fuel : Nat) (s : State), Inv s.sudoku → undetermined s.sudoku < fuel →
      (∃ b s2, attempt_to_solve_fuel fuel s = .returned (b, s2)) ∧
      ∀ more, fuel ≤ more → attempt_to_solve_fuel more s = attempt_to_solve_fuel fuel s) ∧
    (∀ (file : List Int) (xx0 : Int), file.length = 81 → (∀ x ∈ file, 0 ≤ x ∧ x ≤ 9) →
      ∃ b s2, attempt_to_solve (initialize_sudoku file xx0).sudoku = .returned (b, s2)) := by
  refine ⟨fun g => propagation_loop_fuel 81 g 0 (by omega) (by omega),
    fun solve solve2 s hs h => solve_body_congr solve solve2 s hs h, ?_, ?_⟩
  · intro fuel s hs hlt
    obtain ⟨b, s2, h, _⟩ := attempt_to_solve_fuel_spec fuel s hs hlt
    exact ⟨⟨b, s2, h⟩, attempt_to_solve_fuel_stable fuel s hs hlt⟩
  · intro file xx0 hlen hgood
    obtain ⟨b, s2, h, _⟩ := attempt_to_solve_returns _
      (initialize_sudoku_inv file xx0 hlen (good_iff file hgood))
    exact ⟨b, s2, h⟩

theorem attempt_to_solve_terminates_witness :
    ∃ b s2, attempt_to_solve (initialize_sudoku sampleFile 0).sudoku = .returned (b, s2) :=
  attempt_to_solve_terminates.2.2.2 sampleFile 0 sampleFile_length sampleFile_good

theorem do_check_blankGrid : do_check blankGrid = true := by
  rw [do_check_true_iff]
  constructor
  · rintro ⟨i, j, h⟩
    have h9 : (9 : Int) = 0 := h
    omega
  · rintro ⟨i, j, k, l, _, h, _⟩
    have h9 : (9 : Int) = 1 := h
    omega

theorem do_check_false_iff_witness :
    (do_check blankGrid = false ↔
      (∃ i j, (blankGrid i j).count = 0) ∨
      (∃ i j k l, ((i ≠ k ∨ j ≠ l) ∧ (i = k ∨ j = l ∨ SameBlock i j k l)) ∧
        (blankGrid i j).count = 1 ∧ (blankGrid k l).count = 1 ∧
        (blankGrid i j).fixed = (blankGrid k l).fixed)) ∧
    (do_check blankGrid = true →
      ∀ i j k l, (i ≠ k ∨ j ≠ l) → (i = k ∨ j = l ∨ SameBlock i j k l) →
        (blankGrid i j).count = 1 → (blankGrid k l).count = 1 →
        (blankGrid i j).fixed ≠ (blankGrid k l).fixed) :=
  do_check_false_iff blankGrid

/-- C8: the candidate-count invariant (`CAND_COUNT` is the number of flags
marked present) holds in the array `initialize` builds from 81 values in
`[0,9]`, is kept by `proc_row`, `proc_col` and `proc_block` on any target, by
a guess commit, and holds in the array every call of `attempt_to_solve`
leaves (restores included); it bounds `CAND_COUNT` between 0 and 9. -/
theorem candidate_count_invariant :
    (∀ (file : List Int) (xx0 : Int), file.length = 81 → (∀ x ∈ file, 0 ≤ x ∧ x ≤ 9) →
      CountInv (initialize_sudoku file xx0).sudoku) ∧
    (∀ (g : Grid) (ii jj : Fin 9), Inv g → ∃ g2, proc_row g ii jj = some g2 ∧ CountInv g2) ∧
    (∀ (g : Grid) (ii jj : Fin 9), Inv g → ∃ g2, proc_col g ii jj = some g2 ∧ CountInv g2) ∧
    (∀ (g : Grid) (ii jj : Fin 9), Inv g → ∃ g2, proc_block g ii jj = some g2 ∧ CountInv g2) ∧
    (∀ (g : Grid) (ii jj ll : Fin 9), CountInv g → CountInv (setCell g ii jj (guess_cell ll))) ∧
    (∀ (fuel : Nat) (s : State), Inv s.sudoku → undetermined s.sudoku < fuel →
      ∃ b s2, attempt_to_solve_fuel fuel s = .returned (b, s2) ∧ CountInv s2.sudoku) ∧
    (∀ g : Grid, CountInv g → ∀ i j, 0 ≤ (g i j).count ∧ (g i j).count ≤ 9) := by
  refine ⟨?_, ?_, ?_, ?_, ?_, ?_, ?_⟩
  · intro file xx0 hlen hgood
    exact (initialize_sudoku_inv file xx0 hlen (good_iff file hgood)).1
  · intro g ii jj hg
    obtain ⟨g2, h, hi⟩ := proc_row_inv g hg ii jj
    exact ⟨g2, h, hi.1⟩
  · intro g ii jj hg
    obtain ⟨g2, h, hi⟩ := proc_col_inv g hg ii jj
    exact ⟨g2, h, hi.1⟩
  · intro g ii jj hg
    obtain ⟨g2, h, hi⟩ := proc_block_inv g hg ii jj
    exact ⟨g2, h, hi.1⟩
  · intro g ii jj ll hg a b
    by_cases e : a = ii ∧ b = jj
    · obtain ⟨rfl, rfl⟩ := e
      rw [setCell_same]
      exact (guess_cell_ok ll).1
    · rw [setCell_other g ii jj a b _ e]
      exact hg a b
  · intro fuel s hs hlt
    obtain ⟨b, s2, h, hp⟩ := attempt_to_solve_fuel_spec fuel s hs hlt
    exact ⟨b, s2, h, hp.1.1⟩
  · intro g hg i j
    have h1 : (g i j).count = (numCand (g i j) : Int) := hg i j
    have h2 := numCand_le (g i j)
    omega

theorem candidate_count_invariant_witness :
    CountInv (initialize_sudoku sampleFile 0).sudoku ∧
    (∃ g2, proc_row blankGrid 0 0 = some g2 ∧ CountInv g2) :=
  ⟨candidate_count_invariant.1 sampleFile 0 sampleFile_length sampleFile_good,
    candidate_count_invariant.2.1 blankGrid 0 0 blankGrid_inv⟩

/-- C9: the resolved-value invariant (an entry with `CAND_COUNT` 1 has a
`FIXED_VAL` in `1..9` that is its one candidate marked present) holds in the
array `initialize` builds from 81 values in `[0,9]`, is kept by `proc_row`,
`proc_col` and `proc_block` on any target, by a guess commit, and holds in the
array every call of `attempt_to_solve` leaves; under it `FIXED_VAL - 1` is an
index in `0..8`, and the eliminators, which use that index, are defined. -/
theorem resolved_value_invariant :
    (∀ (file : List Int) (xx0 : Int), file.length = 81 → (∀ x ∈ file, 0 ≤ x ∧ x ≤ 9) →
      FixedInv (initialize_sudoku file xx0).sudoku) ∧
    (∀ (g : Grid) (ii jj : Fin 9), Inv g → ∃ g2, proc_row g ii jj = some g2 ∧ FixedInv g2) ∧
    (∀ (g : Grid) (ii jj : Fin 9), Inv g → ∃ g2, proc_col g ii jj = some g2 ∧ FixedInv g2) ∧
    (∀ (g : Grid) (ii jj : Fin 9), Inv g → ∃ g2, proc_block g ii jj = some g2 ∧ FixedInv g2) ∧
    (∀ (g : Grid) (ii jj ll : Fin 9), FixedInv g → FixedInv (setCell g ii jj (guess_cell ll))) ∧
    (∀ (fuel : Nat) (s : State), Inv s.sudoku → undetermined s.sudoku < fuel →
      ∃ b s2, attempt_to_solve_fuel fuel s = .returned (b, s2) ∧ FixedInv s2.sudoku) ∧
    (∀ g : Grid, FixedInv g → ∀ i j, (g i j).count = 1 →
      0 ≤ (g i j).fixed - 1 ∧ (g i j).fixed - 1 ≤ 8 ∧
      ∀ m : Fin 9, (g i j).cand m = true ↔ (m.val : Int) = (g i j).fixed - 1) := by
  refine ⟨?_, ?_, ?_, ?_, ?_, ?_, ?_⟩
  · intro file xx0 hlen hgood
    exact (initialize_sudoku_inv file xx0 hlen (good_iff file hgood)).2
  · intro g ii jj hg
    obtain ⟨g2, h, hi⟩ := proc_row_inv g hg ii jj
    exact ⟨g2, h, hi.2⟩
  · intro g ii jj hg
    obtain ⟨g2, h, hi⟩ := proc_col_inv g hg ii jj
    exact ⟨g2, h, hi.2⟩
  · intro g ii jj hg
    obtain ⟨g2, h, hi⟩ := proc_block_inv g hg ii jj
    exact ⟨g2, h, hi.2⟩
  · intro g ii jj ll hg a b
    by_cases e : a = ii ∧ b = jj
    · obtain ⟨rfl, rfl⟩ := e
      rw [setCell_same]
      exact (guess_cell_ok ll).2
    · rw [setCell_other g ii jj a b _ e]
      exact hg a b
  · intro fuel s hs hlt
    obtain ⟨b, s2, h, hp⟩ := attempt_to_solve_fuel_spec fuel s hs hlt
    exact ⟨b, s2, h, hp.1.2⟩
  · intro g hg i j h1
    obtain ⟨k, hk, honly⟩ := hg i j h1
    refine ⟨by omega, by omega, fun m => ?_⟩
    rw [honly m, hk]
    constructor
    · intro e; rw [e]; omega
    · intro e; apply Fin.ext; omega

theorem resolved_value_invariant_witness :
    FixedInv (initialize_sudoku sampleFile 0).sudoku ∧
    (∃ g2, proc_block blankGrid 0 0 = some g2 ∧ FixedInv g2) :=
  ⟨resolved_value_invariant.1 sampleFile 0 sampleFile_length sampleFile_good,
    resolved_value_invariant.2.2.2.1 blankGrid 0 0 blankGrid_inv⟩

/-- C10: on an array in which every entry has `CAND_COUNT` 1 and no two
peers have the same `FIXED_VAL`, `attempt_to_solve` started with both
counters at 0 returns `TRUE`, leaves the array as it was, records the maximum
depth 1 and makes no guess: the result does not depend on what a recursive
call would do. -/
theorem attempt_to_solve_resolved (g : Grid) (hres : ∀ i j, (g i j).count = 1)
    (hdist : ∀ i j k l, (i ≠ k ∨ j ≠ l) → (i = k ∨ j = l ∨ SameBlock i j k l) →
      (g i j).fixed ≠ (g k l).fixed) :
    attempt_to_solve g = .returned (true, ⟨g, 1, 0, 0⟩) ∧
    ∀ solve, solve_body solve ⟨g, 0, 0, 0⟩ = .returned (true, ⟨g, 1, 0, 0⟩) := by
  have hno : ¬HasClash g := by
    rintro ⟨i, j, k, l, hp, _, _, hf⟩
    exact hdist i j k l hp.1 hp.2 hf
  refine ⟨?_, fun solve => solve_body_complete solve g hres hno⟩
  rw [attempt_to_solve_unfold]
  exact solve_body_complete _ g hres hno

theorem attempt_to_solve_resolved_witness :
    attempt_to_solve (initialize_sudoku sampleFile 0).sudoku =
      .returned (true, ⟨(initialize_sudoku sampleFile 0).sudoku, 1, 0, 0⟩) ∧
    ∀ solve, solve_body solve ⟨(initialize_sudoku sampleFile 0).sudoku, 0, 0, 0⟩ =
      .returned (true, ⟨(initialize_sudoku sampleFile 0).sudoku, 1, 0, 0⟩) :=
  attempt_to_solve_resolved _ sample_resolved (fun i j k l h1 h2 hf =>
    sample_no_clash ⟨i, j, k, l, ⟨h1, h2⟩, sample_resolved i j, sample_resolved k l, hf⟩)

/-! ### Failure leaves the array of the propagation loop -/

theorem guess_loop_false (solve : State → Outcome (Bool × State)) (ii jj : Fin 9) (c : Cell)
    (l : List (Fin 9)) :
    ∀ (b0 : Bool) (s s2 : State),
      guess_loop solve ii jj c l b0 s = .returned (false, s2) → s2.sudoku = s.sudoku := by
  induction l with
  | nil =>
    intro b0 s s2 h
    simp only [guess_loop, Outcome.returned.injEq, Prod.mk.injEq] at h
    rw [← h.2]
  | cons ll rest ih =>
    intro b0 s s2 h
    by_cases hc : c.cand ll = true
    · simp only [guess_loop, hc, if_true] at h
      cases hs : solve ⟨setCell s.sudoku ii jj (guess_cell ll), s.max_rec_depth,
          s.cur_rec_depth, s.guesses + 1⟩ with
      | outOfFuel => rw [hs] at h; exact Outcome.noConfusion h
      | undefined => rw [hs] at h; exact Outcome.noConfusion h
      | returned r =>
        obtain ⟨b, s1⟩ := r
        rw [hs] at h
        cases b with
        | true =>
          simp only [Outcome.returned.injEq, Prod.mk.injEq] at h
          exact Bool.noConfusion h.1
        | false =>
          simp only at h
          have := ih false _ s2 h
          exact this
    · have hc2 : c.cand ll = false := by simpa using hc
      simp only [guess_loop, hc2, Bool.false_eq_true, if_false] at h
      exact ih b0 s s2 h

theorem solve_body_false (solve : State → Outcome (Bool × State)) (s s2 : State)
    (h : solve_body solve s = .returned (false, s2)) :
    ∃ nk, propagation_loop 81 s.sudoku 0 = .returned (s2.sudoku, nk) := by
  unfold solve_body at h
  dsimp only at h
  cases hl : propagation_loop 81 (enter_solve s).sudoku 0 with
  | outOfFuel => rw [hl] at h; exact Outcome.noConfusion h
  | undefined => rw [hl] at h; exact Outcome.noConfusion h
  | returned r =>
    obtain ⟨g1, nk⟩ := r
    rw [hl] at h
    simp only at h
    refine ⟨nk, ?_⟩
    suffices hg : s2.sudoku = g1 by
      show propagation_loop 81 (enter_solve s).sudoku 0 = _
      rw [hl, hg]
    by_cases hdc : do_check g1 = false
    · simp only [hdc, if_true, exit_solve, Outcome.returned.injEq, Prod.mk.injEq, true_and] at h
      rw [← h]
    · have hdc2 : do_check g1 = true := by simpa using hdc
      by_cases hnk : nk = 81
      · simp [hdc2, hnk, exit_solve] at h
      · simp only [hdc2, Bool.true_eq_false, if_false, hnk] at h
        cases hfg : find_guess g1 with
        | none => rw [hfg] at h; exact Outcome.noConfusion h
        | some p =>
          obtain ⟨ii, jj⟩ := p
          rw [hfg] at h
          simp only at h
          cases hgl : guess_loop solve ii jj (g1 ii jj) idx9 true
              ⟨g1, (enter_solve s).max_rec_depth, (enter_solve s).cur_rec_depth,
                (enter_solve s).guesses⟩ with
          | outOfFuel => rw [hgl] at h; exact Outcome.noConfusion h
          | undefined => rw [hgl] at h; exact Outcome.noConfusion h
          | returned r2 =>
            obtain ⟨b, s3⟩ := r2
            rw [hgl] at h
            simp only [exit_solve, Outcome.returned.injEq, Prod.mk.injEq] at h
            obtain ⟨hb, hs⟩ := h
            subst hb
            have := guess_loop_false solve ii jj (g1 ii jj) idx9 true _ s3 hgl
            rw [← hs]
            simp only [this]

theorem attempt_to_solve_fuel_false (fuel : Nat) (s s2 : State)
    (h : attempt_to_solve_fuel fuel s = .returned (false, s2)) :
    ∃ nk, propagation_loop 81 s.sudoku 0 = .returned (s2.sudoku, nk) := by
  cases fuel with
  | zero => exact Outcome.noConfusion h
  | succ n => exact solve_body_false (attempt_to_solve_fuel n) s s2 h

/-! ### The depth counters -/

theorem guess_loop_depth (solve : State → Outcome (Bool × State))
    (hsolve : ∀ t b t2, solve t = .returned (b, t2) → DepthOk t t2)
    (ii jj : Fin 9) (c : Cell) (l : List (Fin 9)) :
    ∀ (b0 : Bool) (s : State) (b : Bool) (s2 : State),
      guess_loop solve ii jj c l b0 s = .returned (b, s2) → LoopDepthOk s s2 := by
  induction l with
  | nil =>
    intro b0 s b s2 h
    simp only [guess_loop, Outcome.returned.injEq, Prod.mk.injEq] at h
    rw [← h.2]
    exact ⟨rfl, le_refl _, le_refl _, fun _ => rfl, fun h => absurd h (lt_irrefl _)⟩
  | cons ll rest ih =>
    intro b0 s b s2 h
    by_cases hc : c.cand ll = true
    · simp only [guess_loop, hc, if_true] at h
      cases hs : solve ⟨setCell s.sudoku ii jj (guess_cell ll), s.max_rec_depth,
          s.cur_rec_depth, s.guesses + 1⟩ with
      | outOfFuel => rw [hs] at h; exact Outcome.noConfusion h
      | undefined => rw [hs] at h; exact Outcome.noConfusion h
      | returned r =>
        obtain ⟨b1, s1⟩ := r
        rw [hs] at h
        obtain ⟨d1, d2, d3, d4, d5, d6⟩ := hsolve _ _ _ hs
        simp only at d1 d2 d3 d4 d5 d6
        have hmax : s.cur_rec_depth + 1 ≤ s1.max_rec_depth := by
          by_cases e : s1.guesses = s.guesses + 1
          · by_cases e2 : s.max_rec_depth < s.cur_rec_depth + 1
            · have := d4 e e2; omega
            · omega
          · have := d6 (by omega); omega
        cases b1 with
        | true =>
          simp only [Outcome.returned.injEq, Prod.mk.injEq] at h
          rw [← h.2]
          exact ⟨d1, by omega, d3, fun e => by omega, fun _ => hmax⟩
        | false =>
          simp only at h
          obtain ⟨e1, e2, e3, e4, e5⟩ := ih false _ b s2 h
          simp only at e1 e2 e3 e4 e5
          exact ⟨by omega, by omega, by omega, fun e => by omega, fun _ => by omega⟩
    · have hc2 : c.cand ll = false := by simpa using hc
      simp only [guess_loop, hc2, Bool.false_eq_true, if_false] at h
      exact ih b0 s b s2 h

theorem solve_body_depth (solve : State → Outcome (Bool × State))
    (hsolve : ∀ t b t2, solve t = .returned (b, t2) → DepthOk t t2)
    (s : State) (b : Bool) (s2 : State) (h : solve_body solve s = .returned (b, s2)) :
    DepthOk s s2 := by
  unfold solve_body at h
  dsimp only at h
  cases hl : propagation_loop 81 (enter_solve s).sudoku 0 with
  | outOfFuel => rw [hl] at h; exact Outcome.noConfusion h
  | undefined => rw [hl] at h; exact Outcome.noConfusion h
  | returned r =>
    obtain ⟨g1, nk⟩ := r
    rw [hl] at h
    simp only at h
    have early : ∀ b0, exit_solve b0 ⟨g1, (enter_solve s).max_rec_depth,
        (enter_solve s).cur_rec_depth, (enter_solve s).guesses⟩ = .returned (b, s2) →
        DepthOk s s2 := by
      intro b0 he
      simp only [exit_solve, enter_solve, Outcome.returned.injEq, Prod.mk.injEq] at he
      rw [← he.2]
      unfold DepthOk
      simp only
      refine ⟨by omega, le_refl _, ?_, ?_, ?_, fun h => absurd h (lt_irrefl _)⟩
      · split_ifs <;> omega
      · intro _ h1; rw [if_pos h1]
      · intro _ h1; rw [if_neg h1]
    by_cases hdc : do_check g1 = false
    · simp only [hdc, if_true] at h
      exact early false h
    · have hdc2 : do_check g1 = true := by simpa using hdc
      by_cases hnk : nk = 81
      · simp only [hdc2, Bool.true_eq_false, if_false, hnk, if_true] at h
        exact early true h
      · simp only [hdc2, Bool.true_eq_false, if_false, hnk] at h
        cases hfg : find_guess g1 with
        | none => rw [hfg] at h; exact Outcome.noConfusion h
        | some p =>
          obtain ⟨ii, jj⟩ := p
          rw [hfg] at h
          simp only at h
          cases hgl : guess_loop solve ii jj (g1 ii jj) idx9 true
              ⟨g1, (enter_solve s).max_rec_depth, (enter_solve s).cur_rec_depth,
                (enter_solve s).guesses⟩ with
          | outOfFuel => rw [hgl] at h; exact Outcome.noConfusion h
          | undefined => rw [hgl] at h; exact Outcome.noConfusion h
          | returned r2 =>
            obtain ⟨b3, s3⟩ := r2
            rw [hgl] at h
            simp only [exit_solve, Outcome.returned.injEq, Prod.mk.injEq] at h
            obtain ⟨e1, e2, e3, e4, e5⟩ := guess_loop_depth solve hsolve ii jj _ idx9 _ _ _ _ hgl
            simp only [enter_solve] at e1 e2 e3 e4 e5
            rw [← h.2]
            unfold DepthOk
            simp only
            refine ⟨by omega, e2, ?_, ?_, ?_, ?_⟩
            · split_ifs at e3 <;> omega
            · intro hg h1
              have := e4 hg
              rw [if_pos h1] at this
              exact this
            · intro hg h1
              have := e4 hg
              rw [if_neg h1] at this
              exact this
            · intro hg
              have := e5 hg
              omega

theorem attempt_to_solve_fuel_depth (fuel : Nat) :
    ∀ (t : State) (b : Bool) (t2 : State),
      attempt_to_solve_fuel fuel t = .returned (b, t2) → DepthOk t t2 := by
  induction fuel with
  | zero => intro t b t2 h; exact Outcome.noConfusion h
  | succ n ih => intro t b t2 h; exact solve_body_depth _ ih t b t2 h

/-! ### Helpers for the scenario claims -/

theorem solved_isSudoku (g : Grid) (hinv : Inv g) (hs : Solved g) :
    (∀ i j, (g i j).count = 1) ∧ IsSudoku (fun i j => (g i j).fixed) := by
  have hres := all_resolved_of_number_known g hs.1
  refine ⟨hres, ?_⟩
  apply isSudoku_of_distinct
  · intro i j
    obtain ⟨k, hk, _⟩ := hinv.2 i j (hres i j)
    simp only [hk]
    omega
  · intro i j k l hp hf
    exact ((do_check_true_iff _).mp hs.2).2 ⟨i, j, k, l, hp, hres i j, hres k l, hf⟩

theorem sampleVal_isSudoku : IsSudoku sampleVal :=
  isSudoku_of_distinct sampleVal sampleVal_range sampleVal_distinct

theorem initialize_rc_true (file : List Int) (xx0 : Int) (hlen : file.length = 81)
    (hgood : ∀ x ∈ file, 0 ≤ x ∧ x ≤ 9) : (initialize_sudoku file xx0).rc = true := by
  have hg : ∀ m w, m < allCells.length → file[m]? = some w → ¬BadValue w := by
    intro m w _ hw
    exact good_iff file hgood w (List.mem_iff_getElem?.mpr ⟨m, hw⟩)
  exact (initialize_loop_ok allCells file xx0 zeroGrid allCells_nodup
    (by rw [allCells_length, hlen]) hg).1

theorem zeros_good : ∀ x ∈ List.replicate 81 (0 : Int), 0 ≤ x ∧ x ≤ 9 := by
  intro x hx
  rw [List.eq_of_mem_replicate hx]
  omega

theorem zeros_agree (V : Fin 9 → Fin 9 → Int) : AgreesWith V (List.replicate 81 0) := by
  intro i j v hv hne
  have hmem : v ∈ List.replicate 81 (0 : Int) := List.mem_iff_getElem?.mpr ⟨_, hv⟩
  exact absurd (List.eq_of_mem_replicate hmem) hne

theorem given_cell (file : List Int) (xx0 : Int) (hlen : file.length = 81)
    (hgood : ∀ x ∈ file, 0 ≤ x ∧ x ≤ 9) (i j : Fin 9) (v : Int) (hv : InputAt file i j v)
    (hne : v ≠ 0) :
    ((initialize_sudoku file xx0).sudoku i j).count = 1 ∧
    ((initialize_sudoku file xx0).sudoku i j).fixed = v := by
  have hmem : v ∈ file := List.mem_iff_getElem?.mpr ⟨_, hv⟩
  have hr := hgood v hmem
  have hpos : v > 0 := by omega
  rw [initialize_sudoku_cell file xx0 hlen (good_iff file hgood) i j v hv]
  simp [initCell, hpos]

theorem solve_body_clash (solve : State → Outcome (Bool × State)) (g : Grid) (hg : Inv g)
    (hclash : ∃ i j k l, Peer i j k l ∧ (g i j).count = 1 ∧ (g k l).count = 1 ∧
      (g i j).fixed = (g k l).fixed) :
    ∃ g1 nk, propagation_loop 81 g 0 = .returned (g1, nk) ∧ do_check g1 = false ∧
      solve_body solve ⟨g, 0, 0, 0⟩ = .returned (false, ⟨g1, 1, 0, 0⟩) := by
  obtain ⟨g1, hloop, href⟩ := propagation_loop_refines 81 g 0 hg (by omega) (by omega)
  obtain ⟨i, j, k, l, hp, h1, h2, hf⟩ := hclash
  have e1 : g1 i j = g i j := (href.2.1 i j).1 (by omega)
  have e2 : g1 k l = g k l := (href.2.1 k l).1 (by omega)
  have hdc : do_check g1 = false := by
    cases hd : do_check g1 with
    | false => rfl
    | true =>
      exact absurd ⟨i, j, k, l, hp, by rw [e1]; exact h1, by rw [e2]; exact h2,
        by rw [e1, e2]; exact hf⟩ ((do_check_true_iff g1).mp hd).2
  refine ⟨g1, number_known g1, hloop, hdc, ?_⟩
  unfold solve_body
  simp [hloop, hdc, exit_solve, enter_solve]

theorem clashFile_length : clashFile.length = 81 := by simp [clashFile]

theorem clashFile_good : ∀ x ∈ clashFile, 0 ≤ x ∧ x ≤ 9 := by
  intro x hx
  simp only [clashFile, List.mem_cons] at hx
  rcases hx with rfl | rfl | hx
  · omega
  · omega
  · rw [List.eq_of_mem_replicate hx]; omega

theorem clashFile_fails :
    ∃ g1, attempt_to_solve_fuel 82 ⟨(initialize_sudoku clashFile 0).sudoku, 0, 0, 0⟩ =
      .returned (false, ⟨g1, 1, 0, 0⟩) := by
  have hinv := initialize_sudoku_inv clashFile 0 clashFile_length
    (good_iff clashFile clashFile_good)
  have c1 := given_cell clashFile 0 clashFile_length clashFile_good 0 0 1
    (by simp [InputAt, clashFile]) (by decide)
  have c2 := given_cell clashFile 0 clashFile_length clashFile_good 0 1 1
    (by simp [InputAt, clashFile]) (by decide)
  obtain ⟨g1, _, _, _, hbody⟩ := solve_body_clash (attempt_to_solve_fuel 81) _ hinv
    ⟨0, 0, 0, 1, ⟨Or.inr (by decide), Or.inl rfl⟩, c1.1, c2.1, by rw [c1.2, c2.2]⟩
  exact ⟨g1, hbody⟩

/-! ## The claims, continued -/

/-- C11: when two distinct givens of the input that share a row, a column or
a block carry the same value, the top-level `attempt_to_solve` returns
`FALSE` from the `do_check` of the top-level call: the array it leaves is the
one the propagation loop produced, the maximum depth is 1, no recursive call
was made, and the result does not depend on what a recursive call would do. -/
theorem attempt_to_solve_clash (file : List Int) (xx0 : Int) (hlen : file.length = 81)
    (hgood : ∀ x ∈ file, 0 ≤ x ∧ x ≤ 9) (i j k l : Fin 9) (v : Int)
    (hne : i ≠ k ∨ j ≠ l) (hpeer : i = k ∨ j = l ∨ SameBlock i j k l)
    (hv : v ≠ 0) (h1 : InputAt file i j v) (h2 : InputAt file k l v) :
    ∃ g1 nk, propagation_loop 81 (initialize_sudoku file xx0).sudoku 0 = .returned (g1, nk) ∧
      do_check g1 = false ∧
      attempt_to_solve (initialize_sudoku file xx0).sudoku = .returned (false, ⟨g1, 1, 0, 0⟩) ∧
      ∀ solve, solve_body solve ⟨(initialize_sudoku file xx0).sudoku, 0, 0, 0⟩ =
        .returned (false, ⟨g1, 1, 0, 0⟩) := by
  have hinv := initialize_sudoku_inv file xx0 hlen (good_iff file hgood)
  have c1 := given_cell file xx0 hlen hgood i j v h1 hv
  have c2 := given_cell file xx0 hlen hgood k l v h2 hv
  have hclash : ∃ i j k l, Peer i j k l ∧
      ((initialize_sudoku file xx0).sudoku i j).count = 1 ∧
      ((initialize_sudoku file xx0).sudoku k l).count = 1 ∧
      ((initialize_sudoku file xx0).sudoku i j).fixed =
        ((initialize_sudoku file xx0).sudoku k l).fixed :=
    ⟨i, j, k, l, ⟨hne, hpeer⟩, c1.1, c2.1, by rw [c1.2, c2.2]⟩
  obtain ⟨g1, nk, hloop, hdc, hbody⟩ :=
    solve_body_clash (attempt_to_solve_fuel 81) _ hinv hclash
  refine ⟨g1, nk, hloop, hdc, by rw [attempt_to_solve_unfold]; exact hbody, fun solve => ?_⟩
  obtain ⟨g2, nk2, hloop2, _, hbody2⟩ := solve_body_clash solve _ hinv hclash
  rw [hloop] at hloop2
  simp only [Outcome.returned.injEq, Prod.mk.injEq] at hloop2
  rw [hloop2.1]
  exact hbody2

theorem attempt_to_solve_clash_witness :
    ∃ g1 nk, propagation_loop 81 (initialize_sudoku clashFile 0).sudoku 0 = .returned (g1, nk) ∧
      do_check g1 = false ∧
      attempt_to_solve (initialize_sudoku clashFile 0).sudoku = .returned (false, ⟨g1, 1, 0, 0⟩) ∧
      ∀ solve, solve_body solve ⟨(initialize_sudoku clashFile 0).sudoku, 0, 0, 0⟩ =
        .returned (false, ⟨g1, 1, 0, 0⟩) :=
  attempt_to_solve_clash clashFile 0 clashFile_length clashFile_good
    0 0 0 1 1 (Or.inr (by decide)) (Or.inl rfl) (by decide)
    (by simp [InputAt, clashFile]) (by simp [InputAt, clashFile])

/-- C12: on the input of 81 zeros `initialize` returns `TRUE` and
`attempt_to_solve` returns `TRUE`, leaving every entry with `CAND_COUNT` 1 and
resolved values that put each of `1..9` exactly once in every row, column and
block. -/
theorem attempt_to_solve_empty (xx0 : Int) :
    (initialize_sudoku (List.replicate 81 0) xx0).rc = true ∧
    ∃ s2, attempt_to_solve (initialize_sudoku (List.replicate 81 0) xx0).sudoku =
        .returned (true, s2) ∧
      (∀ i j, (s2.sudoku i j).count = 1) ∧
      IsSudoku (fun i j => (s2.sudoku i j).fixed) := by
  have hlen : (List.replicate 81 (0 : Int)).length = 81 := by simp
  refine ⟨initialize_rc_true _ xx0 hlen zeros_good, ?_⟩
  have hinv := initialize_sudoku_inv _ xx0 hlen (good_iff _ zeros_good)
  obtain ⟨b, s2, hrun, hpost⟩ := attempt_to_solve_returns _ hinv
  have hb : b = true := hpost.2.2 _ (validIdx_of_isSudoku sampleVal sampleVal_isSudoku)
    (cons_of_agrees _ xx0 hlen zeros_good sampleVal sampleVal_isSudoku (zeros_agree sampleVal))
  subst hb
  exact ⟨s2, hrun, solved_isSudoku s2.sudoku hpost.1 (hpost.2.1 rfl).1⟩

/-- C13: when the recursive call made for a guess returns `FALSE`, the guess
loop goes on from the array as it was before that guess was committed (all
81 entries, flags, `CAND_COUNT` and `FIXED_VAL`); so whenever a call of
`attempt_to_solve` returns `FALSE`, the array is the one that the propagation
loop of that call left from its entry array. -/
theorem failure_restores :
    (∀ (solve : State → Outcome (Bool × State)) (ii jj : Fin 9) (c : Cell) (ll : Fin 9)
        (rest : List (Fin 9)) (b0 : Bool) (s s1 : State),
      c.cand ll = true →
      solve ⟨setCell s.sudoku ii jj (guess_cell ll), s.max_rec_depth, s.cur_rec_depth,
        s.guesses + 1⟩ = .returned (false, s1) →
      guess_loop solve ii jj c (ll :: rest) b0 s =
        guess_loop solve ii jj c rest false
          ⟨s.sudoku, s1.max_rec_depth, s1.cur_rec_depth, s1.guesses⟩) ∧
    (∀ (fuel : Nat) (s s2 : State),
      attempt_to_solve_fuel fuel s = .returned (false, s2) →
      ∃ nk, propagation_loop 81 s.sudoku 0 = .returned (s2.sudoku, nk)) := by
  constructor
  · intro solve ii jj c ll rest b0 s s1 hc hs
    simp only [guess_loop, hc, if_true, hs]
  · exact attempt_to_solve_fuel_false

theorem failure_restores_witness :
    ∃ s2 nk, attempt_to_solve_fuel 82 ⟨(initialize_sudoku clashFile 0).sudoku, 0, 0, 0⟩ =
        .returned (false, s2) ∧
      propagation_loop 81 (initialize_sudoku clashFile 0).sudoku 0 =
        .returned (s2.sudoku, nk) := by
  obtain ⟨g1, h⟩ := clashFile_fails
  obtain ⟨nk, hnk⟩ := failure_restores.2 82 _ _ h
  exact ⟨_, nk, h, hnk⟩

/-- C14: after a top-level `attempt_to_solve` started with both counters at
0, `max_rec_depth` is at least 2 exactly when at least one recursive call was
made, it is 1 when none was made, and `cur_rec_depth` is 0 again. -/
theorem depth_counters (g : Grid) (b : Bool) (s2 : State)
    (h : attempt_to_solve g = .returned (b, s2)) :
    (2 ≤ s2.max_rec_depth ↔ 1 ≤ s2.guesses) ∧
    (s2.guesses = 0 → s2.max_rec_depth = 1) ∧
    s2.cur_rec_depth = 0 := by
  obtain ⟨d1, d2, d3, d4, d5, d6⟩ := attempt_to_solve_fuel_depth 82 ⟨g, 0, 0, 0⟩ b s2 h
  simp only at d1 d2 d3 d4 d5 d6
  have hzero : s2.guesses = 0 → s2.max_rec_depth = 1 := by
    intro h0
    have := d4 h0 (by omega)
    omega
  refine ⟨⟨fun hmax => ?_, fun hg => ?_⟩, hzero, d1⟩
  · by_contra hno
    have := hzero (by omega)
    omega
  · have := d6 (by omega)
    omega

theorem depth_counters_witness :
    (2 ≤ (⟨(initialize_sudoku sampleFile 0).sudoku, 1, 0, 0⟩ : State).max_rec_depth ↔
      1 ≤ (⟨(initialize_sudoku sampleFile 0).sudoku, 1, 0, 0⟩ : State).guesses) ∧
    ((⟨(initialize_sudoku sampleFile 0).sudoku, 1, 0, 0⟩ : State).guesses = 0 →
      (⟨(initialize_sudoku sampleFile 0).sudoku, 1, 0, 0⟩ : State).max_rec_depth = 1) ∧
    (⟨(initialize_sudoku sampleFile 0).sudoku, 1, 0, 0⟩ : State).cur_rec_depth = 0 :=
  depth_counters _ true _ sample_solved

/-- C17: on an array that satisfies the invariants, each of `proc_row`,
`proc_col` and `proc_block`, for any target, leaves every other entry as it
was and leaves the target no candidate that it did not have before. -/
theorem eliminators_frame (g : Grid) (hg : Inv g) (ii jj : Fin 9) :
    (∃ g2, proc_row g ii jj = some g2 ∧
      (∀ a b, ¬(a = ii ∧ b = jj) → g2 a b = g a b) ∧
      ∀ m, (g2 ii jj).cand m = true → (g ii jj).cand m = true) ∧
    (∃ g2, proc_col g ii jj = some g2 ∧
      (∀ a b, ¬(a = ii ∧ b = jj) → g2 a b = g a b) ∧
      ∀ m, (g2 ii jj).cand m = true → (g ii jj).cand m = true) ∧
    (∃ g2, proc_block g ii jj = some g2 ∧
      (∀ a b, ¬(a = ii ∧ b = jj) → g2 a b = g a b) ∧
      ∀ m, (g2 ii jj).cand m = true → (g ii jj).cand m = true) := by
  have key : ∀ (c : Cell), Elims (PeerVal g ii jj) (g ii jj) c →
      (∀ a b, ¬(a = ii ∧ b = jj) → setCell g ii jj c a b = g a b) ∧
      ∀ m, (setCell g ii jj c ii jj).cand m = true → (g ii jj).cand m = true := by
    intro c he
    refine ⟨fun a b hne => setCell_other g ii jj a b c hne, fun m hm => ?_⟩
    rw [setCell_same] at hm
    exact he.cand_sub m hm
  obtain ⟨c1, h1, e1⟩ := proc_row_elims g hg.2 ii jj
  obtain ⟨c2, h2, e2⟩ := proc_col_elims g hg.2 ii jj
  obtain ⟨c3, h3, e3⟩ := proc_block_elims g hg.2 ii jj
  exact ⟨⟨_, h1, key c1 e1⟩, ⟨_, h2, key c2 e2⟩, ⟨_, h3, key c3 e3⟩⟩

theorem eliminators_frame_witness :
    (∃ g2, proc_row blankGrid 0 0 = some g2 ∧
      (∀ a b, ¬(a = 0 ∧ b = 0) → g2 a b = blankGrid a b) ∧
      ∀ m, (g2 0 0).cand m = true → (blankGrid 0 0).cand m = true) ∧
    (∃ g2, proc_col blankGrid 0 0 = some g2 ∧
      (∀ a b, ¬(a = 0 ∧ b = 0) → g2 a b = blankGrid a b) ∧
      ∀ m, (g2 0 0).cand m = true → (blankGrid 0 0).cand m = true) ∧
    (∃ g2, proc_block blankGrid 0 0 = some g2 ∧
      (∀ a b, ¬(a = 0 ∧ b = 0) → g2 a b = blankGrid a b) ∧
      ∀ m, (g2 0 0).cand m = true → (blankGrid 0 0).cand m = true) :=
  eliminators_frame blankGrid blankGrid_inv 0 0

/-- C19: on an array that satisfies the invariants, one pass of the
propagation loop body leaves every entry that had `CAND_COUNT` 1 exactly as
it was, so `number_known` after the pass is at least what it was before. -/
theorem propagation_pass_monotone (g : Grid) (hg : Inv g) :
    ∃ g2, propagation_pass g = some g2 ∧
      (∀ i j, (g i j).count = 1 → g2 i j = g i j) ∧
      number_known g ≤ number_known g2 := by
  obtain ⟨g2, h, href⟩ := propagation_pass_refines g hg
  have hfix : ∀ i j, (g i j).count = 1 → g2 i j = g i j :=
    fun i j h1 => (href.2.1 i j).1 (by omega)
  refine ⟨g2, h, hfix, ?_⟩
  unfold number_known
  apply List.countP_mono_left
  intro p _ hp
  simp only [decide_eq_true_eq] at hp ⊢
  rw [hfix p.1 p.2 hp]
  exact hp

theorem propagation_pass_monotone_witness :
    ∃ g2, propagation_pass blankGrid = some g2 ∧
      (∀ i j, (blankGrid i j).count = 1 → g2 i j = blankGrid i j) ∧
      number_known blankGrid ≤ number_known g2 :=
  propagation_pass_monotone blankGrid blankGrid_inv

/-! ### Sequences of eliminations on one entry -/

theorem elimCell_of_absent (c : Cell) (k : Fin 9) (h : c.cand k = false) : elimCell c k = c := by
  simp [elimCell, h]

theorem foldl_elimCell_cand (vs : List (Fin 9)) :
    ∀ (c : Cell) (m : Fin 9), (vs.foldl elimCell c).cand m = (c.cand m && decide (m ∉ vs)) := by
  induction vs with
  | nil => intro c m; simp
  | cons k rest ih =>
    intro c m
    rw [List.foldl_cons, ih, elimCell_cand]
    by_cases h1 : m = k <;> by_cases h2 : m ∈ rest <;> simp [h1, h2]

theorem foldl_elimCell_inv (vs : List (Fin 9)) :
    ∀ c : Cell, CountOk c ∧ FixedOk c →
      CountOk (vs.foldl elimCell c) ∧ FixedOk (vs.foldl elimCell c) := by
  induction vs with
  | nil => intro c hc; exact hc
  | cons k rest ih => intro c hc; exact ih _ (elimCell_inv c k hc)

theorem foldl_elimCell_count_le (vs : List (Fin 9)) :
    ∀ c : Cell, (vs.foldl elimCell c).count ≤ c.count := by
  induction vs with
  | nil => intro c; exact le_refl _
  | cons k rest ih => intro c; exact le_trans (ih _) (elimCell_count_le c k)

theorem elimGuarded_count_le (c : Cell) (k : Fin 9) : (elimGuarded c k).count ≤ c.count := by
  unfold elimGuarded
  split_ifs
  · exact elimCell_count_le c k
  · exact le_refl _

theorem foldl_elimGuarded_count_le (vs : List (Fin 9)) :
    ∀ c : Cell, (vs.foldl elimGuarded c).count ≤ c.count := by
  induction vs with
  | nil => intro c; exact le_refl _
  | cons k rest ih => intro c; exact le_trans (ih _) (elimGuarded_count_le c k)

theorem elimGuarded_inv (c : Cell) (k : Fin 9) (hc : CountOk c ∧ FixedOk c) :
    CountOk (elimGuarded c k) ∧ FixedOk (elimGuarded c k) := by
  unfold elimGuarded
  split_ifs
  · exact elimCell_inv c k hc
  · exact hc

theorem foldl_elimGuarded_inv (vs : List (Fin 9)) :
    ∀ c : Cell, CountOk c ∧ FixedOk c →
      CountOk (vs.foldl elimGuarded c) ∧ FixedOk (vs.foldl elimGuarded c) := by
  induction vs with
  | nil => intro c hc; exact hc
  | cons k rest ih => intro c hc; exact ih _ (elimGuarded_inv c k hc)

/-- While the count stays above 1 the guard of `proc_row` and `proc_col`
never stops an elimination. -/
theorem foldl_elimGuarded_of_count (vs : List (Fin 9)) :
    ∀ c : Cell, (vs.foldl elimGuarded c).count > 1 →
      vs.foldl elimGuarded c = vs.foldl elimCell c := by
  induction vs with
  | nil => intro c _; rfl
  | cons k rest ih =>
    intro c h
    rw [List.foldl_cons] at h ⊢
    have h1 : (elimGuarded c k).count > 1 :=
      lt_of_lt_of_le h (foldl_elimGuarded_count_le rest _)
    have h2 : c.count > 1 := lt_of_lt_of_le h1 (elimGuarded_count_le c k)
    have e : elimGuarded c k = elimCell c k := by simp [elimGuarded, h2]
    rw [e] at h ⊢
    rw [List.foldl_cons]
    exact ih _ h

theorem elimGuarded_count_pos (c : Cell) (k : Fin 9) (h : 1 ≤ c.count) :
    1 ≤ (elimGuarded c k).count := by
  unfold elimGuarded
  split_ifs with h1
  · rw [elimCell_count]
    split_ifs <;> omega
  · exact h

theorem foldl_elimGuarded_count_pos (vs : List (Fin 9)) :
    ∀ c : Cell, 1 ≤ c.count → 1 ≤ (vs.foldl elimGuarded c).count := by
  induction vs with
  | nil => intro c h; exact h
  | cons k rest ih => intro c h; exact ih _ (elimGuarded_count_pos c k h)

theorem elimGuarded_cand (c : Cell) (k m : Fin 9) (h : (elimGuarded c k).cand m = true) :
    c.cand m = true := by
  unfold elimGuarded at h
  split_ifs at h
  · rw [elimCell_cand] at h
    simp only [Bool.and_eq_true] at h
    exact h.1
  · exact h

theorem foldl_elimGuarded_cand (vs : List (Fin 9)) :
    ∀ (c : Cell) (m : Fin 9), (vs.foldl elimGuarded c).cand m = true → c.cand m = true := by
  induction vs with
  | nil => intro c m h; exact h
  | cons k rest ih => intro c m h; exact elimGuarded_cand c k m (ih _ m h)

theorem foldl_elimGuarded_removed (vs : List (Fin 9)) :
    ∀ (c : Cell) (m : Fin 9), c.cand m = true → (vs.foldl elimGuarded c).cand m = false →
      m ∈ vs := by
  induction vs with
  | nil => intro c m h1 h2; rw [List.foldl_nil, h1] at h2; exact Bool.noConfusion h2
  | cons k rest ih =>
    intro c m h1 h2
    by_cases hmk : m = k
    · rw [hmk]; exact List.mem_cons_self _ _
    · apply List.mem_cons_of_mem
      apply ih (elimGuarded c k) m _ h2
      unfold elimGuarded
      split_ifs
      · rw [elimCell_cand, h1]; simp [hmk]
      · exact h1

/-- A candidate that no elimination asks for keeps the guard out of play. -/
theorem foldl_elimGuarded_of_kept (vs : List (Fin 9)) (s : Fin 9) (hs : s ∉ vs) :
    ∀ c : Cell, CountOk c ∧ FixedOk c → c.cand s = true →
      vs.foldl elimGuarded c = vs.foldl elimCell c := by
  induction vs with
  | nil => intro c _ _; rfl
  | cons k rest ih =>
    intro c hc hcs
    have hsk : s ≠ k := fun e => hs (by rw [e]; exact List.mem_cons_self _ _)
    have hrest : s ∉ rest := fun h => hs (List.mem_cons_of_mem _ h)
    have e : elimGuarded c k = elimCell c k := by
      unfold elimGuarded
      split_ifs with h1
      · rfl
      · have hpos := numCand_pos c s hcs
        have hcount : c.count = (numCand c : Int) := hc.1
        have h1' : c.count = 1 := by omega
        obtain ⟨k2, _, honly⟩ := hc.2 h1'
        have hs2 : s = k2 := (honly s).mp hcs
        have hk : c.cand k = false := by
          cases hck : c.cand k with
          | false => rfl
          | true => exact absurd ((honly k).mp hck) (fun e => hsk (by rw [hs2, e]))
        rw [elimCell_of_absent c k hk]
    rw [List.foldl_cons, List.foldl_cons, e]
    apply ih hrest _ (elimCell_inv c k hc)
    rw [elimCell_cand, hcs]
    simp [hsk]

theorem numCand_split (c c2 : Cell) (hsub : ∀ m, c2.cand m = true → c.cand m = true) :
    numCand c = numCand c2 + numRemoved c c2 := by
  unfold numCand numRemoved
  have e1 : (Finset.univ.filter fun m => c2.cand m = true) =
      (Finset.univ.filter fun m => c.cand m = true).filter (fun m => c2.cand m = true) := by
    ext m
    simp only [Finset.mem_filter, Finset.mem_univ, true_and]
    exact ⟨fun h => ⟨hsub m h, h⟩, fun h => h.2⟩
  have e2 : (Finset.univ.filter fun m => c.cand m = true ∧ c2.cand m = false) =
      (Finset.univ.filter fun m => c.cand m = true).filter (fun m => ¬c2.cand m = true) := by
    ext m
    simp
  rw [e1, e2]
  exact (Finset.filter_card_add_filter_neg_card_eq_card _).symm

/-! ### The eliminators in closed form -/

theorem foldlM_closed {α : Type} (g : Grid) (ii jj : Fin 9) (f : Grid → α → Option Grid)
    (vals : α → List (Fin 9)) (F : Cell → Fin 9 → Cell) (l : List α)
    (hf : ∀ x ∈ l, ∀ c, f (setCell g ii jj c) x =
      some (setCell g ii jj ((vals x).foldl F c))) :
    ∀ c, l.foldlM f (setCell g ii jj c) =
      some (setCell g ii jj ((l.flatMap vals).foldl F c)) := by
  induction l with
  | nil => intro c; rfl
  | cons x rest ih =>
    intro c
    rw [List.foldlM_cons, hf x (List.mem_cons_self _ _) c]
    simp only [Option.some_bind, List.flatMap_cons, List.foldl_append]
    exact ih (fun y hy => hf y (List.mem_cons_of_mem _ hy)) _

theorem fixed_idxOf (g : Grid) (hg : FixedInv g) (a b : Fin 9) (h : (g a b).count = 1) :
    (g a b).fixed = ((idxOf (g a b).fixed).val : Int) + 1 := by
  obtain ⟨k, hk, _⟩ := hg a b h
  rw [hk, idxOf_succ]

theorem proc_row_closed (g : Grid) (hg : FixedInv g) (ii jj : Fin 9) (c : Cell) :
    proc_row (setCell g ii jj c) ii jj =
      some (setCell g ii jj ((rowVals g ii jj).foldl elimGuarded c)) := by
  unfold proc_row rowVals
  apply foldlM_closed g ii jj _ _ elimGuarded idx9
  intro kk _ c
  dsimp only
  by_cases hk : jj ≠ kk ∧ (g ii kk).count = 1
  · have hne : ¬(ii = ii ∧ kk = jj) := fun e => hk.1 e.2.symm
    rw [setCell_other g ii jj ii kk c hne, setCell_same, if_pos hk]
    by_cases hc : c.count > 1
    · rw [if_pos ⟨hk.1, hk.2, hc⟩, fixed_idxOf g hg ii kk hk.2, eliminate_eq, setCell_same,
        setCell_setCell, idxOf_succ]
      simp [elimGuarded, hc]
    · rw [if_neg (fun h => hc h.2.2)]
      simp [elimGuarded, hc]
  · have hne : ¬(jj ≠ kk ∧ (setCell g ii jj c ii kk).count = 1 ∧
        (setCell g ii jj c ii jj).count > 1) := by
      rintro ⟨h1, h2, _⟩
      have hne : ¬(ii = ii ∧ kk = jj) := fun e => h1 e.2.symm
      rw [setCell_other g ii jj ii kk c hne] at h2
      exact hk ⟨h1, h2⟩
    rw [if_neg hne, if_neg hk]
    rfl

theorem proc_col_closed (g : Grid) (hg : FixedInv g) (ii jj : Fin 9) (c : Cell) :
    proc_col (setCell g ii jj c) ii jj =
      some (setCell g ii jj ((colVals g ii jj).foldl elimGuarded c)) := by
  unfold proc_col colVals
  apply foldlM_closed g ii jj _ _ elimGuarded idx9
  intro kk _ c
  dsimp only
  by_cases hk : ii ≠ kk ∧ (g kk jj).count = 1
  · have hne : ¬(kk = ii ∧ jj = jj) := fun e => hk.1 e.1.symm
    rw [setCell_other g ii jj kk jj c hne, setCell_same, if_pos hk]
    by_cases hc : c.count > 1
    · rw [if_pos ⟨hk.1, hk.2, hc⟩, fixed_idxOf g hg kk jj hk.2, eliminate_eq, setCell_same,
        setCell_setCell, idxOf_succ]
      simp [elimGuarded, hc]
    · rw [if_neg (fun h => hc h.2.2)]
      simp [elimGuarded, hc]
  · have hne : ¬(ii ≠ kk ∧ (setCell g ii jj c kk jj).count = 1 ∧
        (setCell g ii jj c ii jj).count > 1) := by
      rintro ⟨h1, h2, _⟩
      have hne : ¬(kk = ii ∧ jj = jj) := fun e => h1 e.1.symm
      rw [setCell_other g ii jj kk jj c hne] at h2
      exact hk ⟨h1, h2⟩
    rw [if_neg hne, if_neg hk]
    rfl

theorem proc_block_closed (g : Grid) (hg : FixedInv g) (ii jj : Fin 9) (c : Cell) :
    proc_block (setCell g ii jj c) ii jj =
      some (setCell g ii jj ((blockVals g ii jj).foldl elimCell c)) := by
  unfold proc_block blockVals
  apply foldlM_closed g ii jj _ _ elimCell (blockRange ii)
  intro kk _ c
  dsimp only
  apply foldlM_closed g ii jj _ _ elimCell (blockRange jj)
  intro ll _ c
  dsimp only
  by_cases hk : (kk ≠ ii ∨ ll ≠ jj) ∧ (g kk ll).count = 1
  · have hne : ¬(kk = ii ∧ ll = jj) := by
      rintro ⟨h1, h2⟩
      rcases hk.1 with h | h
      · exact h h1
      · exact h h2
    rw [setCell_other g ii jj kk ll c hne, if_pos hk, if_pos hk, fixed_idxOf g hg kk ll hk.2,
      eliminate_eq, setCell_same, setCell_setCell, idxOf_succ]
    rfl
  · have hne : ¬((kk ≠ ii ∨ ll ≠ jj) ∧ (setCell g ii jj c kk ll).count = 1) := by
      rintro ⟨h1, h2⟩
      have hne : ¬(kk = ii ∧ ll = jj) := by
        rintro ⟨e1, e2⟩
        rcases h1 with h | h
        · exact h e1
        · exact h e2
      rw [setCell_other g ii jj kk ll c hne] at h2
      exact hk ⟨h1, h2⟩
    rw [if_neg hne, if_neg hk]
    rfl

theorem mem_rowVals (g : Grid) (ii jj k : Fin 9) :
    k ∈ rowVals g ii jj ↔ ∃ kk, kk ≠ jj ∧ (g ii kk).count = 1 ∧ idxOf (g ii kk).fixed = k := by
  unfold rowVals
  simp only [List.mem_flatMap, mem_idx9, true_and]
  constructor
  · rintro ⟨kk, h⟩
    split_ifs at h with hc
    · simp only [List.mem_singleton] at h
      exact ⟨kk, fun e => hc.1 e.symm, hc.2, h.symm⟩
    · simp at h
  · rintro ⟨kk, h1, h2, h3⟩
    refine ⟨kk, ?_⟩
    rw [if_pos ⟨fun e => h1 e.symm, h2⟩]
    simp [h3]

theorem mem_colVals (g : Grid) (ii jj k : Fin 9) :
    k ∈ colVals g ii jj ↔ ∃ kk, kk ≠ ii ∧ (g kk jj).count = 1 ∧ idxOf (g kk jj).fixed = k := by
  unfold colVals
  simp only [List.mem_flatMap, mem_idx9, true_and]
  constructor
  · rintro ⟨kk, h⟩
    split_ifs at h with hc
    · simp only [List.mem_singleton] at h
      exact ⟨kk, fun e => hc.1 e.symm, hc.2, h.symm⟩
    · simp at h
  · rintro ⟨kk, h1, h2, h3⟩
    refine ⟨kk, ?_⟩
    rw [if_pos ⟨fun e => h1 e.symm, h2⟩]
    simp [h3]

theorem mem_blockVals (g : Grid) (ii jj k : Fin 9) :
    k ∈ blockVals g ii jj ↔ ∃ kk ll, SameBlock kk ll ii jj ∧ (kk ≠ ii ∨ ll ≠ jj) ∧
      (g kk ll).count = 1 ∧ idxOf (g kk ll).fixed = k := by
  unfold blockVals
  simp only [List.mem_flatMap, mem_blockRange]
  constructor
  · rintro ⟨kk, hkk, ll, hll, h⟩
    split_ifs at h with hc
    · simp only [List.mem_singleton] at h
      exact ⟨kk, ll, ⟨hkk, hll⟩, hc.1, hc.2, h.symm⟩
    · simp at h
  · rintro ⟨kk, ll, hb, h1, h2, h3⟩
    refine ⟨kk, hb.1, ll, hb.2, ?_⟩
    rw [if_pos ⟨h1, h2⟩]
    simp [h3]

/-! ### What the eliminators remove -/

theorem cell_ext (c d : Cell) (h1 : c.cand = d.cand) (h2 : c.count = d.count)
    (h3 : c.fixed = d.fixed) : c = d := by
  cases c; cases d
  simp only at h1 h2 h3
  simp [h1, h2, h3]

theorem rowStopGrid_inv : Inv rowStopGrid := by decide

theorem colStopGrid_inv : Inv colStopGrid := by decide

theorem orderGrid_inv : Inv orderGrid := by decide

theorem guarded_spec (g : Grid) (hg : Inv g) (ii jj : Fin 9) (vs : List (Fin 9))
    (P : Fin 9 → Fin 9 → Prop)
    (hin : ∀ a b k, P a b → (g a b).count = 1 → (g a b).fixed = (k.val : Int) + 1 → k ∈ vs)
    (hout : ∀ m, m ∈ vs → ∃ a b, P a b ∧ (g a b).count = 1 ∧
      (g a b).fixed = (m.val : Int) + 1)
    (hcnt : (g ii jj).count > 1) :
    1 ≤ (vs.foldl elimGuarded (g ii jj)).count ∧
    ((vs.foldl elimGuarded (g ii jj)).count > 1 →
      ∀ a b k, P a b → (g a b).count = 1 → (g a b).fixed = (k.val : Int) + 1 →
        (vs.foldl elimGuarded (g ii jj)).cand k = false) ∧
    (∀ m, (g ii jj).cand m = true → (vs.foldl elimGuarded (g ii jj)).cand m = false →
      ∃ a b, P a b ∧ (g a b).count = 1 ∧ (g a b).fixed = (m.val : Int) + 1) ∧
    (vs.foldl elimGuarded (g ii jj)).count =
      (g ii jj).count - numRemoved (g ii jj) (vs.foldl elimGuarded (g ii jj)) := by
  refine ⟨foldl_elimGuarded_count_pos vs _ (by omega), ?_, ?_, ?_⟩
  · intro h a b k hp h1 hf
    rw [foldl_elimGuarded_of_count vs _ h, foldl_elimCell_cand]
    simp [hin a b k hp h1 hf]
  · intro m h1 h2
    exact hout m (foldl_elimGuarded_removed vs _ m h1 h2)
  · have hinv := foldl_elimGuarded_inv vs (g ii jj) ⟨hg.1 ii jj, hg.2 ii jj⟩
    have h1 : (vs.foldl elimGuarded (g ii jj)).count = (numCand _ : Int) := hinv.1
    have h2 : (g ii jj).count = (numCand (g ii jj) : Int) := hg.1 ii jj
    have h3 := numCand_split (g ii jj) (vs.foldl elimGuarded (g ii jj))
      (foldl_elimGuarded_cand vs _)
    omega

/-- C15, as the code has it: on an array that satisfies both invariants and a
target with `CAND_COUNT > 1`, `proc_row` leaves the target with a count of at
least 1; if that count is still above 1, no resolved value of another entry
of the row is a candidate of the target any more; only such values are
removed, and the count has gone down by the number of candidates removed.
The same holds for `proc_col` and the column. -/
theorem proc_row_col_eliminate (g : Grid) (hg : Inv g) (ii jj : Fin 9)
    (hcnt : (g ii jj).count > 1) :
    (∃ g2, proc_row g ii jj = some g2 ∧ 1 ≤ (g2 ii jj).count ∧
      ((g2 ii jj).count > 1 → ∀ kk k, kk ≠ jj → (g ii kk).count = 1 →
        (g ii kk).fixed = (k.val : Int) + 1 → (g2 ii jj).cand k = false) ∧
      (∀ m, (g ii jj).cand m = true → (g2 ii jj).cand m = false →
        ∃ kk, kk ≠ jj ∧ (g ii kk).count = 1 ∧ (g ii kk).fixed = (m.val : Int) + 1) ∧
      (g2 ii jj).count = (g ii jj).count - numRemoved (g ii jj) (g2 ii jj)) ∧
    (∃ g2, proc_col g ii jj = some g2 ∧ 1 ≤ (g2 ii jj).count ∧
      ((g2 ii jj).count > 1 → ∀ kk k, kk ≠ ii → (g kk jj).count = 1 →
        (g kk jj).fixed = (k.val : Int) + 1 → (g2 ii jj).cand k = false) ∧
      (∀ m, (g ii jj).cand m = true → (g2 ii jj).cand m = false →
        ∃ kk, kk ≠ ii ∧ (g kk jj).count = 1 ∧ (g kk jj).fixed = (m.val : Int) + 1) ∧
      (g2 ii jj).count = (g ii jj).count - numRemoved (g ii jj) (g2 ii jj)) := by
  constructor
  · have hclosed := proc_row_closed g hg.2 ii jj (g ii jj)
    rw [setCell_self] at hclosed
    obtain ⟨h1, h2, h3, h4⟩ := guarded_spec g hg ii jj (rowVals g ii jj)
      (fun a b => a = ii ∧ b ≠ jj)
      (fun a b k hp hc hf => (mem_rowVals g ii jj k).mpr
        ⟨b, hp.2, by rw [← hp.1]; exact hc, by rw [← hp.1, hf, idxOf_succ]⟩)
      (fun m hm => by
        obtain ⟨kk, hk1, hk2, hk3⟩ := (mem_rowVals g ii jj m).mp hm
        exact ⟨ii, kk, ⟨rfl, hk1⟩, hk2, by rw [fixed_idxOf g hg.2 ii kk hk2, hk3]⟩) hcnt
    refine ⟨_, hclosed, ?_, ?_, ?_, ?_⟩
    · rw [setCell_same]; exact h1
    · rw [setCell_same]
      intro hc kk k hne hk hf
      exact h2 hc ii kk k ⟨rfl, hne⟩ hk hf
    · rw [setCell_same]
      intro m hm1 hm2
      obtain ⟨a, b, hp, hc, hf⟩ := h3 m hm1 hm2
      exact ⟨b, hp.2, by rw [← hp.1]; exact hc, by rw [← hp.1]; exact hf⟩
    · rw [setCell_same]; exact h4
  · have hclosed := proc_col_closed g hg.2 ii jj (g ii jj)
    rw [setCell_self] at hclosed
    obtain ⟨h1, h2, h3, h4⟩ := guarded_spec g hg ii jj (colVals g ii jj)
      (fun a b => a ≠ ii ∧ b = jj)
      (fun a b k hp hc hf => (mem_colVals g ii jj k).mpr
        ⟨a, hp.1, by rw [← hp.2]; exact hc, by rw [← hp.2, hf, idxOf_succ]⟩)
      (fun m hm => by
        obtain ⟨kk, hk1, hk2, hk3⟩ := (mem_colVals g ii jj m).mp hm
        exact ⟨kk, jj, ⟨hk1, rfl⟩, hk2, by rw [fixed_idxOf g hg.2 kk jj hk2, hk3]⟩) hcnt
    refine ⟨_, hclosed, ?_, ?_, ?_, ?_⟩
    · rw [setCell_same]; exact h1
    · rw [setCell_same]
      intro hc kk k hne hk hf
      exact h2 hc kk jj k ⟨hne, rfl⟩ hk hf
    · rw [setCell_same]
      intro m hm1 hm2
      obtain ⟨a, b, hp, hc, hf⟩ := h3 m hm1 hm2
      exact ⟨a, hp.1, by rw [← hp.2]; exact hc, by rw [← hp.2]; exact hf⟩
    · rw [setCell_same]; exact h4

theorem proc_row_col_eliminate_witness :
    (∃ g2, proc_row rowStopGrid 0 0 = some g2 ∧ 1 ≤ (g2 0 0).count ∧
      ((g2 0 0).count > 1 → ∀ kk k, kk ≠ 0 → (rowStopGrid 0 kk).count = 1 →
        (rowStopGrid 0 kk).fixed = (k.val : Int) + 1 → (g2 0 0).cand k = false) ∧
      (∀ m, (rowStopGrid 0 0).cand m = true → (g2 0 0).cand m = false →
        ∃ kk, kk ≠ 0 ∧ (rowStopGrid 0 kk).count = 1 ∧
          (rowStopGrid 0 kk).fixed = (m.val : Int) + 1) ∧
      (g2 0 0).count = (rowStopGrid 0 0).count - numRemoved (rowStopGrid 0 0) (g2 0 0)) ∧
    (∃ g2, proc_col rowStopGrid 0 0 = some g2 ∧ 1 ≤ (g2 0 0).count ∧
      ((g2 0 0).count > 1 → ∀ kk k, kk ≠ 0 → (rowStopGrid kk 0).count = 1 →
        (rowStopGrid kk 0).fixed = (k.val : Int) + 1 → (g2 0 0).cand k = false) ∧
      (∀ m, (rowStopGrid 0 0).cand m = true → (g2 0 0).cand m = false →
        ∃ kk, kk ≠ 0 ∧ (rowStopGrid kk 0).count = 1 ∧
          (rowStopGrid kk 0).fixed = (m.val : Int) + 1) ∧
      (g2 0 0).count = (rowStopGrid 0 0).count - numRemoved (rowStopGrid 0 0) (g2 0 0)) :=
  proc_row_col_eliminate rowStopGrid rowStopGrid_inv 0 0 (by decide)

/-- C15 fails as stated: `rowStopGrid` satisfies both invariants, its target
`(0,0)` has `CAND_COUNT` 2, the entry `(0,2)` of the same row is resolved to
2, and after `proc_row` the target still has 2 as a candidate (its count is
1); `colStopGrid` shows the same for `proc_col`. -/
theorem proc_row_col_stop_early :
    (Inv rowStopGrid ∧ (rowStopGrid 0 0).count > 1 ∧
      (rowStopGrid 0 2).count = 1 ∧ (rowStopGrid 0 2).fixed = 2 ∧
      (proc_row rowStopGrid 0 0).map (fun g => ((g 0 0).cand 1, (g 0 0).count)) =
        some (true, 1)) ∧
    (Inv colStopGrid ∧ (colStopGrid 0 0).count > 1 ∧
      (colStopGrid 2 0).count = 1 ∧ (colStopGrid 2 0).fixed = 2 ∧
      (proc_col colStopGrid 0 0).map (fun g => ((g 0 0).cand 1, (g 0 0).count)) =
        some (true, 1)) := by
  decide

/-- C16: on an array that satisfies both invariants, for every target (also
one whose `CAND_COUNT` is not above 1), after `proc_block` no resolved value
of another entry of the target's 3x3 block is a candidate of the target, only
such values have been removed, and the count has gone down by the number of
candidates removed. -/
theorem proc_block_eliminate (g : Grid) (hg : Inv g) (ii jj : Fin 9) :
    ∃ g2, proc_block g ii jj = some g2 ∧
      (∀ kk ll k, SameBlock kk ll ii jj → (kk ≠ ii ∨ ll ≠ jj) → (g kk ll).count = 1 →
        (g kk ll).fixed = (k.val : Int) + 1 → (g2 ii jj).cand k = false) ∧
      (∀ m, (g ii jj).cand m = true → (g2 ii jj).cand m = false →
        ∃ kk ll, SameBlock kk ll ii jj ∧ (kk ≠ ii ∨ ll ≠ jj) ∧ (g kk ll).count = 1 ∧
          (g kk ll).fixed = (m.val : Int) + 1) ∧
      (g2 ii jj).count = (g ii jj).count - numRemoved (g ii jj) (g2 ii jj) := by
  have hclosed := proc_block_closed g hg.2 ii jj (g ii jj)
  rw [setCell_self] at hclosed
  refine ⟨_, hclosed, ?_, ?_, ?_⟩
  · rw [setCell_same]
    intro kk ll k hb hne hc hf
    rw [foldl_elimCell_cand]
    have : k ∈ blockVals g ii jj :=
      (mem_blockVals g ii jj k).mpr ⟨kk, ll, hb, hne, hc, by rw [hf, idxOf_succ]⟩
    simp [this]
  · rw [setCell_same]
    intro m h1 h2
    rw [foldl_elimCell_cand, h1] at h2
    have hm : m ∈ blockVals g ii jj := by simpa using h2
    obtain ⟨kk, ll, hb, hne, hc, hf⟩ := (mem_blockVals g ii jj m).mp hm
    exact ⟨kk, ll, hb, hne, hc, by rw [fixed_idxOf g hg.2 kk ll hc, hf]⟩
  · rw [setCell_same]
    have hinv := foldl_elimCell_inv (blockVals g ii jj) (g ii jj) ⟨hg.1 ii jj, hg.2 ii jj⟩
    have h1 : ((blockVals g ii jj).foldl elimCell (g ii jj)).count = (numCand _ : Int) := hinv.1
    have h2 : (g ii jj).count = (numCand (g ii jj) : Int) := hg.1 ii jj
    have h3 := numCand_split (g ii jj) ((blockVals g ii jj).foldl elimCell (g ii jj))
      (fun m hm => by
        rw [foldl_elimCell_cand] at hm
        simp only [Bool.and_eq_true] at hm
        exact hm.1)
    omega

theorem proc_block_eliminate_witness :
    ∃ g2, proc_block orderGrid 0 0 = some g2 ∧
      (∀ kk ll k, SameBlock kk ll 0 0 → (kk ≠ 0 ∨ ll ≠ 0) → (orderGrid kk ll).count = 1 →
        (orderGrid kk ll).fixed = (k.val : Int) + 1 → (g2 0 0).cand k = false) ∧
      (∀ m, (orderGrid 0 0).cand m = true → (g2 0 0).cand m = false →
        ∃ kk ll, SameBlock kk ll 0 0 ∧ (kk ≠ 0 ∨ ll ≠ 0) ∧ (orderGrid kk ll).count = 1 ∧
          (orderGrid kk ll).fixed = (m.val : Int) + 1) ∧
      (g2 0 0).count = (orderGrid 0 0).count - numRemoved (orderGrid 0 0) (g2 0 0) :=
  proc_block_eliminate orderGrid orderGrid_inv 0 0

/-! ### The order of the three eliminators -/

theorem foldl_elimCell_fixed (s : Fin 9) (vs : List (Fin 9)) (hs : s ∉ vs) :
    ∀ c : Cell, CountOk c ∧ FixedOk c → c.cand s = true →
      (vs.foldl elimCell c).fixed =
        if c.count > 1 ∧ (vs.foldl elimCell c).count = 1 then (s.val : Int) + 1
        else c.fixed := by
  induction vs with
  | nil =>
    intro c _ _
    have : ¬(c.count > 1 ∧ c.count = 1) := by omega
    simp only [List.foldl_nil, this, if_false]
  | cons k rest ih =>
    intro c hc hcs
    have hsk : s ≠ k := fun e => hs (by rw [e]; exact List.mem_cons_self _ _)
    have hrest : s ∉ rest := fun h => hs (List.mem_cons_of_mem _ h)
    have hc1 := elimCell_inv c k hc
    have hcs1 : (elimCell c k).cand s = true := by
      rw [elimCell_cand, hcs]; simp [hsk]
    have hIH := ih hrest (elimCell c k) hc1 hcs1
    rw [List.foldl_cons, hIH]
    have hle := elimCell_count_le c k
    have hrs : (rest.foldl elimCell (elimCell c k)).cand s = true := by
      rw [foldl_elimCell_cand, hcs1]; simp [hrest]
    have hrinv := foldl_elimCell_inv rest (elimCell c k) hc1
    have hrcount : (rest.foldl elimCell (elimCell c k)).count = (numCand _ : Int) := hrinv.1
    have hrpos := numCand_pos _ s hrs
    have hrle := foldl_elimCell_count_le rest (elimCell c k)
    by_cases hA : (elimCell c k).count > 1
    · have hcc : c.count > 1 := by omega
      have hfix : (elimCell c k).fixed = c.fixed := by
        unfold elimCell at hA ⊢
        split_ifs at hA ⊢ with h1 h2
        · simp only at hA; omega
        · rfl
        · rfl
      simp only [hA, hcc, true_and, hfix]
    · have h1 : (elimCell c k).count = 1 := by
        have := numCand_pos _ s hcs1
        have hcount : (elimCell c k).count = (numCand (elimCell c k) : Int) := hc1.1
        omega
      have hr1 : (rest.foldl elimCell (elimCell c k)).count = 1 := by omega
      have hnot : ¬((elimCell c k).count > 1 ∧
          (rest.foldl elimCell (elimCell c k)).count = 1) := fun h => hA h.1
      rw [if_neg hnot]
      by_cases hcc : c.count > 1
      · rw [if_pos ⟨hcc, hr1⟩]
        obtain ⟨k2, hk2, honly⟩ := hc1.2 h1
        rw [hk2, ← (honly s).mp hcs1]
      · have hnot2 : ¬(c.count > 1 ∧ (rest.foldl elimCell (elimCell c k)).count = 1) :=
          fun h => hcc h.1
        rw [if_neg hnot2]
        have hcount : c.count = (numCand c : Int) := hc.1
        have hpos := numCand_pos c s hcs
        have hc1' : c.count = 1 := by omega
        obtain ⟨k2, _, honly⟩ := hc.2 hc1'
        have hs2 : s = k2 := (honly s).mp hcs
        have hk : c.cand k = false := by
          cases hck : c.cand k with
          | false => rfl
          | true => exact absurd ((honly k).mp hck) (fun e => hsk (by rw [hs2, e]))
        rw [elimCell_of_absent c k hk]

/-- With a candidate that stays, a sequence of eliminations depends only on
which values it eliminates, not on their order or number of occurrences. -/
theorem foldl_elimCell_members (s : Fin 9) (vs1 vs2 : List (Fin 9))
    (hmem : ∀ m, m ∈ vs1 ↔ m ∈ vs2) (hs : s ∉ vs1) (c : Cell)
    (hc : CountOk c ∧ FixedOk c) (hcs : c.cand s = true) :
    vs1.foldl elimCell c = vs2.foldl elimCell c := by
  have hs2 : s ∉ vs2 := fun h => hs ((hmem s).mpr h)
  have hcand : (vs1.foldl elimCell c).cand = (vs2.foldl elimCell c).cand := by
    funext m
    rw [foldl_elimCell_cand, foldl_elimCell_cand]
    by_cases h : m ∈ vs1
    · simp [h, (hmem m).mp h]
    · have h2 : m ∉ vs2 := fun h2 => h ((hmem m).mpr h2)
      simp [h, h2]
  have hcount : (vs1.foldl elimCell c).count = (vs2.foldl elimCell c).count := by
    have h1 : (vs1.foldl elimCell c).count = (numCand _ : Int) :=
      (foldl_elimCell_inv vs1 c hc).1
    have h2 : (vs2.foldl elimCell c).count = (numCand _ : Int) :=
      (foldl_elimCell_inv vs2 c hc).1
    rw [h1, h2, numCand_congr _ _ hcand]
  apply cell_ext _ _ hcand hcount
  rw [foldl_elimCell_fixed s vs1 hs c hc hcs, foldl_elimCell_fixed s vs2 hs2 c hc hcs, hcount]

theorem seq3_closed (g : Grid) (ii jj s : Fin 9)
    (p1 p2 p3 : Grid → Fin 9 → Fin 9 → Option Grid) (v1 v2 v3 : List (Fin 9))
    (h1 : ∀ c, CountOk c ∧ FixedOk c → c.cand s = true →
      p1 (setCell g ii jj c) ii jj = some (setCell g ii jj (v1.foldl elimCell c)))
    (h2 : ∀ c, CountOk c ∧ FixedOk c → c.cand s = true →
      p2 (setCell g ii jj c) ii jj = some (setCell g ii jj (v2.foldl elimCell c)))
    (h3 : ∀ c, CountOk c ∧ FixedOk c → c.cand s = true →
      p3 (setCell g ii jj c) ii jj = some (setCell g ii jj (v3.foldl elimCell c)))
    (hs1 : s ∉ v1) (hs2 : s ∉ v2)
    (hc : CountOk (g ii jj) ∧ FixedOk (g ii jj)) (hcs : (g ii jj).cand s = true) :
    seq3 p1 p2 p3 g ii jj = some (setCell g ii jj ((v1 ++ v2 ++ v3).foldl elimCell (g ii jj))) := by
  have e1 := h1 (g ii jj) hc hcs
  rw [setCell_self] at e1
  have hc1 := foldl_elimCell_inv v1 _ hc
  have hcs1 : (v1.foldl elimCell (g ii jj)).cand s = true := by
    rw [foldl_elimCell_cand, hcs]; simp [hs1]
  have e2 := h2 _ hc1 hcs1
  have hc2 := foldl_elimCell_inv v2 _ hc1
  have hcs2 : (v2.foldl elimCell (v1.foldl elimCell (g ii jj))).cand s = true := by
    rw [foldl_elimCell_cand, hcs1]; simp [hs2]
  have e3 := h3 _ hc2 hcs2
  unfold seq3
  simp only [e1, e2, e3, Option.some_bind, List.foldl_append]

/-- C18, as the code has it: on an array that satisfies both invariants, for
a target with `CAND_COUNT > 1` that has a candidate which is not the resolved
value of any resolved peer (row, column or block), the six orders of
`proc_row`, `proc_col` and `proc_block` leave the same array. -/
theorem eliminators_commute (g : Grid) (hg : Inv g) (ii jj : Fin 9)
    (_hcnt : (g ii jj).count > 1) (s : Fin 9) (hs : (g ii jj).cand s = true)
    (hfree : ∀ a b, (a ≠ ii ∨ b ≠ jj) → (a = ii ∨ b = jj ∨ SameBlock a b ii jj) →
      (g a b).count = 1 → (g a b).fixed ≠ (s.val : Int) + 1) :
    ∃ g2, seq3 proc_row proc_col proc_block g ii jj = some g2 ∧
      seq3 proc_row proc_block proc_col g ii jj = some g2 ∧
      seq3 proc_col proc_row proc_block g ii jj = some g2 ∧
      seq3 proc_col proc_block proc_row g ii jj = some g2 ∧
      seq3 proc_block proc_row proc_col g ii jj = some g2 ∧
      seq3 proc_block proc_col proc_row g ii jj = some g2 := by
  have hc : CountOk (g ii jj) ∧ FixedOk (g ii jj) := ⟨hg.1 ii jj, hg.2 ii jj⟩
  have hsr : s ∉ rowVals g ii jj := by
    intro h
    obtain ⟨kk, h1, h2, h3⟩ := (mem_rowVals g ii jj s).mp h
    exact hfree ii kk (Or.inr h1) (Or.inl rfl) h2 (by rw [fixed_idxOf g hg.2 ii kk h2, h3])
  have hsc : s ∉ colVals g ii jj := by
    intro h
    obtain ⟨kk, h1, h2, h3⟩ := (mem_colVals g ii jj s).mp h
    exact hfree kk jj (Or.inl h1) (Or.inr (Or.inl rfl)) h2
      (by rw [fixed_idxOf g hg.2 kk jj h2, h3])
  have hsb : s ∉ blockVals g ii jj := by
    intro h
    obtain ⟨kk, ll, hb, h1, h2, h3⟩ := (mem_blockVals g ii jj s).mp h
    exact hfree kk ll h1 (Or.inr (Or.inr hb)) h2 (by rw [fixed_idxOf g hg.2 kk ll h2, h3])
  have hr : ∀ c, CountOk c ∧ FixedOk c → c.cand s = true →
      proc_row (setCell g ii jj c) ii jj =
        some (setCell g ii jj ((rowVals g ii jj).foldl elimCell c)) := by
    intro c hcc hcs
    rw [proc_row_closed g hg.2 ii jj c, foldl_elimGuarded_of_kept _ s hsr c hcc hcs]
  have hcl : ∀ c, CountOk c ∧ FixedOk c → c.cand s = true →
      proc_col (setCell g ii jj c) ii jj =
        some (setCell g ii jj ((colVals g ii jj).foldl elimCell c)) := by
    intro c hcc hcs
    rw [proc_col_closed g hg.2 ii jj c, foldl_elimGuarded_of_kept _ s hsc c hcc hcs]
  have hb : ∀ c, CountOk c ∧ FixedOk c → c.cand s = true →
      proc_block (setCell g ii jj c) ii jj =
        some (setCell g ii jj ((blockVals g ii jj).foldl elimCell c)) :=
    fun c _ _ => proc_block_closed g hg.2 ii jj c
  have same : ∀ vs : List (Fin 9),
      (∀ m, m ∈ rowVals g ii jj ++ colVals g ii jj ++ blockVals g ii jj ↔ m ∈ vs) →
      some (setCell g ii jj (vs.foldl elimCell (g ii jj))) =
        some (setCell g ii jj
          ((rowVals g ii jj ++ colVals g ii jj ++ blockVals g ii jj).foldl elimCell (g ii jj))) := by
    intro vs hvs
    rw [foldl_elimCell_members s _ vs hvs (by simp [hsr, hsc, hsb]) (g ii jj) hc hs]
  refine ⟨_, seq3_closed g ii jj s _ _ _ _ _ _ hr hcl hb hsr hsc hc hs, ?_, ?_, ?_, ?_, ?_⟩
  · rw [seq3_closed g ii jj s _ _ _ _ _ _ hr hb hcl hsr hsb hc hs]
    exact same _ (fun m => by simp only [List.mem_append]; tauto)
  · rw [seq3_closed g ii jj s _ _ _ _ _ _ hcl hr hb hsc hsr hc hs]
    exact same _ (fun m => by simp only [List.mem_append]; tauto)
  · rw [seq3_closed g ii jj s _ _ _ _ _ _ hcl hb hr hsc hsb hc hs]
    exact same _ (fun m => by simp only [List.mem_append]; tauto)
  · rw [seq3_closed g ii jj s _ _ _ _ _ _ hb hr hcl hsb hsr hc hs]
    exact same _ (fun m => by simp only [List.mem_append]; tauto)
  · rw [seq3_closed g ii jj s _ _ _ _ _ _ hb hcl hr hsb hsc hc hs]
    exact same _ (fun m => by simp only [List.mem_append]; tauto)

/-- C18 fails as stated: `orderGrid` satisfies both invariants and its target
`(0,0)` has `CAND_COUNT` 2; `proc_row`, `proc_col`, `proc_block` in this order
leave the target with no candidate and count 0, while `proc_block`,
`proc_row`, `proc_col` leave it with the candidate 1 and count 1. -/
theorem eliminators_order_matters :
    Inv orderGrid ∧ (orderGrid 0 0).count > 1 ∧
    (seq3 proc_row proc_col proc_block orderGrid 0 0).map
      (fun g => ((g 0 0).cand 0, (g 0 0).count, (g 0 0).fixed)) = some (false, 0, 2) ∧
    (seq3 proc_block proc_row proc_col orderGrid 0 0).map
      (fun g => ((g 0 0).cand 0, (g 0 0).count, (g 0 0).fixed)) = some (true, 1, 1) := by
  decide

theorem eliminators_commute_witness :
    ∃ g2, seq3 proc_row proc_col proc_block rowStopGrid 0 3 = some g2 ∧
      seq3 proc_row proc_block proc_col rowStopGrid 0 3 = some g2 ∧
      seq3 proc_col proc_row proc_block rowStopGrid 0 3 = some g2 ∧
      seq3 proc_col proc_block proc_row rowStopGrid 0 3 = some g2 ∧
      seq3 proc_block proc_row proc_col rowStopGrid 0 3 = some g2 ∧
      seq3 proc_block proc_col proc_row rowStopGrid 0 3 = some g2 :=
  eliminators_commute rowStopGrid rowStopGrid_inv 0 3 (by decide) 8 (by decide) (by decide)

/-! ### The propagation loop stops at a fixed point -/

theorem visit_closed (g : Grid) (hg : Inv g) (ii jj : Fin 9) (hcnt : (g ii jj).count > 1) :
    visit g ii jj = some (setCell g ii jj
      ((blockVals g ii jj).foldl elimCell
        ((colVals g ii jj).foldl elimGuarded
          ((rowVals g ii jj).foldl elimGuarded (g ii jj))))) := by
  have e1 := proc_row_closed g hg.2 ii jj (g ii jj)
  rw [setCell_self] at e1
  unfold visit
  rw [if_pos hcnt, e1]
  simp only [Option.some_bind, proc_col_closed g hg.2 ii jj, proc_block_closed g hg.2 ii jj]

theorem peer_val_mem (g : Grid) (ii jj a b k : Fin 9) (hp : Peer a b ii jj)
    (hc : (g a b).count = 1) (hf : (g a b).fixed = (k.val : Int) + 1) :
    k ∈ rowVals g ii jj ++ colVals g ii jj ++ blockVals g ii jj := by
  have hidx : idxOf (g a b).fixed = k := by rw [hf, idxOf_succ]
  simp only [List.mem_append]
  obtain ⟨hne, hpeer⟩ := hp
  rcases hpeer with rfl | rfl | hb
  · have hb : b ≠ jj := by
      rcases hne with h | h
      · exact absurd rfl h
      · exact h
    exact Or.inl (Or.inl ((mem_rowVals g a jj k).mpr ⟨b, hb, hc, hidx⟩))
  · have ha : a ≠ ii := by
      rcases hne with h | h
      · exact h
      · exact absurd rfl h
    exact Or.inl (Or.inr ((mem_colVals g ii b k).mpr ⟨a, ha, hc, hidx⟩))
  · exact Or.inr ((mem_blockVals g ii jj k).mpr ⟨a, b, hb, hne, hc, hidx⟩)

theorem visit_fixed (g : Grid) (hg : Inv g) (ii jj : Fin 9) (g2 : Grid)
    (hv : visit g ii jj = some g2) (hcnt : (g2 ii jj).count > 1) (a b k : Fin 9)
    (hp : Peer a b ii jj) (hc : (g a b).count = 1) (hf : (g a b).fixed = (k.val : Int) + 1) :
    (g2 ii jj).cand k = false := by
  by_cases h0 : (g ii jj).count > 1
  · rw [visit_closed g hg ii jj h0] at hv
    simp only [Option.some.injEq] at hv
    rw [← hv, setCell_same] at hcnt ⊢
    have h2 : ((colVals g ii jj).foldl elimGuarded
        ((rowVals g ii jj).foldl elimGuarded (g ii jj))).count > 1 :=
      lt_of_lt_of_le hcnt (foldl_elimCell_count_le _ _)
    have h1 : ((rowVals g ii jj).foldl elimGuarded (g ii jj)).count > 1 :=
      lt_of_lt_of_le h2 (foldl_elimGuarded_count_le _ _)
    rw [foldl_elimGuarded_of_count _ _ h2, foldl_elimGuarded_of_count _ _ h1,
      ← List.foldl_append, ← List.foldl_append, foldl_elimCell_cand]
    have := peer_val_mem g ii jj a b k hp hc hf
    simp only [List.append_assoc] at this
    simp [this]
  · unfold visit at hv
    rw [if_neg h0] at hv
    simp only [Option.some.injEq] at hv
    rw [← hv] at hcnt
    exact absurd hcnt h0

theorem visit_other (g : Grid) (hg : Inv g) (ii jj : Fin 9) (g2 : Grid)
    (hv : visit g ii jj = some g2) (a b : Fin 9) (hne : ¬(a = ii ∧ b = jj)) :
    g2 a b = g a b := by
  obtain ⟨c2, h, _, _⟩ := visit_elims g hg ii jj
  rw [h] at hv
  simp only [Option.some.injEq] at hv
  rw [← hv, setCell_other g ii jj a b c2 hne]

theorem pass_frame (l : List (Fin 9 × Fin 9)) :
    ∀ (g : Grid), Inv g → ∀ g2, l.foldlM (fun g p => visit g p.1 p.2) g = some g2 →
      ∀ a b, (a, b) ∉ l → g2 a b = g a b := by
  induction l with
  | nil =>
    intro g _ g2 h a b _
    simp only [List.foldlM_nil] at h
    have : g = g2 := Option.some.inj h
    rw [this]
  | cons q rest ih =>
    intro g hg g2 h a b hab
    obtain ⟨g1, h1, r1⟩ := visit_refines g hg q.1 q.2
    simp only [List.foldlM_cons, h1, Option.some_bind] at h
    have hne : ¬(a = q.1 ∧ b = q.2) := by
      rintro ⟨e1, e2⟩
      exact hab (by rw [e1, e2]; exact List.mem_cons_self _ _)
    rw [ih g1 r1.1 g2 h a b (fun hm => hab (List.mem_cons_of_mem _ hm)),
      visit_other g hg q.1 q.2 g1 h1 a b hne]

theorem pass_local (l : List (Fin 9 × Fin 9)) (hnd : l.Nodup) :
    ∀ (g : Grid), Inv g → ∀ g2, l.foldlM (fun g p => visit g p.1 p.2) g = some g2 →
      ∀ p ∈ l, ∃ gt gv, Inv gt ∧ Shrinks g gt ∧ visit gt p.1 p.2 = some gv ∧
        g2 p.1 p.2 = gv p.1 p.2 := by
  induction l with
  | nil => intro g _ g2 _ p hp; simp at hp
  | cons q rest ih =>
    intro g hg g2 h p hp
    obtain ⟨g1, h1, r1⟩ := visit_refines g hg q.1 q.2
    simp only [List.foldlM_cons, h1, Option.some_bind] at h
    have hnd2 := List.nodup_cons.mp hnd
    rcases List.mem_cons.mp hp with rfl | hrest
    · exact ⟨g, g1, hg, Shrinks.shrinks_refl g, h1, pass_frame rest g1 r1.1 g2 h p.1 p.2 hnd2.1⟩
    · obtain ⟨gt, gv, hi, hs, hv, he⟩ := ih hnd2.2 g1 r1.1 g2 h p hrest
      exact ⟨gt, gv, hi, r1.2.1.shrinks_trans hs, hv, he⟩

theorem resolved_same (g g2 : Grid) (hs : Shrinks g g2)
    (hnk : number_known g2 ≤ number_known g) (a b : Fin 9) (h : (g2 a b).count = 1) :
    (g a b).count = 1 := by
  by_contra hne
  have hlt : number_known g < number_known g2 := by
    unfold number_known
    apply countP_lt_of_imp
    · intro p _ hp
      simp only [decide_eq_true_eq] at hp ⊢
      rw [(hs p.1 p.2).1 (by omega)]
      exact hp
    · exact ⟨(a, b), mem_allCells _, by simpa using h, by simpa using hne⟩
  omega

theorem pass_fixed (g : Grid) (hg : Inv g) (g2 : Grid) (hp : propagation_pass g = some g2)
    (hnk : number_known g2 ≤ number_known g) : FixedPoint g2 := by
  obtain ⟨g3, h3, href⟩ := propagation_pass_refines g hg
  rw [hp] at h3
  have e : g2 = g3 := Option.some.inj h3
  subst e
  intro i j hcnt a b k hpeer hc hf
  obtain ⟨gt, gv, hgt, hst, hv, he⟩ :=
    pass_local allCells allCells_nodup g hg g2 hp (i, j) (mem_allCells _)
  simp only at hv he
  have hres := resolved_same g g2 href.2.1 hnk a b hc
  have e1 : gt a b = g a b := (hst a b).1 (by omega)
  have e2 : g2 a b = g a b := (href.2.1 a b).1 (by omega)
  rw [he] at hcnt ⊢
  exact visit_fixed gt hgt i j gv hv hcnt a b k hpeer (by rw [e1]; exact hres)
    (by rw [e1, ← e2]; exact hf)

theorem fixedPoint_of_none_resolved (g : Grid) (h : number_known g ≤ 0) : FixedPoint g := by
  intro i j _ a b k _ hc _
  have h0 : number_known g = 0 := by omega
  unfold number_known at h0
  have := List.countP_eq_zero.mp h0 (a, b) (mem_allCells _)
  simp only [decide_eq_true_eq] at this
  exact absurd hc this

theorem fixedPoint_of_all_resolved (g : Grid) (h : number_known g = 81) : FixedPoint g := by
  intro i j hcnt
  have := all_resolved_of_number_known g h i j
  omega

theorem propagation_loop_fixed (fuel : Nat) :
    ∀ (g : Grid) (last : Nat), Inv g → (number_known g ≤ last → FixedPoint g) →
      ∀ g2 nk, propagation_loop fuel g last = .returned (g2, nk) → FixedPoint g2 := by
  induction fuel with
  | zero => intro g last _ _ g2 nk h; exact Outcome.noConfusion h
  | succ n ih =>
    intro g last hg hfix g2 nk h
    unfold propagation_loop at h
    by_cases hcond : number_known g > last ∧ number_known g < 81
    · simp only [hcond, and_self, if_true] at h
      obtain ⟨g1, h1, r1⟩ := propagation_pass_refines g hg
      rw [h1] at h
      exact ih g1 (number_known g) r1.1 (pass_fixed g hg g1 h1) g2 nk h
    · simp only [hcond, if_false, Outcome.returned.injEq, Prod.mk.injEq] at h
      rw [← h.1]
      by_cases hle : number_known g ≤ last
      · exact hfix hle
      · have := number_known_le g
        exact fixedPoint_of_all_resolved g (by omega)

theorem foldl_elimCell_absent (vs : List (Fin 9)) :
    ∀ c : Cell, (∀ k ∈ vs, c.cand k = false) → vs.foldl elimCell c = c := by
  induction vs with
  | nil => intro c _; rfl
  | cons k rest ih =>
    intro c h
    rw [List.foldl_cons, elimCell_of_absent c k (h k (List.mem_cons_self _ _))]
    exact ih c (fun m hm => h m (List.mem_cons_of_mem _ hm))

theorem foldl_elimGuarded_absent (vs : List (Fin 9)) :
    ∀ c : Cell, (∀ k ∈ vs, c.cand k = false) → vs.foldl elimGuarded c = c := by
  induction vs with
  | nil => intro c _; rfl
  | cons k rest ih =>
    intro c h
    have e : elimGuarded c k = c := by
      unfold elimGuarded
      split_ifs
      · exact elimCell_of_absent c k (h k (List.mem_cons_self _ _))
      · rfl
    rw [List.foldl_cons, e]
    exact ih c (fun m hm => h m (List.mem_cons_of_mem _ hm))

theorem visit_of_fixedPoint (g : Grid) (hg : Inv g) (hfp : FixedPoint g) (ii jj : Fin 9) :
    visit g ii jj = some g := by
  by_cases hcnt : (g ii jj).count > 1
  · rw [visit_closed g hg ii jj hcnt]
    have hr : ∀ k ∈ rowVals g ii jj, (g ii jj).cand k = false := by
      intro k hk
      obtain ⟨kk, h1, h2, h3⟩ := (mem_rowVals g ii jj k).mp hk
      exact hfp ii jj hcnt ii kk k ⟨Or.inr h1, Or.inl rfl⟩ h2
        (by rw [fixed_idxOf g hg.2 ii kk h2, h3])
    have hc : ∀ k ∈ colVals g ii jj, (g ii jj).cand k = false := by
      intro k hk
      obtain ⟨kk, h1, h2, h3⟩ := (mem_colVals g ii jj k).mp hk
      exact hfp ii jj hcnt kk jj k ⟨Or.inl h1, Or.inr (Or.inl rfl)⟩ h2
        (by rw [fixed_idxOf g hg.2 kk jj h2, h3])
    have hb : ∀ k ∈ blockVals g ii jj, (g ii jj).cand k = false := by
      intro k hk
      obtain ⟨kk, ll, hbl, h1, h2, h3⟩ := (mem_blockVals g ii jj k).mp hk
      exact hfp ii jj hcnt kk ll k ⟨h1, Or.inr (Or.inr hbl)⟩ h2
        (by rw [fixed_idxOf g hg.2 kk ll h2, h3])
    rw [foldl_elimGuarded_absent _ _ hr, foldl_elimGuarded_absent _ _ hc,
      foldl_elimCell_absent _ _ hb, setCell_self]
  · unfold visit
    rw [if_neg hcnt]

theorem pass_of_fixedPoint (g : Grid) (hg : Inv g) (hfp : FixedPoint g) :
    propagation_pass g = some g := by
  unfold propagation_pass
  have key : ∀ l : List (Fin 9 × Fin 9),
      l.foldlM (fun g p => visit g p.1 p.2) g = some g := by
    intro l
    induction l with
    | nil => rfl
    | cons q rest ih =>
      rw [List.foldlM_cons, visit_of_fixedPoint g hg hfp q.1 q.2]
      exact ih
  exact key allCells

/-- C20: on an entry array that satisfies both invariants the propagation
loop of `attempt_to_solve` returns, and in the array it leaves no entry with
`CAND_COUNT > 1` has among its candidates the resolved value of a resolved
entry of its row, column or block; one more pass leaves that array as it is. -/
theorem propagation_fixed_point (g : Grid) (hg : Inv g) :
    ∃ g2 nk, propagation_loop 81 g 0 = .returned (g2, nk) ∧
      (∀ i j, (g2 i j).count > 1 → ∀ a b (k : Fin 9),
        (a ≠ i ∨ b ≠ j) → (a = i ∨ b = j ∨ SameBlock a b i j) →
        (g2 a b).count = 1 → (g2 a b).fixed = (k.val : Int) + 1 → (g2 i j).cand k = false) ∧
      propagation_pass g2 = some g2 := by
  obtain ⟨g2, hloop, href⟩ := propagation_loop_refines 81 g 0 hg (by omega) (by omega)
  have hfp : FixedPoint g2 :=
    propagation_loop_fixed 81 g 0 hg (fixedPoint_of_none_resolved g) g2 _ hloop
  exact ⟨g2, _, hloop, fun i j hc a b k h1 h2 => hfp i j hc a b k ⟨h1, h2⟩,
    pass_of_fixedPoint g2 href.1 hfp⟩

theorem propagation_fixed_point_witness :
    ∃ g2 nk, propagation_loop 81 rowStopGrid 0 = .returned (g2, nk) ∧
      (∀ i j, (g2 i j).count > 1 → ∀ a b (k : Fin 9),
        (a ≠ i ∨ b ≠ j) → (a = i ∨ b = j ∨ SameBlock a b i j) →
        (g2 a b).count = 1 → (g2 a b).fixed = (k.val : Int) + 1 → (g2 i j).cand k = false) ∧
      propagation_pass g2 = some g2 :=
  propagation_fixed_point rowStopGrid rowStopGrid_inv

/-! ### Single eliminators keep a solution among the candidates -/

theorem elims_keep_solution (g : Grid) (hg : Inv g) (S : Fin 9 → Fin 9 → Fin 9)
    (hS : ValidIdx S) (hc : Cons S g) (ii jj : Fin 9) (c : Cell)
    (he : Elims (PeerVal g ii jj) (g ii jj) c) :
    Inv (setCell g ii jj c) ∧ Cons S (setCell g ii jj c) := by
  refine ⟨Inv_setCell g hg ii jj c (he.inv ⟨hg.1 _ _, hg.2 _ _⟩), fun a b => ?_⟩
  by_cases h : a = ii ∧ b = jj
  · obtain ⟨rfl, rfl⟩ := h
    rw [setCell_same]
    exact he.keeps (S a b) (fun k hk => peerVal_ne_solution g hg S hS hc a b k hk) (hc a b)
  · rw [setCell_other g ii jj a b c h]
    exact hc a b

theorem accepted_of_cons (g : Grid) (hg : Inv g) (S : Fin 9 → Fin 9 → Fin 9)
    (hS : ValidIdx S) (hc : Cons S g) :
    (∀ i j, (g i j).count ≠ 0) ∧ do_check g = true := by
  have hdc := do_check_of_cons g hg S hS hc
  exact ⟨fun i j h0 => ((do_check_true_iff g).mp hdc).1 ⟨i, j, h0⟩, hdc⟩

/-- C23: on an array that satisfies both invariants, if the value of a
complete valid Sudoku grid `S` is among the candidates of every entry, then
after `proc_row`, `proc_col` or `proc_block` on any target, and after a whole
propagation pass, it still is; no entry has `CAND_COUNT` 0 and `do_check`
accepts the array. -/
theorem elimination_preserves_solutions (g : Grid) (hg : Inv g) (S : Fin 9 → Fin 9 → Int)
    (hS : IsSudoku S) (hc : ∀ i j, (g i j).cand (idxOf (S i j)) = true) :
    (∀ ii jj,
      (∃ g2, proc_row g ii jj = some g2 ∧
        (∀ i j, (g2 i j).cand (idxOf (S i j)) = true) ∧
        (∀ i j, (g2 i j).count ≠ 0) ∧ do_check g2 = true) ∧
      (∃ g2, proc_col g ii jj = some g2 ∧
        (∀ i j, (g2 i j).cand (idxOf (S i j)) = true) ∧
        (∀ i j, (g2 i j).count ≠ 0) ∧ do_check g2 = true) ∧
      (∃ g2, proc_block g ii jj = some g2 ∧
        (∀ i j, (g2 i j).cand (idxOf (S i j)) = true) ∧
        (∀ i j, (g2 i j).count ≠ 0) ∧ do_check g2 = true)) ∧
    (∃ g2, propagation_pass g = some g2 ∧
      (∀ i j, (g2 i j).cand (idxOf (S i j)) = true) ∧
      (∀ i j, (g2 i j).count ≠ 0) ∧ do_check g2 = true) := by
  have hV := validIdx_of_isSudoku S hS
  have hcons : Cons (fun i j => idxOf (S i j)) g := hc
  constructor
  · intro ii jj
    have key : ∀ c, Elims (PeerVal g ii jj) (g ii jj) c →
        (∀ i j, (setCell g ii jj c i j).cand (idxOf (S i j)) = true) ∧
        (∀ i j, (setCell g ii jj c i j).count ≠ 0) ∧ do_check (setCell g ii jj c) = true := by
      intro c he
      obtain ⟨hi, hk⟩ := elims_keep_solution g hg _ hV hcons ii jj c he
      exact ⟨hk, accepted_of_cons _ hi _ hV hk⟩
    obtain ⟨c1, h1, e1⟩ := proc_row_elims g hg.2 ii jj
    obtain ⟨c2, h2, e2⟩ := proc_col_elims g hg.2 ii jj
    obtain ⟨c3, h3, e3⟩ := proc_block_elims g hg.2 ii jj
    exact ⟨⟨_, h1, key c1 e1⟩, ⟨_, h2, key c2 e2⟩, ⟨_, h3, key c3 e3⟩⟩
  · obtain ⟨g2, h, href⟩ := propagation_pass_refines g hg
    have hk := href.2.2 _ hV hcons
    exact ⟨g2, h, hk, accepted_of_cons g2 href.1 _ hV hk⟩

theorem sample_cons (i j : Fin 9) :
    ((initialize_sudoku sampleFile 0).sudoku i j).cand (idxOf (sampleVal i j)) = true := by
  rw [sample_cell]
  have hr := sampleVal_range i j
  have := idxOf_val (sampleVal i j) hr.1 hr.2
  simp only [decide_eq_true_eq]
  omega

theorem sample_inv : Inv (initialize_sudoku sampleFile 0).sudoku :=
  initialize_sudoku_inv sampleFile 0 sampleFile_length (good_iff sampleFile sampleFile_good)

theorem elimination_preserves_solutions_witness :
    ∃ g2, propagation_pass (initialize_sudoku sampleFile 0).sudoku = some g2 ∧
      (∀ i j, (g2 i j).cand (idxOf (sampleVal i j)) = true) ∧
      (∀ i j, (g2 i j).count ≠ 0) ∧ do_check g2 = true :=
  (elimination_preserves_solutions _ sample_inv sampleVal sampleVal_isSudoku sample_cons).2

/-! ### The guess cell -/

theorem allCells_sorted :
    allCells.Pairwise (fun p q => 9 * p.1.val + p.2.val < 9 * q.1.val + q.2.val) := by
  decide

theorem find_guess_first (g : Grid) (ii jj : Fin 9) (h : find_guess g = some (ii, jj))
    (a b : Fin 9) (hlt : 9 * a.val + b.val < 9 * ii.val + jj.val) : (g a b).count ≤ 1 := by
  unfold find_guess at h
  obtain ⟨_, as, bs, hsplit, hall⟩ := List.find?_eq_some.mp h
  have hs := allCells_sorted
  rw [hsplit, List.pairwise_append] at hs
  obtain ⟨_, hbs, _⟩ := hs
  have hmem : (a, b) ∈ as ++ (ii, jj) :: bs := by rw [← hsplit]; exact mem_allCells _
  rcases List.mem_append.mp hmem with h1 | h1
  · have := hall (a, b) h1
    simpa using this
  · rcases List.mem_cons.mp h1 with h2 | h2
    · simp only [Prod.mk.injEq] at h2
      rw [h2.1, h2.2] at hlt
      exact absurd hlt (lt_irrefl _)
    · have := (List.pairwise_cons.mp hbs).1 (a, b) h2
      simp only at this
      omega

theorem guess_loop_true (solve : State → Outcome (Bool × State))
    (hsolve : ∀ t s1, solve t ≠ .returned (true, s1)) (ii jj : Fin 9) (c : Cell)
    (l : List (Fin 9)) :
    ∀ (b0 : Bool) (s s2 : State), guess_loop solve ii jj c l b0 s = .returned (true, s2) →
      b0 = true ∧ ∀ ll ∈ l, c.cand ll = false := by
  induction l with
  | nil =>
    intro b0 s s2 h
    simp only [guess_loop, Outcome.returned.injEq, Prod.mk.injEq] at h
    exact ⟨h.1, fun ll hll => by simp at hll⟩
  | cons ll rest ih =>
    intro b0 s s2 h
    by_cases hc : c.cand ll = true
    · simp only [guess_loop, hc, if_true] at h
      cases hs : solve ⟨setCell s.sudoku ii jj (guess_cell ll), s.max_rec_depth,
          s.cur_rec_depth, s.guesses + 1⟩ with
      | outOfFuel => rw [hs] at h; exact Outcome.noConfusion h
      | undefined => rw [hs] at h; exact Outcome.noConfusion h
      | returned r =>
        obtain ⟨b, s1⟩ := r
        cases b with
        | true => exact absurd hs (hsolve _ _)
        | false =>
          rw [hs] at h
          simp only at h
          have := (ih false _ s2 h).1
          exact Bool.noConfusion this
    · have hc2 : c.cand ll = false := by simpa using hc
      simp only [guess_loop, hc2, Bool.false_eq_true, if_false] at h
      obtain ⟨h1, h2⟩ := ih b0 s s2 h
      refine ⟨h1, fun x hx => ?_⟩
      rcases List.mem_cons.mp hx with rfl | hr
      · exact hc2
      · exact h2 x hr

theorem scan_after_loop_some (g : Grid) (b : Bool) (n : Nat) (r : Option (Fin 9 × Fin 9))
    (h : scan_after_loop g = some (b, n, r)) :
    ∃ g1, propagation_loop 81 g 0 = .returned (g1, n) ∧ do_check g1 = b ∧
      find_guess g1 = r := by
  unfold scan_after_loop at h
  cases hl : propagation_loop 81 g 0 with
  | outOfFuel => rw [hl] at h; exact Option.noConfusion h
  | undefined => rw [hl] at h; exact Option.noConfusion h
  | returned p =>
    obtain ⟨g1, nk⟩ := p
    rw [hl] at h
    simp only [Option.some.injEq, Prod.mk.injEq] at h
    obtain ⟨h1, h2, h3⟩ := h
    rw [h2]
    exact ⟨g1, rfl, h1, h3⟩

set_option maxRecDepth 100000 in
theorem slotGrid_scan : scan_after_loop slotGrid = some (true, 80, none) := by decide

set_option maxRecDepth 100000 in
theorem oneGivenGrid_inv : Inv oneGivenGrid := by decide

set_option maxRecDepth 100000 in
theorem oneGivenGrid_scan : scan_after_loop oneGivenGrid = some (true, 1, some (0, 1)) := by
  decide

set_option maxRecDepth 100000 in
/-- C24, as stated, fails: `slotGrid` satisfies the candidate-count invariant
(not the resolved-value invariant: `FIXED_VAL(0,0)` is 10).  `proc_row`
resolves the target `(0,1)`, and `proc_block` then reads
`sudoku[0][1][FIXED_VAL(0,0) - 1]`, which is `CAND_COUNT(0,1)` and holds 1,
stores `FALSE` there and decrements it to -1.  The propagation loop returns
with 80 entries resolved, `do_check` accepts, and the scan finds no entry with
`CAND_COUNT > 1`: it runs to `ii = jj = 9` and `attempt_to_solve` indexes the
array there. -/
theorem guess_scan_overruns :
    CountInv slotGrid ∧ ¬ FixedInv slotGrid ∧
    (∃ g1 nk, propagation_loop 81 slotGrid 0 = .returned (g1, nk) ∧
      do_check g1 = true ∧ nk ≠ 81 ∧ find_guess g1 = none ∧
      ∀ ii jj, ¬ (g1 ii jj).count > 1) ∧
    (propagation_pass slotGrid).map (fun g => ((g 0 1).count, (g 0 1).fixed)) = some (-1, 2) ∧
    attempt_to_solve slotGrid = .undefined := by
  obtain ⟨g1, hl, hdc, hfg⟩ := scan_after_loop_some slotGrid true 80 none slotGrid_scan
  refine ⟨by decide, by decide, ⟨g1, 80, hl, hdc, by decide, hfg, ?_⟩, by decide, ?_⟩
  · intro ii jj
    unfold find_guess at hfg
    have := List.find?_eq_none.mp hfg (ii, jj) (mem_allCells _)
    simpa using this
  · show solve_body (attempt_to_solve_fuel 81) ⟨slotGrid, 0, 0, 0⟩ = .undefined
    unfold solve_body
    have he : (enter_solve ⟨slotGrid, 0, 0, 0⟩).sudoku = slotGrid := rfl
    simp only [he, hl, hdc, hfg]
    simp

/-- C24 (amended): when `attempt_to_solve` is entered with an array that
satisfies the candidate-count invariant and the resolved-value invariant, the
propagation loop returns, and if `do_check` then accepts and `num_known` is
not 81, the scan finds an entry (so `ii` and `jj` are in `0..8`), the first in
row-major order with `CAND_COUNT > 1`; that entry has at least two candidates
marked present, and the guess loop cannot return `TRUE` unless a recursive
call did. -/
theorem guess_cell_exists (g : Grid) (hg : Inv g) :
    ∃ g1 nk, propagation_loop 81 g 0 = .returned (g1, nk) ∧
      (do_check g1 = true → nk ≠ 81 →
        ∃ ii jj, find_guess g1 = some (ii, jj) ∧ (g1 ii jj).count > 1 ∧
          (∀ a b : Fin 9, 9 * a.val + b.val < 9 * ii.val + jj.val → (g1 a b).count ≤ 1) ∧
          2 ≤ numCand (g1 ii jj) ∧
          ∀ (solve : State → Outcome (Bool × State)) (s s2 : State),
            (∀ t s1, solve t ≠ .returned (true, s1)) →
            guess_loop solve ii jj (g1 ii jj) idx9 true s ≠ .returned (true, s2)) := by
  obtain ⟨g1, hloop, href⟩ := propagation_loop_refines 81 g 0 hg (by omega) (by omega)
  have hg1 : CountInv g1 := href.1.1
  refine ⟨g1, number_known g1, hloop, fun hdc hnk => ?_⟩
  cases hfg : find_guess g1 with
  | none => exact absurd hfg (find_guess_ne_none g1 hg1 hdc hnk)
  | some p =>
    obtain ⟨ii, jj⟩ := p
    have hcnt := find_guess_some g1 ii jj hfg
    have hnum : (g1 ii jj).count = (numCand (g1 ii jj) : Int) := hg1 ii jj
    refine ⟨ii, jj, rfl, hcnt, find_guess_first g1 ii jj hfg, by omega, ?_⟩
    intro solve s s2 hsolve h
    obtain ⟨_, hnone⟩ := guess_loop_true solve hsolve ii jj (g1 ii jj) idx9 true s s2 h
    have h0 := numCand_eq_zero (g1 ii jj) (fun k => hnone k (mem_idx9 k))
    omega

theorem guess_cell_exists_witness :
    Inv oneGivenGrid ∧
    ∃ g1 nk, propagation_loop 81 oneGivenGrid 0 = .returned (g1, nk) ∧
      do_check g1 = true ∧ nk ≠ 81 ∧
      ∃ ii jj, find_guess g1 = some (ii, jj) ∧ (g1 ii jj).count > 1 ∧
        (∀ a b : Fin 9, 9 * a.val + b.val < 9 * ii.val + jj.val → (g1 a b).count ≤ 1) ∧
        2 ≤ numCand (g1 ii jj) ∧
        ∀ (solve : State → Outcome (Bool × State)) (s s2 : State),
          (∀ t s1, solve t ≠ .returned (true, s1)) →
          guess_loop solve ii jj (g1 ii jj) idx9 true s ≠ .returned (true, s2) := by
  obtain ⟨g1, nk, hloop, himp⟩ := guess_cell_exists oneGivenGrid oneGivenGrid_inv
  obtain ⟨g2, hl2, hdc, _⟩ :=
    scan_after_loop_some oneGivenGrid true 1 (some (0, 1)) oneGivenGrid_scan
  rw [hloop] at hl2
  simp only [Outcome.returned.injEq, Prod.mk.injEq] at hl2
  obtain ⟨rfl, rfl⟩ := hl2
  exact ⟨oneGivenGrid_inv, g1, 1, hloop, hdc, by decide, himp hdc (by decide)⟩

/-! ### The depth of the recursion -/

theorem guess_loop_bound (solve : State → Outcome (Bool × State))
    (hdepth : ∀ t b t2, solve t = .returned (b, t2) → DepthOk t t2)
    (hbound : ∀ t : State, Inv t.sudoku → ∀ b t2, solve t = .returned (b, t2) →
      t2.max_rec_depth ≤ t.max_rec_depth ∨
      t2.max_rec_depth ≤ t.cur_rec_depth + 1 + undetermined t.sudoku)
    (g : Grid) (hg : Inv g) (ii jj : Fin 9) (hcnt : (g ii jj).count > 1) (c : Cell)
    (l : List (Fin 9)) :
    ∀ (b0 : Bool) (s : State) (b : Bool) (s2 : State), s.sudoku = g →
      guess_loop solve ii jj c l b0 s = .returned (b, s2) →
      s2.max_rec_depth ≤ s.max_rec_depth ∨
      s2.max_rec_depth ≤ s.cur_rec_depth + undetermined g := by
  induction l with
  | nil =>
    intro b0 s b s2 _ h
    simp only [guess_loop, Outcome.returned.injEq, Prod.mk.injEq] at h
    rw [← h.2]
    exact Or.inl (le_refl _)
  | cons ll rest ih =>
    intro b0 s b s2 hs h
    by_cases hc : c.cand ll = true
    · simp only [guess_loop, hc, if_true] at h
      cases hsv : solve ⟨setCell s.sudoku ii jj (guess_cell ll), s.max_rec_depth,
          s.cur_rec_depth, s.guesses + 1⟩ with
      | outOfFuel => rw [hsv] at h; exact Outcome.noConfusion h
      | undefined => rw [hsv] at h; exact Outcome.noConfusion h
      | returned r =>
        obtain ⟨b1, s1⟩ := r
        rw [hsv] at h
        have hd := (hdepth _ _ _ hsv).1
        have hb := hbound _ (by rw [hs]; exact Inv_setCell g hg ii jj _ (guess_cell_ok ll))
          _ _ hsv
        have hu := undetermined_guess g ii jj ll hcnt
        simp only [hs] at hd hb
        have hb2 : s1.max_rec_depth ≤ s.max_rec_depth ∨
            s1.max_rec_depth ≤ s.cur_rec_depth + undetermined g := by
          rcases hb with h1 | h1
          · exact Or.inl h1
          · exact Or.inr (by omega)
        cases b1 with
        | true =>
          simp only [Outcome.returned.injEq, Prod.mk.injEq] at h
          rw [← h.2]
          exact hb2
        | false =>
          simp only at h
          have := ih false ⟨s.sudoku, s1.max_rec_depth, s1.cur_rec_depth, s1.guesses⟩
            b s2 hs h
          simp only at this
          rw [hd] at this
          omega
    · have hc2 : c.cand ll = false := by simpa using hc
      simp only [guess_loop, hc2, Bool.false_eq_true, if_false] at h
      exact ih b0 s b s2 hs h

theorem solve_body_bound (solve : State → Outcome (Bool × State))
    (hdepth : ∀ t b t2, solve t = .returned (b, t2) → DepthOk t t2)
    (hbound : ∀ t : State, Inv t.sudoku → ∀ b t2, solve t = .returned (b, t2) →
      t2.max_rec_depth ≤ t.max_rec_depth ∨
      t2.max_rec_depth ≤ t.cur_rec_depth + 1 + undetermined t.sudoku)
    (s : State) (hg : Inv s.sudoku) (b : Bool) (s2 : State)
    (h : solve_body solve s = .returned (b, s2)) :
    s2.max_rec_depth ≤ s.max_rec_depth ∨
    s2.max_rec_depth ≤ s.cur_rec_depth + 1 + undetermined s.sudoku := by
  obtain ⟨g1, hloop, href⟩ := propagation_loop_refines 81 s.sudoku 0 hg (by omega) (by omega)
  have hu := undetermined_le_of_shrinks href.2.1
  unfold solve_body at h
  dsimp only at h
  have hloop2 : propagation_loop 81 (enter_solve s).sudoku 0 =
      .returned (g1, number_known g1) := hloop
  rw [hloop2] at h
  simp only at h
  have hmax0 : (enter_solve s).max_rec_depth ≤ s.max_rec_depth ∨
      (enter_solve s).max_rec_depth ≤ s.cur_rec_depth + 1 := by
    simp only [enter_solve]
    split_ifs
    · exact Or.inr (le_refl _)
    · exact Or.inl (le_refl _)
  have hcur0 : (enter_solve s).cur_rec_depth = s.cur_rec_depth + 1 := rfl
  have early : ∀ b0, exit_solve b0 ⟨g1, (enter_solve s).max_rec_depth,
      (enter_solve s).cur_rec_depth, (enter_solve s).guesses⟩ = .returned (b, s2) →
      s2.max_rec_depth ≤ s.max_rec_depth ∨
      s2.max_rec_depth ≤ s.cur_rec_depth + 1 + undetermined s.sudoku := by
    intro b0 he
    simp only [exit_solve, Outcome.returned.injEq, Prod.mk.injEq] at he
    rw [← he.2]
    simp only
    omega
  by_cases hdc : do_check g1 = false
  · simp only [hdc, if_true] at h
    exact early false h
  · have hdc2 : do_check g1 = true := by simpa using hdc
    by_cases hnk : number_known g1 = 81
    · simp only [hdc2, Bool.true_eq_false, if_false, hnk, if_true] at h
      exact early true h
    · simp only [hdc2, Bool.true_eq_false, if_false, hnk] at h
      cases hfg : find_guess g1 with
      | none => rw [hfg] at h; exact Outcome.noConfusion h
      | some p =>
        obtain ⟨ii, jj⟩ := p
        rw [hfg] at h
        simp only at h
        have hcnt := find_guess_some g1 ii jj hfg
        cases hgl : guess_loop solve ii jj (g1 ii jj) idx9 true
            ⟨g1, (enter_solve s).max_rec_depth, (enter_solve s).cur_rec_depth,
              (enter_solve s).guesses⟩ with
        | outOfFuel => rw [hgl] at h; exact Outcome.noConfusion h
        | undefined => rw [hgl] at h; exact Outcome.noConfusion h
        | returned r2 =>
          obtain ⟨b3, s3⟩ := r2
          rw [hgl] at h
          simp only [exit_solve, Outcome.returned.injEq, Prod.mk.injEq] at h
          have := guess_loop_bound solve hdepth hbound g1 href.1 ii jj hcnt (g1 ii jj) idx9
            true _ b3 s3 rfl hgl
          simp only at this
          rw [← h.2]
          simp only
          have hpos := undetermined_guess g1 ii jj 0 hcnt
          omega

theorem attempt_to_solve_fuel_bound (fuel : Nat) :
    ∀ t : State, Inv t.sudoku → ∀ b t2, attempt_to_solve_fuel fuel t = .returned (b, t2) →
      t2.max_rec_depth ≤ t.max_rec_depth ∨
      t2.max_rec_depth ≤ t.cur_rec_depth + 1 + undetermined t.sudoku := by
  induction fuel with
  | zero => intro t _ b t2 h; exact Outcome.noConfusion h
  | succ n ih =>
    intro t ht b t2 h
    exact solve_body_bound _ (attempt_to_solve_fuel_depth n) ih t ht b t2 h

/-! ### Undetermined entries of the initial array are the zeros of the input -/

theorem countP_range_getElem? (l : List Int) :
    (List.range l.length).countP (fun n => decide (l[n]? = some 0)) = l.count 0 := by
  induction l with
  | nil => rfl
  | cons a rest ih =>
    rw [List.length_cons, List.range_succ_eq_map, List.countP_cons, List.countP_map,
      List.count_cons]
    have e : ((fun n => decide ((a :: rest)[n]? = some 0)) ∘ Nat.succ) =
        (fun n => decide (rest[n]? = some 0)) := by
      funext n
      simp
    rw [e, ih]
    simp

theorem allCells_map_index : allCells.map (fun p => 9 * p.1.val + p.2.val) = List.range 81 := by
  decide

theorem undetermined_of_input (file : List Int) (xx0 : Int) (hlen : file.length = 81)
    (hgood : ∀ x ∈ file, 0 ≤ x ∧ x ≤ 9) :
    undetermined (initialize_sudoku file xx0).sudoku = file.count 0 := by
  have e : undetermined (initialize_sudoku file xx0).sudoku =
      allCells.countP ((fun n => decide (file[n]? = some 0)) ∘
        (fun p => 9 * p.1.val + p.2.val)) := by
    unfold undetermined
    apply List.countP_congr
    intro p _
    obtain ⟨v, hv⟩ := inputAt_exists file hlen p.1 p.2
    have hv2 : file[9 * p.1.val + p.2.val]? = some v := hv
    have hmem : v ∈ file := List.mem_iff_getElem?.mpr ⟨_, hv⟩
    have hr := hgood v hmem
    rw [initialize_sudoku_cell file xx0 hlen (good_iff file hgood) p.1 p.2 v hv]
    simp only [Function.comp, hv2, Option.some.injEq, decide_eq_true_eq]
    by_cases hpos : v > 0
    · simp only [initCell, hpos, if_true]
      constructor
      · intro h; omega
      · intro h; omega
    · simp only [initCell, hpos, if_false]
      constructor
      · intro _; omega
      · intro _; omega
  rw [e, ← List.countP_map, allCells_map_index, ← hlen, countP_range_getElem?]

/-- C21: on the array built from 81 values in `[0,9]` the top-level
`attempt_to_solve`, started with both counters at 0, returns with
`max_rec_depth` at most 1 plus the number of zeros of the input, which is at
most 81.  As `max_rec_depth` is raised to `cur_rec_depth` at every entry, the
number of nested calls below the top-level one never exceeds the number of
zeros. -/
theorem depth_bound (file : List Int) (xx0 : Int) (hlen : file.length = 81)
    (hgood : ∀ x ∈ file, 0 ≤ x ∧ x ≤ 9) :
    ∃ b s2, attempt_to_solve (initialize_sudoku file xx0).sudoku = .returned (b, s2) ∧
      s2.max_rec_depth ≤ 1 + (file.count 0 : Int) ∧ file.count 0 ≤ 81 := by
  have hinv := initialize_sudoku_inv file xx0 hlen (good_iff file hgood)
  obtain ⟨b, s2, hrun, _⟩ := attempt_to_solve_returns _ hinv
  have hb := attempt_to_solve_fuel_bound 82 ⟨_, 0, 0, 0⟩ hinv b s2 hrun
  have hd := attempt_to_solve_fuel_depth 82 ⟨_, 0, 0, 0⟩ b s2 hrun
  simp only at hb
  rw [undetermined_of_input file xx0 hlen hgood] at hb
  have hle : file.count 0 ≤ 81 := by rw [← hlen]; exact List.count_le_length _ _
  refine ⟨b, s2, hrun, ?_, hle⟩
  omega

theorem depth_bound_witness :
    ∃ b s2, attempt_to_solve (initialize_sudoku sampleFile 0).sudoku = .returned (b, s2) ∧
      s2.max_rec_depth ≤ 1 + (sampleFile.count 0 : Int) ∧ sampleFile.count 0 ≤ 81 :=
  depth_bound sampleFile 0 sampleFile_length sampleFile_good

/-! ### The first solution found is the least -/

theorem solIdx_of_cons (g : Grid) (hg : Inv g) (S : Fin 9 → Fin 9 → Fin 9) (hc : Cons S g)
    (a b : Fin 9) (h1 : (g a b).count = 1) : solIdx g a b = S a b := by
  obtain ⟨k, hk, honly⟩ := hg.2 a b h1
  have e : S a b = k := (honly _).mp (hc a b)
  unfold solIdx
  rw [hk, idxOf_succ, e]

theorem idx9_sorted : idx9.Pairwise (fun a b => a < b) := by decide

theorem guess_loop_min (solve : State → Outcome (Bool × State)) (g : Grid) (hg : Inv g)
    (ii jj : Fin 9) (hcnt : (g ii jj).count > 1)
    (hbefore : ∀ a b, cellIndex a b < cellIndex ii jj → (g a b).count = 1)
    (hsolve : SolveSpec solve (undetermined g))
    (hmin : ∀ t : State, Inv t.sudoku → undetermined t.sudoku < undetermined g →
      ∀ t2, solve t = .returned (true, t2) →
        ∀ S, ValidIdx S → Cons S t.sudoku → LexLeIdx (solIdx t2.sudoku) S)
    (l : List (Fin 9)) (hl : l.Pairwise (fun a b => a < b)) :
    ∀ (b0 : Bool) (s s2 : State), s.sudoku = g →
      guess_loop solve ii jj (g ii jj) l b0 s = .returned (true, s2) →
      ∀ S, ValidIdx S → Cons S g → S ii jj ∈ l → LexLeIdx (solIdx s2.sudoku) S := by
  induction l with
  | nil => intro b0 s s2 _ _ S _ _ hmem; simp at hmem
  | cons ll rest ih =>
    intro b0 s s2 hs h S hS hcons hmem
    have hl2 := List.pairwise_cons.mp hl
    by_cases hc : (g ii jj).cand ll = true
    · have hinv : Inv (setCell g ii jj (guess_cell ll)) :=
        Inv_setCell g hg ii jj _ (guess_cell_ok ll)
      have hund := undetermined_guess g ii jj ll hcnt
      obtain ⟨b1, t2, ht, hpost⟩ := hsolve
        ⟨setCell s.sudoku ii jj (guess_cell ll), s.max_rec_depth, s.cur_rec_depth,
          s.guesses + 1⟩
        (by rw [hs]; exact hinv) (by rw [hs]; exact hund)
      simp only [hs] at hpost
      simp only [guess_loop, hc, if_true, ht] at h
      cases b1 with
      | true =>
        simp only [Outcome.returned.injEq, Prod.mk.injEq, true_and] at h
        subst h
        rcases List.mem_cons.mp hmem with heq | hrest
        · have hm := hmin _ (by rw [hs]; exact hinv) (by rw [hs]; exact hund) t2 ht S hS
            (by rw [hs, ← heq]; exact cons_guess g ii jj S hcons)
          exact hm
        · have hlt : ll < S ii jj := hl2.1 _ hrest
          have hsh := (hpost.2.1 rfl).2
          refine Or.inr ⟨ii, jj, fun a b hab => ?_, ?_⟩
          · have hne : ¬(a = ii ∧ b = jj) := by
              rintro ⟨rfl, rfl⟩
              exact absurd hab (lt_irrefl _)
            have h1 := hbefore a b hab
            have e1 : t2.sudoku a b = g a b := by
              have := (hsh a b).1 (by rw [setCell_other g ii jj a b _ hne]; omega)
              rw [this, setCell_other g ii jj a b _ hne]
            unfold solIdx
            rw [e1]
            exact solIdx_of_cons g hg S hcons a b h1
          · have e2 : t2.sudoku ii jj = guess_cell ll := by
              have := (hsh ii jj).1 (by rw [setCell_same]; simp [guess_cell])
              rw [this, setCell_same]
            unfold solIdx
            rw [e2]
            simp only [guess_cell, idxOf_succ]
            exact hlt
      | false =>
        simp only at h
        rw [hs] at h
        rcases List.mem_cons.mp hmem with heq | hrest
        · have := hpost.2.2 S hS (by rw [← heq]; exact cons_guess g ii jj S hcons)
          exact Bool.noConfusion this
        · exact ih hl2.2 false _ s2 rfl h S hS hcons hrest
    · have hc2 : (g ii jj).cand ll = false := by simpa using hc
      simp only [guess_loop, hc2, Bool.false_eq_true, if_false] at h
      rcases List.mem_cons.mp hmem with heq | hrest
      · have := hcons ii jj
        rw [heq, hc2] at this
        exact Bool.noConfusion this
      · exact ih hl2.2 b0 s s2 hs h S hS hcons hrest

theorem solve_body_min (solve : State → Outcome (Bool × State)) (s : State)
    (hg : Inv s.sudoku) (hsolve : SolveSpec solve (undetermined s.sudoku))
    (hmin : ∀ t : State, Inv t.sudoku → undetermined t.sudoku < undetermined s.sudoku →
      ∀ t2, solve t = .returned (true, t2) →
        ∀ S, ValidIdx S → Cons S t.sudoku → LexLeIdx (solIdx t2.sudoku) S)
    (s2 : State) (h : solve_body solve s = .returned (true, s2))
    (S : Fin 9 → Fin 9 → Fin 9) (hS : ValidIdx S) (hcons : Cons S s.sudoku) :
    LexLeIdx (solIdx s2.sudoku) S := by
  obtain ⟨g1, hloop, href⟩ := propagation_loop_refines 81 s.sudoku 0 hg (by omega) (by omega)
  have hu := undetermined_le_of_shrinks href.2.1
  have hcons1 : Cons S g1 := href.2.2 S hS hcons
  unfold solve_body at h
  dsimp only at h
  have hloop2 : propagation_loop 81 (enter_solve s).sudoku 0 =
      .returned (g1, number_known g1) := hloop
  rw [hloop2] at h
  simp only at h
  by_cases hdc : do_check g1 = false
  · simp [hdc, exit_solve] at h
  · have hdc2 : do_check g1 = true := by simpa using hdc
    by_cases hnk : number_known g1 = 81
    · simp only [hdc2, Bool.true_eq_false, if_false, hnk, if_true, exit_solve,
        Outcome.returned.injEq, Prod.mk.injEq, true_and] at h
      rw [← h]
      exact Or.inl (fun i j => solIdx_of_cons g1 href.1 S hcons1 i j
        (all_resolved_of_number_known g1 hnk i j))
    · simp only [hdc2, Bool.true_eq_false, if_false, hnk] at h
      cases hfg : find_guess g1 with
      | none => rw [hfg] at h; exact Outcome.noConfusion h
      | some p =>
        obtain ⟨ii, jj⟩ := p
        rw [hfg] at h
        simp only at h
        have hcnt := find_guess_some g1 ii jj hfg
        have hbefore : ∀ a b, cellIndex a b < cellIndex ii jj → (g1 a b).count = 1 := by
          intro a b hab
          have h1 := find_guess_first g1 ii jj hfg a b hab
          have h2 : (g1 a b).count ≠ 0 := fun h0 => ((do_check_true_iff g1).mp hdc2).1 ⟨a, b, h0⟩
          have h3 : (g1 a b).count = (numCand (g1 a b) : Int) := href.1.1 a b
          omega
        cases hgl : guess_loop solve ii jj (g1 ii jj) idx9 true
            ⟨g1, (enter_solve s).max_rec_depth, (enter_solve s).cur_rec_depth,
              (enter_solve s).guesses⟩ with
        | outOfFuel => rw [hgl] at h; exact Outcome.noConfusion h
        | undefined => rw [hgl] at h; exact Outcome.noConfusion h
        | returned r2 =>
          obtain ⟨b3, s3⟩ := r2
          rw [hgl] at h
          simp only [exit_solve, Outcome.returned.injEq, Prod.mk.injEq] at h
          obtain ⟨hb, hs⟩ := h
          subst hb
          rw [← hs]
          exact guess_loop_min solve g1 href.1 ii jj hcnt hbefore
            (fun t ht hlt => hsolve t ht (lt_of_lt_of_le hlt hu))
            (fun t ht hlt => hmin t ht (lt_of_lt_of_le hlt hu))
            idx9 idx9_sorted true _ s3 rfl hgl S hS hcons1 (mem_idx9 _)

theorem attempt_to_solve_fuel_min (fuel : Nat) :
    ∀ t : State, Inv t.sudoku → undetermined t.sudoku < fuel →
      ∀ t2, attempt_to_solve_fuel fuel t = .returned (true, t2) →
        ∀ S, ValidIdx S → Cons S t.sudoku → LexLeIdx (solIdx t2.sudoku) S := by
  induction fuel with
  | zero => intro t _ h; omega
  | succ n ih =>
    intro t ht hlt t2 h S hS hcons
    exact solve_body_min (attempt_to_solve_fuel n) t ht
      (fun u hu hlt2 => attempt_to_solve_fuel_spec n u hu (by omega))
      (fun u hu hlt2 => ih u hu (by omega)) t2 h S hS hcons

theorem agrees_of_shrinks (file : List Int) (xx0 : Int) (hlen : file.length = 81)
    (hgood : ∀ x ∈ file, 0 ≤ x ∧ x ≤ 9) (g2 : Grid)
    (hsh : Shrinks (initialize_sudoku file xx0).sudoku g2) :
    AgreesWith (fun i j => (g2 i j).fixed) file := by
  intro i j v hv hne
  have hc := given_cell file xx0 hlen hgood i j v hv hne
  have := (hsh i j).1 (by omega)
  simp only [this, hc.2]

theorem lexLe_of_idx (g : Grid) (hg : Inv g) (hres : ∀ i j, (g i j).count = 1)
    (W : Fin 9 → Fin 9 → Int) (hW : IsSudoku W)
    (h : LexLeIdx (solIdx g) (fun i j => idxOf (W i j))) :
    LexLe (fun i j => (g i j).fixed) W := by
  have hval : ∀ i j, ((solIdx g i j).val : Int) + 1 = (g i j).fixed := by
    intro i j
    obtain ⟨k, hk, _⟩ := hg.2 i j (hres i j)
    unfold solIdx
    rw [hk, idxOf_succ]
  have hwval : ∀ i j, ((idxOf (W i j)).val : Int) + 1 = W i j := fun i j =>
    idxOf_val _ (isSudoku_range W hW i j).1 (isSudoku_range W hW i j).2
  have heq : ∀ i j, solIdx g i j = idxOf (W i j) → (g i j).fixed = W i j := by
    intro i j e
    rw [← hval i j, ← hwval i j, e]
  rcases h with h | ⟨i, j, hpre, hlt⟩
  · left
    funext i j
    exact heq i j (h i j)
  · right
    refine ⟨i, j, fun a b hab => heq a b (hpre a b hab), ?_⟩
    have hlt2 : (solIdx g i j).val < (idxOf (W i j)).val := hlt
    have h1 := hval i j
    have h2 := hwval i j
    show (g i j).fixed < W i j
    omega

/-- C22: when the input of 81 values in `[0,9]` has a valid completion, the
top-level `attempt_to_solve` returns `TRUE`, and the resolved values of the
array it leaves form a complete valid grid that agrees with the givens and is
at most every such grid in the lexicographic order of the row-major sequences
of values. -/
theorem least_solution (file : List Int) (xx0 : Int) (hlen : file.length = 81)
    (hgood : ∀ x ∈ file, 0 ≤ x ∧ x ≤ 9) (hex : ∃ W, IsSudoku W ∧ AgreesWith W file) :
    ∃ s2, attempt_to_solve (initialize_sudoku file xx0).sudoku = .returned (true, s2) ∧
      IsSudoku (fun i j => (s2.sudoku i j).fixed) ∧
      AgreesWith (fun i j => (s2.sudoku i j).fixed) file ∧
      ∀ W, IsSudoku W → AgreesWith W file → LexLe (fun i j => (s2.sudoku i j).fixed) W := by
  have hinv := initialize_sudoku_inv file xx0 hlen (good_iff file hgood)
  obtain ⟨b, s2, hrun, hpost⟩ := attempt_to_solve_returns _ hinv
  obtain ⟨W0, hW0, hag0⟩ := hex
  have hb : b = true := hpost.2.2 _ (validIdx_of_isSudoku W0 hW0)
    (cons_of_agrees file xx0 hlen hgood W0 hW0 hag0)
  subst hb
  obtain ⟨hsolved, hsh⟩ := hpost.2.1 rfl
  obtain ⟨hres, hsud⟩ := solved_isSudoku s2.sudoku hpost.1 hsolved
  refine ⟨s2, hrun, hsud, agrees_of_shrinks file xx0 hlen hgood _ hsh, fun W hW hag => ?_⟩
  apply lexLe_of_idx s2.sudoku hpost.1 hres W hW
  exact attempt_to_solve_fuel_min 82 ⟨_, 0, 0, 0⟩ hinv
    (lt_of_le_of_lt (undetermined_le _) (by omega)) s2 hrun _
    (validIdx_of_isSudoku W hW) (cons_of_agrees file xx0 hlen hgood W hW hag)

theorem least_solution_witness :
    ∃ s2, attempt_to_solve (initialize_sudoku (List.replicate 81 0) 0).sudoku =
        .returned (true, s2) ∧
      IsSudoku (fun i j => (s2.sudoku i j).fixed) ∧
      AgreesWith (fun i j => (s2.sudoku i j).fixed) (List.replicate 81 0) ∧
      ∀ W, IsSudoku W → AgreesWith W (List.replicate 81 0) →
        LexLe (fun i j => (s2.sudoku i j).fixed) W :=
  least_solution (List.replicate 81 0) 0 (by simp) zeros_good
    ⟨sampleVal, sampleVal_isSudoku, zeros_agree sampleVal⟩

end CSudoku
